import Mathlib

/-!
Shallow embedding of the single-instrument limit order book engine of
src/src/main.cpp, together with proofs about its operations.

Machine integers of the source are modelled by unbounded types: Price
(std::int32_t) as Int, Quantity (std::uint32_t) and OrderId (std::uint64_t)
as Nat.  The only arithmetic the source performs on these values is
comparison, min, and a subtraction guarded against underflow
(Order::Fill rejects quantity > remaining before subtracting), so no
wrap-around is observable and the unbounded model is exact.

The C++ stores orders behind shared_ptr, with the price ladders
(std::map<Price, std::list<OrderPointer>>) and the id index
(std::unordered_map<OrderId, OrderEntry>) referring to the same heap
objects.  The embedding uses value semantics: a ladder is an association
list of (price, order queue) pairs kept in the map's comparator order, and
the index is an association list from id to the order data recorded at
insertion (only its immutable fields — id, side, price, type — are ever
read through the index).
-/

inductive OrderType where
  | GoodTillCancel
  | FillAndKill
deriving DecidableEq, Repr

inductive Side where
  | Buy
  | Sell
deriving DecidableEq, Repr

/-- The Order record.  Price (int32_t) is Int; Quantity (uint32_t) and
OrderId (uint64_t) are Nat.  The C++ constructor sets remainingQuantity to
the submitted quantity; mkOrder below mirrors it. -/
structure Order where
  orderType : OrderType
  orderId : Nat
  side : Side
  price : Int
  initialQuantity : Nat
  remainingQuantity : Nat
deriving DecidableEq, Repr

/-- The Order constructor: both quantity fields start at the submitted
quantity. -/
def mkOrder (orderType : OrderType) (orderId : Nat) (side : Side)
    (price : Int) (quantity : Nat) : Order :=
  ⟨orderType, orderId, side, price, quantity, quantity⟩

def Order.GetFilledQuantity (o : Order) : Nat :=
  o.initialQuantity - o.remainingQuantity

def Order.IsFilled (o : Order) : Bool :=
  o.remainingQuantity == 0

/-- Order::Fill.  The C++ throws std::logic_error when the quantity exceeds
the remaining quantity; the embedding returns that failure in Except. -/
def Order.Fill (o : Order) (quantity : Nat) : Except String Order :=
  if quantity > o.remainingQuantity then
    .error "Order cannot be filled for more than its remaining quantity."
  else
    .ok { o with remainingQuantity := o.remainingQuantity - quantity }

/-- The state update Order::Fill performs on success.  The matching loop is
defined with this total function; the theorem for claim C10 shows the
Except.error branch of Order.Fill is never taken for the quantities the
loop computes, so the two agree everywhere the loop calls Fill. -/
def Order.fillTotal (o : Order) (quantity : Nat) : Order :=
  { o with remainingQuantity := o.remainingQuantity - quantity }

structure TradeInfo where
  orderId : Nat
  price : Int
  quantity : Nat
deriving DecidableEq, Repr

structure Trade where
  bidTrade : TradeInfo
  askTrade : TradeInfo
deriving DecidableEq, Repr

structure OrderModify where
  orderId : Nat
  side : Side
  price : Int
  quantity : Nat
deriving DecidableEq, Repr

/-- OrderModify::ToOrderPointer: builds a brand-new Order from the request
fields and the supplied (preserved) order type. -/
def OrderModify.ToOrderPointer (m : OrderModify) (orderType : OrderType) : Order :=
  mkOrder orderType m.orderId m.side m.price m.quantity

/-- One price level's queue (std::list<OrderPointer>), front of the list =
begin(), i.e. the oldest order at this price. -/
abbrev OrderQueue := List Order

/-- One side's price ladder (std::map<Price, OrderPointers>), kept in the
map's iteration order: bids descending, asks ascending by price. -/
abbrev Ladder := List (Int × OrderQueue)

/-- The id index orders_ (std::unordered_map<OrderId, OrderEntry>).  An
entry records the order as inserted; only its immutable fields are read
back through the index. -/
abbrev OrderIndex := List (Nat × Order)

def containsId (ords : OrderIndex) (id : Nat) : Bool :=
  ords.any (fun e => e.1 == id)

def lookupId (ords : OrderIndex) (id : Nat) : Option Order :=
  (ords.find? (fun e => e.1 == id)).map (·.2)

/-- unordered_map::erase by key; keys are unique (AddOrder refuses
duplicates), so erasing the first occurrence is map erasure. -/
def eraseId (ords : OrderIndex) (id : Nat) : OrderIndex :=
  ords.eraseP (fun e => e.1 == id)

/-- map::at for a ladder.  The C++ at() throws when the price is absent;
every call site is guarded by the book invariant (the level of a resting
order is always present), under which the default [] branch is dead. -/
def getLevel (lad : Ladder) (p : Int) : OrderQueue :=
  ((lad.find? (fun e => e.1 == p)).map (·.2)).getD []

def eraseLevel (lad : Ladder) (p : Int) : Ladder :=
  lad.filter (fun e => e.1 != p)

def setLevel (lad : Ladder) (p : Int) (l : OrderQueue) : Ladder :=
  lad.map (fun e => if e.1 == p then (e.1, l) else e)

/-- bids_[price].push_back(order): std::map with std::greater keeps keys
descending; operator[] creates the level if absent and push_back appends
the order at the back of its queue. -/
def insertBid (o : Order) : Ladder → Ladder
  | [] => [(o.price, [o])]
  | (p, l) :: rest =>
    if o.price > p then (o.price, [o]) :: (p, l) :: rest
    else if o.price == p then (p, l ++ [o]) :: rest
    else (p, l) :: insertBid o rest

/-- asks_[price].push_back(order): keys ascending (std::less). -/
def insertAsk (o : Order) : Ladder → Ladder
  | [] => [(o.price, [o])]
  | (p, l) :: rest =>
    if o.price < p then (o.price, [o]) :: (p, l) :: rest
    else if o.price == p then (p, l ++ [o]) :: rest
    else (p, l) :: insertAsk o rest

structure Orderbook where
  bids : Ladder
  asks : Ladder
  orders : OrderIndex
deriving DecidableEq, Repr

/-- Orderbook::CanMatch. -/
def Orderbook.CanMatch (book : Orderbook) (side : Side) (price : Int) : Bool :=
  match side with
  | .Buy =>
    match book.asks with
    | [] => false
    | (bestAsk, _) :: _ => decide (price ≥ bestAsk)
  | .Sell =>
    match book.bids with
    | [] => false
    | (bestBid, _) :: _ => decide (price ≤ bestBid)

/-- Result of the inner matching loop on the two front level queues:
the surviving queues, the updated id index, and the trades emitted. -/
structure LevelMatchResult where
  bids : OrderQueue
  asks : OrderQueue
  orders : OrderIndex
  trades : List Trade
deriving DecidableEq, Repr

/-- The Trade the loop pushes for one fill event: the bid leg carries the
bid order's id and its own resting price, the ask leg the ask order's id
and resting price, both legs the matched quantity (main.cpp lines
240-243).  The C++ reads the ids and prices through the order pointers
after the fill; both fields are never written after construction, so the
values equal the pre-fill ones. -/
def tradeOf (bid ask : Order) (quantity : Nat) : Trade :=
  ⟨⟨bid.orderId, bid.price, quantity⟩, ⟨ask.orderId, ask.price, quantity⟩⟩

/-- quantity = std::min(bid->GetRemainingQuantity(), ask->GetRemainingQuantity())
(main.cpp line 217), the local of one inner-loop iteration. -/
def fillQuantity (bid ask : Order) : Nat :=
  min bid.remainingQuantity ask.remainingQuantity

/-- The best-bid-level queue after one inner-loop iteration: both front
orders are filled by fillQuantity and the bid is popped if that filled
it (main.cpp lines 220-227). -/
def stepBids (bid ask : Order) (bids : OrderQueue) : OrderQueue :=
  if (bid.fillTotal (fillQuantity bid ask)).IsFilled then bids
  else bid.fillTotal (fillQuantity bid ask) :: bids

/-- The best-ask-level queue after one inner-loop iteration (main.cpp
lines 229-233). -/
def stepAsks (bid ask : Order) (asks : OrderQueue) : OrderQueue :=
  if (ask.fillTotal (fillQuantity bid ask)).IsFilled then asks
  else ask.fillTotal (fillQuantity bid ask) :: asks

/-- The id index after one inner-loop iteration: a fully filled order's id
is erased, bid first, then ask (main.cpp lines 223-233). -/
def stepOrds (bid ask : Order) (ords : OrderIndex) : OrderIndex :=
  if (ask.fillTotal (fillQuantity bid ask)).IsFilled then
    eraseId (if (bid.fillTotal (fillQuantity bid ask)).IsFilled then eraseId ords bid.orderId
             else ords) ask.orderId
  else (if (bid.fillTotal (fillQuantity bid ask)).IsFilled then eraseId ords bid.orderId
        else ords)

/-- The inner while loop of Orderbook::MatchOrders
(while(bids.size() && asks.size())), acting on the queues of the best bid
level and best ask level.  Each iteration fills both front orders by
quantity = min of their remaining quantities (via fillTotal; claim C10's
theorem shows Order.Fill cannot fail here), pops an order that became
filled and erases its id from the index, and emits one Trade reading the
ids and resting prices of the two orders (immutable fields, so reading
them before or after the fill is equivalent).  The C++ erases an emptied
price level from its ladder inside this loop; the embedding performs that
erasure in matchLoop when reassembling the ladders, which touches the same
maps at the same values. -/
def matchLevel : OrderQueue → OrderQueue → OrderIndex → LevelMatchResult
  | [], asks, ords => ⟨[], asks, ords, []⟩
  | bid :: bids, [], ords => ⟨bid :: bids, [], ords, []⟩
  | bid :: bids, ask :: asks, ords =>
    let r := matchLevel (stepBids bid ask bids) (stepAsks bid ask asks) (stepOrds bid ask ords)
    ⟨r.bids, r.asks, r.orders, tradeOf bid ask (fillQuantity bid ask) :: r.trades⟩
termination_by bids asks _ => bids.length + asks.length
decreasing_by
  simp only [stepBids, stepAsks, fillQuantity, Order.IsFilled, Order.fillTotal]
  rcases Nat.le_total bid.remainingQuantity ask.remainingQuantity with h | h
  · have hb : bid.remainingQuantity - min bid.remainingQuantity ask.remainingQuantity = 0 := by
      omega
    simp only [hb]
    simp only [beq_self_eq_true, if_true]
    by_cases ha : ask.remainingQuantity - min bid.remainingQuantity ask.remainingQuantity = 0 <;>
      simp [ha, List.length_cons] <;> omega
  · have ha : ask.remainingQuantity - min bid.remainingQuantity ask.remainingQuantity = 0 := by
      omega
    simp only [ha]
    simp only [beq_self_eq_true, if_true]
    by_cases hb : bid.remainingQuantity - min bid.remainingQuantity ask.remainingQuantity = 0 <;>
      simp [hb, List.length_cons] <;> omega


/-- Result of the full matching loop: the two ladders, the id index, and
the accumulated trades vector. -/
structure BookMatchResult where
  bids : Ladder
  asks : Ladder
  orders : OrderIndex
  trades : List Trade
deriving DecidableEq, Repr

/-- The while(true) loop of Orderbook::MatchOrders.  Each iteration stops
when a ladder is empty or the best prices no longer cross, otherwise it
runs the inner loop (matchLevel) on the two front levels and erases a
level whose queue emptied (always at least one of the two, by
matchLevel_empty).  Divergence from the source in unreachable states only:
if a ladder held an empty front queue the C++ inner loop would run zero
iterations, erase nothing, and the outer loop would spin forever; the
embedding erases such a level and continues.  The book invariant (every
stored level is non-empty, proved preserved below) makes that case
unreachable through the public operations. -/
def matchLoop : Ladder → Ladder → OrderIndex → BookMatchResult
  | [], asks, ords => ⟨[], asks, ords, []⟩
  | b :: bids, [], ords => ⟨b :: bids, [], ords, []⟩
  | (bidPrice, bidOrders) :: restBids, (askPrice, askOrders) :: restAsks, ords =>
    if bidPrice < askPrice then
      ⟨(bidPrice, bidOrders) :: restBids, (askPrice, askOrders) :: restAsks, ords, []⟩
    else
      let r := matchLevel bidOrders askOrders ords
      let bids' := if r.bids.isEmpty then restBids else (bidPrice, r.bids) :: restBids
      let asks' := if r.asks.isEmpty then restAsks else (askPrice, r.asks) :: restAsks
      let next := matchLoop bids' asks' r.orders
      ⟨next.bids, next.asks, next.orders, r.trades ++ next.trades⟩
termination_by bids asks _ => bids.length + asks.length
decreasing_by
  have he : (matchLevel bidOrders askOrders ords).bids = []
      ∨ (matchLevel bidOrders askOrders ords).asks = [] := by
    induction bidOrders, askOrders, ords using matchLevel.induct with
    | case1 asks ords => left; simp [matchLevel]
    | case2 bid bids ords => right; simp [matchLevel]
    | case3 bid bids ask asks ords ih =>
      simp only [matchLevel]
      exact ih
  split <;> split <;> simp only [List.length_cons] <;> try omega
  exfalso
  rcases he with h | h <;> simp_all [List.isEmpty_iff]

/-- Orderbook::CancelOrder.  A no-op when the id is unknown; otherwise the
entry is removed from the index and the order is removed from its price
level's queue (erase by the stored iterator: under the book invariant ids
are unique, so it is the unique queue element with this id), and the level
is erased from its ladder if its queue became empty.  The C++ reads the
entry's side and price through a reference bound just before the index
erase; the embedding reads the same values from the looked-up entry. -/
def cancelLadder (lad : Ladder) (p : Int) (id : Nat) : Ladder :=
  let level' := (getLevel lad p).eraseP (fun o => o.orderId == id)
  if level'.isEmpty then eraseLevel lad p else setLevel lad p level'

def Orderbook.CancelOrder (book : Orderbook) (orderId : Nat) : Orderbook :=
  match lookupId book.orders orderId with
  | none => book
  | some order =>
    match order.side with
    | .Sell => ⟨book.bids, cancelLadder book.asks order.price orderId, eraseId book.orders orderId⟩
    | .Buy => ⟨cancelLadder book.bids order.price orderId, book.asks, eraseId book.orders orderId⟩

/-- The first fill-and-kill check at the end of Orderbook::MatchOrders
(main.cpp lines 248-254): if the front order of the best bid level is
FillAndKill, it is cancelled (the C++ front() on an empty queue would be
undefined; such a queue never occurs, and the embedding skips the check
then). -/
def fnkBidStep (b : Orderbook) : Orderbook :=
  match b.bids with
  | (_, order :: _) :: _ =>
    if order.orderType == OrderType.FillAndKill then b.CancelOrder order.orderId
    else b
  | _ => b

/-- The second fill-and-kill check of Orderbook::MatchOrders (main.cpp
lines 255-261), on the front order of the best ask level. -/
def fnkAskStep (b : Orderbook) : Orderbook :=
  match b.asks with
  | (_, order :: _) :: _ =>
    if order.orderType == OrderType.FillAndKill then b.CancelOrder order.orderId
    else b
  | _ => b

/-- Orderbook::MatchOrders: the matching loop followed by the two
fill-and-kill checks on the front order of the best level of each ladder.
The C++ declares the return type Trades but contains no return statement,
so the value AddOrder receives from it is undefined; the embedding
returns the trades vector the loop accumulated, which is what the spec
says the function returns. -/
def Orderbook.MatchOrders (book : Orderbook) : Orderbook × List Trade :=
  let r := matchLoop book.bids book.asks book.orders
  let book1 : Orderbook := ⟨r.bids, r.asks, r.orders⟩
  (fnkAskStep (fnkBidStep book1), r.trades)

/-- Orderbook::AddOrder: duplicate-id and fill-and-kill admission checks,
then insertion at the back of the order's price level, registration in the
index, and the matching loop.  The trades component is the vector built by
MatchOrders (see the note there about the missing return statement). -/
def Orderbook.AddOrder (book : Orderbook) (order : Order) : Orderbook × List Trade :=
  if containsId book.orders order.orderId then (book, [])
  else if order.orderType == OrderType.FillAndKill
      && !(book.CanMatch order.side order.price) then (book, [])
  else
    let book1 : Orderbook :=
      match order.side with
      | .Buy => ⟨insertBid order book.bids, book.asks, book.orders⟩
      | .Sell => ⟨book.bids, insertAsk order book.asks, book.orders⟩
    let book2 : Orderbook := ⟨book1.bids, book1.asks, book1.orders ++ [(order.orderId, order)]⟩
    book2.MatchOrders

/-- Orderbook::MatchOrder (the modify operation).  The C++ body consists
solely of the unknown-id guard (return {}) - after it the function ends
with no further statements, so for a known id no state is mutated and the
returned Trades value is undefined (flowing off the end of a
value-returning function).  The embedding returns the unchanged book and
an empty list in both branches, which is exactly the state behaviour of
the source; the cancel-and-resubmit the spec describes is absent from the
source. -/
def Orderbook.MatchOrder (book : Orderbook) (request : OrderModify) : Orderbook × List Trade :=
  if !containsId book.orders request.orderId then (book, [])
  else (book, [])

/-- One call through the public mutating interface. -/
inductive Op where
  | add (order : Order)
  | cancel (orderId : Nat)
  | modify (request : OrderModify)
deriving DecidableEq, Repr

def Orderbook.applyOp (book : Orderbook) : Op → Orderbook
  | .add order => (book.AddOrder order).1
  | .cancel orderId => book.CancelOrder orderId
  | .modify request => (book.MatchOrder request).1

/-- A freshly constructed Orderbook: both ladders and the index empty. -/
def emptyBook : Orderbook := ⟨[], [], []⟩

/-- The book state after a sequence of public calls starting from a fresh
book. -/
def runOps (ops : List Op) : Orderbook :=
  ops.foldl Orderbook.applyOp emptyBook

/-- The spec's crossed-book condition: the book is not crossed when a
ladder is empty or the best bid price is strictly below the best ask
price. -/
def Orderbook.notCrossed (book : Orderbook) : Bool :=
  match book.bids, book.asks with
  | (bestBid, _) :: _, (bestAsk, _) :: _ => decide (bestBid < bestAsk)
  | _, _ => true

/-- All orders resting in one ladder, best level first, each level
front-first. -/
def ladderOrders (lad : Ladder) : List Order :=
  (lad.map (·.2)).flatten

/-- All orders resting in the two ladders, bids first. -/
def Orderbook.restingOrders (book : Orderbook) : List Order :=
  ladderOrders book.bids ++ ladderOrders book.asks

def Orderbook.restingIds (book : Orderbook) : List Nat :=
  book.restingOrders.map (·.orderId)

def Orderbook.idResting (book : Orderbook) (id : Nat) : Bool :=
  book.restingIds.contains id

/-- Remaining quantity of the resting order with the given id, if any. -/
def Orderbook.restingRemaining (book : Orderbook) (id : Nat) : Option Nat :=
  (book.restingOrders.find? (fun o => o.orderId == id)).map (·.remainingQuantity)

/-- The shape the inner loop leaves a level queue in: a possibly
part-filled front order ahead of untouched orders.  Used to state that
matching only consumes from the front of a queue. -/
def headFilled (quantity : Nat) : OrderQueue → OrderQueue
  | [] => []
  | o :: rest => o.fillTotal quantity :: rest

/-- A concrete one-order book used by witnesses: order id 1 resting as a
bid at price 5. -/
def noopBook : Orderbook :=
  ⟨[(5, [mkOrder .GoodTillCancel 1 .Buy 5 2])], [], [(1, mkOrder .GoodTillCancel 1 .Buy 5 2)]⟩

/-- Order ids of a level queue, front first. -/
def queueIds (l : OrderQueue) : List Nat :=
  l.map (fun o => o.orderId)

/-- Order ids resting in one ladder. -/
def ladderIds (lad : Ladder) : List Nat :=
  (ladderOrders lad).map (fun o => o.orderId)

/-- The two price ladders are kept in their comparators' orders: bid keys
strictly descending, ask keys strictly ascending (std::map invariants),
and the book is not crossed.  Established for every reachable book
below. -/
def SortedNC (book : Orderbook) : Prop :=
  book.bids.Pairwise (fun x y => y.1 < x.1)
  ∧ book.asks.Pairwise (fun x y => x.1 < y.1)
  ∧ book.notCrossed = true

/-- The ladder holding orders of the given side. -/
def Orderbook.sideLadder (book : Orderbook) : Side → Ladder
  | .Buy => book.bids
  | .Sell => book.asks

/-- Well-formedness of a book state, satisfied by every book reachable
through the public interface: the std::map comparator orders on the two
ladders, no stored level with an empty queue, every order stored at its
own price on its own side, resting ids globally unique, index keys unique,
the index in sync with the ladders (an id has an index entry exactly when
it rests in a ladder, and the entry's recorded side and price locate the
resting order), and the book never crossed.  BookWF below adds the
fill-and-kill postcondition; the two are separated because inside
MatchOrders the intermediate state can briefly hold a resting
fill-and-kill order, while every other field already holds. -/
structure BookWF0 (book : Orderbook) : Prop where
  bidsSorted : book.bids.Pairwise (fun x y => y.1 < x.1)
  asksSorted : book.asks.Pairwise (fun x y => x.1 < y.1)
  bidsNE : ∀ e ∈ book.bids, e.2 ≠ []
  asksNE : ∀ e ∈ book.asks, e.2 ≠ []
  bidsPS : ∀ e ∈ book.bids, ∀ o ∈ e.2, o.price = e.1 ∧ o.side = Side.Buy
  asksPS : ∀ e ∈ book.asks, ∀ o ∈ e.2, o.price = e.1 ∧ o.side = Side.Sell
  idsNodup : book.restingIds.Nodup
  keysNodup : (book.orders.map (fun e => e.1)).Nodup
  sync : ∀ id, containsId book.orders id = true ↔ id ∈ book.restingIds
  snapshots : ∀ e ∈ book.orders,
      ∃ o' ∈ ladderOrders (book.sideLadder e.2.side),
        o'.orderId = e.1 ∧ o'.price = e.2.price
  notCrossedWF : book.notCrossed = true

/-- BookWF0 together with the fill-and-kill postcondition of claim C5. -/
structure BookWF (book : Orderbook) extends BookWF0 book : Prop where
  noFnK : ∀ o ∈ book.restingOrders, o.orderType ≠ OrderType.FillAndKill

/-- The inner loop runs until one of the two front queues is exhausted:
at least one output queue of matchLevel is empty. -/
theorem matchLevel_empty (bids asks : OrderQueue) (ords : OrderIndex) :
    (matchLevel bids asks ords).bids = [] ∨ (matchLevel bids asks ords).asks = [] := by
  induction bids, asks, ords using matchLevel.induct with
  | case1 asks ords => left; simp [matchLevel]
  | case2 bid bids ords => right; simp [matchLevel]
  | case3 bid bids ask asks ords ih =>
    simp only [matchLevel]
    exact ih

/-- Claim C8: Order.Fill fails with the InvalidFillError exactly when the
requested quantity is strictly greater than the remaining quantity;
otherwise it subtracts the quantity from the remaining quantity and leaves
every other field unchanged, so remaining stays between 0 and initial
whenever it was within those bounds before. -/
theorem fill_spec (o : Order) (qty : Nat) :
    ((∃ msg, o.Fill qty = .error msg) ↔ qty > o.remainingQuantity)
    ∧ (∀ o', o.Fill qty = .ok o' →
        o'.remainingQuantity = o.remainingQuantity - qty
        ∧ o'.orderType = o.orderType ∧ o'.orderId = o.orderId ∧ o'.side = o.side
        ∧ o'.price = o.price ∧ o'.initialQuantity = o.initialQuantity
        ∧ (o.remainingQuantity ≤ o.initialQuantity →
            o'.remainingQuantity ≤ o'.initialQuantity)) := by
  constructor
  · constructor
    · rintro ⟨msg, h⟩
      rw [Order.Fill] at h
      split at h
      · rename_i hq
        exact hq
      · exact absurd h (by simp)
    · intro h
      exact ⟨"Order cannot be filled for more than its remaining quantity.",
        by rw [Order.Fill, if_pos h]⟩
  · intro o' h
    rw [Order.Fill] at h
    split at h
    · exact absurd h (by simp)
    · rename_i hq
      cases h
      refine ⟨rfl, rfl, rfl, rfl, rfl, rfl, ?_⟩
      intro hle
      simp only []
      omega

/-- Witness for fill_spec at a concrete order and quantity. -/
theorem fill_spec_witness :
    ((∃ msg, (mkOrder .GoodTillCancel 1 .Buy 5 3).Fill 4 = .error msg) ↔ 4 > 3)
    ∧ ((mkOrder .GoodTillCancel 1 .Buy 5 3).Fill 2 = .ok (Order.mk .GoodTillCancel 1 .Buy 5 3 1)
        ∧ (Order.mk .GoodTillCancel 1 .Buy 5 3 1).remainingQuantity
            = (mkOrder .GoodTillCancel 1 .Buy 5 3).remainingQuantity - 2) :=
  ⟨(fill_spec (mkOrder .GoodTillCancel 1 .Buy 5 3) 4).1,
    by
      have h := (fill_spec (mkOrder .GoodTillCancel 1 .Buy 5 3) 2).2
        (Order.mk .GoodTillCancel 1 .Buy 5 3 1) (by rfl)
      exact ⟨by rfl, h.1⟩⟩

/-- Claim C10: the quantity the matching loop passes to Fill is the min of
the front bid's and front ask's remaining quantities, which exceeds
neither, so Order.Fill succeeds on both orders (returning exactly the
fillTotal update the loop applies) and its InvalidFillError branch is
unreachable from MatchOrders. -/
theorem match_fill_never_fails (bid ask : Order) :
    bid.Fill (min bid.remainingQuantity ask.remainingQuantity)
        = .ok (bid.fillTotal (min bid.remainingQuantity ask.remainingQuantity))
    ∧ ask.Fill (min bid.remainingQuantity ask.remainingQuantity)
        = .ok (ask.fillTotal (min bid.remainingQuantity ask.remainingQuantity)) := by
  constructor <;>
    · rw [Order.Fill, if_neg]
      · rfl
      · omega

theorem lookupId_none_of_not_contains {ords : OrderIndex} {id : Nat}
    (h : containsId ords id = false) : lookupId ords id = none := by
  simp only [containsId, List.any_eq_false] at h
  rw [lookupId, List.find?_eq_none.mpr h]
  rfl

/-- Claim C9: each no-op condition - AddOrder with an already-resting id,
a FillAndKill submission that cannot immediately match, CancelOrder with
an unknown id, and ModifyOrder (Orderbook::MatchOrder) with an unknown id -
returns an empty trade list (or just returns, for CancelOrder) and leaves
the whole book state, ladders and index, exactly unchanged. -/
theorem noop_conditions (book : Orderbook) (order : Order) (request : OrderModify) (id : Nat) :
    (containsId book.orders order.orderId = true → book.AddOrder order = (book, []))
    ∧ (order.orderType = OrderType.FillAndKill →
        book.CanMatch order.side order.price = false → book.AddOrder order = (book, []))
    ∧ (containsId book.orders id = false → book.CancelOrder id = book)
    ∧ (containsId book.orders request.orderId = false → book.MatchOrder request = (book, [])) := by
  refine ⟨?_, ?_, ?_, ?_⟩
  · intro h
    simp [Orderbook.AddOrder, h]
  · intro ht hc
    by_cases hdup : containsId book.orders order.orderId
    · simp [Orderbook.AddOrder, hdup]
    · simp [Orderbook.AddOrder, hdup, ht, hc]
  · intro h
    simp [Orderbook.CancelOrder, lookupId_none_of_not_contains h]
  · intro h
    simp [Orderbook.MatchOrder, h]

/-- Witness for noop_conditions: all four no-op conditions at concrete
inputs on a one-order book. -/
theorem noop_conditions_witness :
    (noopBook.AddOrder (mkOrder .GoodTillCancel 1 .Buy 6 3) = (noopBook, []))
    ∧ (noopBook.AddOrder (mkOrder .FillAndKill 2 .Buy 6 3) = (noopBook, []))
    ∧ (noopBook.CancelOrder 9 = noopBook)
    ∧ (noopBook.MatchOrder (OrderModify.mk 9 .Buy 6 3) = (noopBook, [])) :=
  ⟨(noop_conditions noopBook (mkOrder .GoodTillCancel 1 .Buy 6 3)
      (OrderModify.mk 9 .Buy 6 3) 9).1 (by decide),
   (noop_conditions noopBook (mkOrder .FillAndKill 2 .Buy 6 3)
      (OrderModify.mk 9 .Buy 6 3) 9).2.1 (by decide) (by decide),
   (noop_conditions noopBook (mkOrder .GoodTillCancel 1 .Buy 6 3)
      (OrderModify.mk 9 .Buy 6 3) 9).2.2.1 (by decide),
   (noop_conditions noopBook (mkOrder .GoodTillCancel 1 .Buy 6 3)
      (OrderModify.mk 9 .Buy 6 3) 9).2.2.2 (by decide)⟩

/-- Claim C2 (code bug evidence): at this failing input the matching loop
builds exactly one trade - bid leg (id 1, price 100, qty 10), ask leg
(id 2, price 100, qty 10) - which is the value the spec says the second
AddOrder call returns.  In the source, however, Trades MatchOrders() ends
without any return statement (src/src/main.cpp lines 194-262), so the
value AddOrder returns to its caller is undefined; the trades the loop
accumulated are dropped.  The theorem records the trades vector the loop
produced, which the embedding (unlike the C++) passes out of AddOrder. -/
theorem addOrder_trades_at_failing_input :
    ((emptyBook.AddOrder (mkOrder .GoodTillCancel 1 .Buy 100 10)).1.AddOrder
        (mkOrder .GoodTillCancel 2 .Sell 100 20)).2
      = [⟨⟨1, 100, 10⟩, ⟨2, 100, 10⟩⟩] := by
  simp [Orderbook.AddOrder, Orderbook.MatchOrders, fnkBidStep, fnkAskStep, matchLoop,
    matchLevel, stepBids, stepAsks,
    stepOrds, fillQuantity, insertBid,
    insertAsk, containsId, lookupId, eraseId, getLevel, setLevel, eraseLevel, emptyBook,
    mkOrder, Order.fillTotal, Order.IsFilled, Orderbook.CanMatch, Orderbook.CancelOrder,
    cancelLadder, tradeOf]

/-- Claim C3 (code bug evidence): Orderbook::MatchOrder (the modify
operation) with a known resting id does nothing.  The source body
(src/src/main.cpp lines 323-329) contains only the unknown-id guard and
then ends - no cancel, no AddOrder, no return for the known-id path - so
on a book where order id 1 rests, modifying order 1 leaves the book
exactly unchanged, contradicting the cancel-and-resubmit the spec
describes. -/
theorem matchOrder_known_id_does_nothing :
    noopBook.MatchOrder (OrderModify.mk 1 .Buy 12 3) = (noopBook, [])
    ∧ containsId noopBook.orders 1 = true := by
  constructor
  · simp [Orderbook.MatchOrder, noopBook, containsId, mkOrder]
  · decide

theorem insertBid_keys (o : Order) (lad : Ladder) :
    ∀ e ∈ insertBid o lad, e.1 = o.price ∨ e.1 ∈ lad.map (fun x => x.1) := by
  induction lad with
  | nil =>
    intro e he
    simp [insertBid] at he
    simp [he]
  | cons hd tl ih =>
    intro e he
    obtain ⟨p, l⟩ := hd
    rw [insertBid] at he
    split at he
    · rcases List.mem_cons.mp he with h | h
      · simp [h]
      · rcases List.mem_cons.mp h with h' | h'
        · simp [h']
        · right
          simp only [List.map_cons, List.mem_cons]
          exact Or.inr (List.mem_map.mpr ⟨e, h', rfl⟩)
    · split at he
      · rcases List.mem_cons.mp he with h | h
        · simp [h]
        · right
          simp only [List.map_cons, List.mem_cons]
          exact Or.inr (List.mem_map.mpr ⟨e, h, rfl⟩)
      · rcases List.mem_cons.mp he with h | h
        · simp [h]
        · rcases ih e h with h' | h'
          · simp [h']
          · right
            simp only [List.map_cons, List.mem_cons]
            exact Or.inr h'

theorem insertAsk_keys (o : Order) (lad : Ladder) :
    ∀ e ∈ insertAsk o lad, e.1 = o.price ∨ e.1 ∈ lad.map (fun x => x.1) := by
  induction lad with
  | nil =>
    intro e he
    simp [insertAsk] at he
    simp [he]
  | cons hd tl ih =>
    intro e he
    obtain ⟨p, l⟩ := hd
    rw [insertAsk] at he
    split at he
    · rcases List.mem_cons.mp he with h | h
      · simp [h]
      · rcases List.mem_cons.mp h with h' | h'
        · simp [h']
        · right
          simp only [List.map_cons, List.mem_cons]
          exact Or.inr (List.mem_map.mpr ⟨e, h', rfl⟩)
    · split at he
      · rcases List.mem_cons.mp he with h | h
        · simp [h]
        · right
          simp only [List.map_cons, List.mem_cons]
          exact Or.inr (List.mem_map.mpr ⟨e, h, rfl⟩)
      · rcases List.mem_cons.mp he with h | h
        · simp [h]
        · rcases ih e h with h' | h'
          · simp [h']
          · right
            simp only [List.map_cons, List.mem_cons]
            exact Or.inr h'

theorem insertBid_sorted (o : Order) (lad : Ladder)
    (h : lad.Pairwise (fun x y => y.1 < x.1)) :
    (insertBid o lad).Pairwise (fun x y => y.1 < x.1) := by
  induction lad with
  | nil => simp [insertBid]
  | cons hd tl ih =>
    obtain ⟨p, l⟩ := hd
    rw [List.pairwise_cons] at h
    rw [insertBid]
    split
    · rename_i hgt
      refine List.pairwise_cons.mpr ⟨?_, List.pairwise_cons.mpr h⟩
      intro e he
      rcases List.mem_cons.mp he with h' | h'
      · simp [h', hgt]
      · exact lt_trans (h.1 e h') hgt
    · split
      · exact List.pairwise_cons.mpr h
      · rename_i hgt heq
        have hlt : o.price < p :=
          lt_of_le_of_ne (not_lt.mp hgt) (fun hx => heq (by simp [hx]))
        refine List.pairwise_cons.mpr ⟨?_, ih h.2⟩
        intro e he
        rcases insertBid_keys o tl e he with h' | h'
        · rw [h']
          exact hlt
        · rcases List.mem_map.mp h' with ⟨x, hx, hk⟩
          rw [← hk]
          exact h.1 x hx

theorem insertAsk_sorted (o : Order) (lad : Ladder)
    (h : lad.Pairwise (fun x y => x.1 < y.1)) :
    (insertAsk o lad).Pairwise (fun x y => x.1 < y.1) := by
  induction lad with
  | nil => simp [insertAsk]
  | cons hd tl ih =>
    obtain ⟨p, l⟩ := hd
    rw [List.pairwise_cons] at h
    rw [insertAsk]
    split
    · rename_i hltp
      refine List.pairwise_cons.mpr ⟨?_, List.pairwise_cons.mpr h⟩
      intro e he
      rcases List.mem_cons.mp he with h' | h'
      · simp [h', hltp]
      · exact lt_trans hltp (h.1 e h')
    · split
      · exact List.pairwise_cons.mpr h
      · rename_i hltp heq
        have hlt : p < o.price :=
          lt_of_le_of_ne (not_lt.mp hltp) (fun hx => heq (by simp [hx]))
        refine List.pairwise_cons.mpr ⟨?_, ih h.2⟩
        intro e he
        rcases insertAsk_keys o tl e he with h' | h'
        · rw [h']
          exact hlt
        · rcases List.mem_map.mp h' with ⟨x, hx, hk⟩
          rw [← hk]
          exact h.1 x hx

theorem setLevel_key_elem (p : Int) (l : OrderQueue) (e : Int × OrderQueue) :
    ((if e.1 == p then (e.1, l) else e) : Int × OrderQueue).1 = e.1 := by
  split <;> rfl

theorem setLevel_keys (lad : Ladder) (p : Int) (l : OrderQueue) :
    (setLevel lad p l).map (fun x => x.1) = lad.map (fun x => x.1) := by
  rw [setLevel, List.map_map]
  exact List.map_congr_left (fun e _ => setLevel_key_elem p l e)

theorem setLevel_sorted (R : Int → Int → Prop) (lad : Ladder) (p : Int) (l : OrderQueue)
    (h : lad.Pairwise (fun x y => R x.1 y.1)) :
    (setLevel lad p l).Pairwise (fun x y => R x.1 y.1) := by
  rw [setLevel, List.pairwise_map]
  refine h.imp_of_mem ?_
  intro a b _ _ hab
  rwa [setLevel_key_elem, setLevel_key_elem]

theorem eraseLevel_sorted {R : Int × OrderQueue → Int × OrderQueue → Prop}
    (lad : Ladder) (p : Int) (h : lad.Pairwise R) : (eraseLevel lad p).Pairwise R :=
  h.sublist (List.filter_sublist lad)

theorem cancelLadder_sorted (R : Int → Int → Prop) (lad : Ladder) (p : Int) (id : Nat)
    (h : lad.Pairwise (fun x y => R x.1 y.1)) :
    (cancelLadder lad p id).Pairwise (fun x y => R x.1 y.1) := by
  rw [cancelLadder]
  split
  · exact eraseLevel_sorted lad p h
  · exact setLevel_sorted R lad p _ h

theorem cancelLadder_keys (lad : Ladder) (p : Int) (id : Nat) :
    ∀ e ∈ cancelLadder lad p id, e.1 ∈ lad.map (fun x => x.1) := by
  intro e he
  rw [cancelLadder] at he
  split at he
  · exact List.mem_map.mpr ⟨e, List.mem_of_mem_filter he, rfl⟩
  · rw [← setLevel_keys lad p _]
    exact List.mem_map.mpr ⟨e, he, rfl⟩

theorem key_le_head_desc {p0 : Int} {l0 : OrderQueue} {rest : Ladder}
    (h : ((p0, l0) :: rest).Pairwise (fun x y => y.1 < x.1)) :
    ∀ k ∈ ((p0, l0) :: rest).map (fun x => x.1), k ≤ p0 := by
  intro k hk
  rcases List.mem_map.mp hk with ⟨e, he, hke⟩
  rcases List.mem_cons.mp he with h' | h'
  · simp [h'] at hke
    omega
  · rw [← hke]
    exact le_of_lt ((List.pairwise_cons.mp h).1 e h')

theorem key_ge_head_asc {p0 : Int} {l0 : OrderQueue} {rest : Ladder}
    (h : ((p0, l0) :: rest).Pairwise (fun x y => x.1 < y.1)) :
    ∀ k ∈ ((p0, l0) :: rest).map (fun x => x.1), p0 ≤ k := by
  intro k hk
  rcases List.mem_map.mp hk with ⟨e, he, hke⟩
  rcases List.mem_cons.mp he with h' | h'
  · simp [h'] at hke
    omega
  · rw [← hke]
    exact le_of_lt ((List.pairwise_cons.mp h).1 e h')

theorem CancelOrder_sorted (book : Orderbook) (id : Nat)
    (hb : book.bids.Pairwise (fun x y => y.1 < x.1))
    (ha : book.asks.Pairwise (fun x y => x.1 < y.1)) :
    (book.CancelOrder id).bids.Pairwise (fun x y => y.1 < x.1)
    ∧ (book.CancelOrder id).asks.Pairwise (fun x y => x.1 < y.1) := by
  cases hlook : lookupId book.orders id with
  | none =>
    simp only [Orderbook.CancelOrder, hlook]
    exact ⟨hb, ha⟩
  | some order =>
    cases hside : order.side
    · simp only [Orderbook.CancelOrder, hlook, hside]
      exact ⟨cancelLadder_sorted (fun a b => b < a) book.bids order.price id hb, ha⟩
    · simp only [Orderbook.CancelOrder, hlook, hside]
      exact ⟨hb, cancelLadder_sorted (fun a b => a < b) book.asks order.price id ha⟩

theorem CancelOrder_notCrossed (book : Orderbook) (id : Nat)
    (hb : book.bids.Pairwise (fun x y => y.1 < x.1))
    (ha : book.asks.Pairwise (fun x y => x.1 < y.1))
    (hnc : book.notCrossed = true) :
    (book.CancelOrder id).notCrossed = true := by
  cases hlook : lookupId book.orders id with
  | none =>
    simp only [Orderbook.CancelOrder, hlook]
    exact hnc
  | some order =>
    cases hside : order.side
    · -- Buy: bids replaced by cancelLadder, asks unchanged
      simp only [Orderbook.CancelOrder, hlook, hside]
      rw [Orderbook.notCrossed]
      cases hc : cancelLadder book.bids order.price id with
      | nil => cases book.asks <;> rfl
      | cons e rest =>
        cases hask : book.asks with
        | nil => rfl
        | cons a arest =>
          obtain ⟨p', l'⟩ := e
          obtain ⟨ap, al⟩ := a
          simp only [decide_eq_true_eq]
          have hmem : p' ∈ book.bids.map (fun x => x.1) :=
            cancelLadder_keys book.bids order.price id (p', l') (hc ▸ List.mem_cons_self _ _)
          cases hbids : book.bids with
          | nil => simp [hbids] at hmem
          | cons b brest =>
            obtain ⟨bp, bl⟩ := b
            have hle : p' ≤ bp := key_le_head_desc (hbids ▸ hb) p' (hbids ▸ hmem)
            have : bp < ap := by
              rw [Orderbook.notCrossed, hbids, hask] at hnc
              simpa using hnc
            omega
    · -- Sell: asks replaced by cancelLadder, bids unchanged
      simp only [Orderbook.CancelOrder, hlook, hside]
      rw [Orderbook.notCrossed]
      cases hc : cancelLadder book.asks order.price id with
      | nil => cases book.bids <;> rfl
      | cons e rest =>
        cases hbids : book.bids with
        | nil => rfl
        | cons b brest =>
          obtain ⟨p', l'⟩ := e
          obtain ⟨bp, bl⟩ := b
          simp only [decide_eq_true_eq]
          have hmem : p' ∈ book.asks.map (fun x => x.1) :=
            cancelLadder_keys book.asks order.price id (p', l') (hc ▸ List.mem_cons_self _ _)
          cases hask : book.asks with
          | nil => simp [hask] at hmem
          | cons a arest =>
            obtain ⟨ap, al⟩ := a
            have hge : ap ≤ p' := key_ge_head_asc (hask ▸ ha) p' (hask ▸ hmem)
            have : bp < ap := by
              rw [Orderbook.notCrossed, hbids, hask] at hnc
              simpa using hnc
            omega

theorem matchLoop_sorted (bids asks : Ladder) (ords : OrderIndex)
    (hb : bids.Pairwise (fun x y => y.1 < x.1))
    (ha : asks.Pairwise (fun x y => x.1 < y.1)) :
    (matchLoop bids asks ords).bids.Pairwise (fun x y => y.1 < x.1)
    ∧ (matchLoop bids asks ords).asks.Pairwise (fun x y => x.1 < y.1) := by
  induction bids, asks, ords using matchLoop.induct with
  | case1 asks ords =>
    simp only [matchLoop]
    exact ⟨hb, ha⟩
  | case2 b bids ords =>
    simp only [matchLoop]
    exact ⟨hb, ha⟩
  | case3 bidPrice bidOrders restBids askPrice askOrders restAsks ords hlt =>
    simp only [matchLoop, if_pos hlt]
    exact ⟨hb, ha⟩
  | case4 bidPrice bidOrders restBids askPrice askOrders restAsks ords hlt r bids' asks' ih =>
    simp only [matchLoop, if_neg hlt]
    refine ih ?_ ?_
    · rw [List.pairwise_cons] at hb
      unfold bids'
      split
      · exact hb.2
      · exact List.pairwise_cons.mpr ⟨fun e he => hb.1 e he, hb.2⟩
    · rw [List.pairwise_cons] at ha
      unfold asks'
      split
      · exact ha.2
      · exact List.pairwise_cons.mpr ⟨fun e he => ha.1 e he, ha.2⟩

/-- When the matching loop returns, the book is no longer crossed: the
loop only stops once a ladder is empty or the best prices do not cross. -/
theorem matchLoop_notCrossed (bids asks : Ladder) (ords : OrderIndex) :
    (Orderbook.mk (matchLoop bids asks ords).bids (matchLoop bids asks ords).asks
        (matchLoop bids asks ords).orders).notCrossed = true := by
  induction bids, asks, ords using matchLoop.induct with
  | case1 asks ords =>
    simp only [matchLoop]
    cases asks <;> rfl
  | case2 b bids ords =>
    simp only [matchLoop]
    rfl
  | case3 bidPrice bidOrders restBids askPrice askOrders restAsks ords hlt =>
    simp only [matchLoop, if_pos hlt, Orderbook.notCrossed]
    simpa using hlt
  | case4 bidPrice bidOrders restBids askPrice askOrders restAsks ords hlt r bids' asks' ih =>
    simp only [matchLoop, if_neg hlt]
    exact ih

theorem SortedNC_cancel_step (book : Orderbook) (h : SortedNC book) (id : Nat) :
    SortedNC (book.CancelOrder id) :=
  ⟨(CancelOrder_sorted book id h.1 h.2.1).1, (CancelOrder_sorted book id h.1 h.2.1).2,
    CancelOrder_notCrossed book id h.1 h.2.1 h.2.2⟩

theorem SortedNC_fnkBid_step (b : Orderbook) (h : SortedNC b) :
    SortedNC (fnkBidStep b) := by
  rw [fnkBidStep]
  split
  · split
    · exact SortedNC_cancel_step b h _
    · exact h
  · exact h

theorem SortedNC_fnkAsk_step (b : Orderbook) (h : SortedNC b) :
    SortedNC (fnkAskStep b) := by
  rw [fnkAskStep]
  split
  · split
    · exact SortedNC_cancel_step b h _
    · exact h
  · exact h

theorem MatchOrders_sortedNC (book : Orderbook)
    (hb : book.bids.Pairwise (fun x y => y.1 < x.1))
    (ha : book.asks.Pairwise (fun x y => x.1 < y.1)) :
    SortedNC (book.MatchOrders).1 := by
  have h1 : SortedNC (Orderbook.mk (matchLoop book.bids book.asks book.orders).bids
      (matchLoop book.bids book.asks book.orders).asks
      (matchLoop book.bids book.asks book.orders).orders) :=
    ⟨(matchLoop_sorted book.bids book.asks book.orders hb ha).1,
     (matchLoop_sorted book.bids book.asks book.orders hb ha).2,
     matchLoop_notCrossed book.bids book.asks book.orders⟩
  simp only [Orderbook.MatchOrders]
  exact SortedNC_fnkAsk_step _ (SortedNC_fnkBid_step _ h1)

theorem AddOrder_sortedNC (book : Orderbook) (o : Order) (h : SortedNC book) :
    SortedNC (book.AddOrder o).1 := by
  rw [Orderbook.AddOrder]
  split
  · exact h
  · split
    · exact h
    · cases hs : o.side
      · simp only [hs]
        exact MatchOrders_sortedNC _ (insertBid_sorted o book.bids h.1) h.2.1
      · simp only [hs]
        exact MatchOrders_sortedNC _ h.1 (insertAsk_sorted o book.asks h.2.1)

theorem applyOp_sortedNC (book : Orderbook) (op : Op) (h : SortedNC book) :
    SortedNC (book.applyOp op) := by
  cases op with
  | add o => exact AddOrder_sortedNC book o h
  | cancel id => exact SortedNC_cancel_step book h id
  | modify request =>
    rw [Orderbook.applyOp, Orderbook.MatchOrder]
    split <;> exact h

theorem runOps_sortedNC (ops : List Op) : SortedNC (runOps ops) := by
  rw [runOps]
  have hgen : ∀ (l : List Op) (b : Orderbook), SortedNC b → SortedNC (l.foldl Orderbook.applyOp b) := by
    intro l
    induction l with
    | nil => exact fun b hb => hb
    | cons op rest ih =>
      intro b hb
      exact ih (b.applyOp op) (applyOp_sortedNC b op hb)
  exact hgen ops emptyBook ⟨List.Pairwise.nil, List.Pairwise.nil, rfl⟩

/-- Claim C1: after any AddOrder call on any reachable book, the book is
not crossed: a ladder is empty or the best bid price is strictly below
the best ask price. -/
theorem addOrder_never_crossed (ops : List Op) (order : Order) :
    ((runOps ops).AddOrder order).1.notCrossed = true :=
  (AddOrder_sortedNC (runOps ops) order (runOps_sortedNC ops)).2.2

/-- Claim C4: on any reachable book, CanMatch(Buy, price) holds iff the
ask ladder is non-empty and price is at least the best ask price - which
is the lowest ask price - and CanMatch(Sell, price) holds iff the bid
ladder is non-empty and price is at most the best bid price - which is
the highest bid price. -/
theorem canMatch_spec (ops : List Op) (price : Int) :
    ((runOps ops).CanMatch Side.Buy price = true ↔
      ∃ bestAsk level rest, (runOps ops).asks = (bestAsk, level) :: rest
        ∧ bestAsk ≤ price ∧ ∀ e ∈ (runOps ops).asks, bestAsk ≤ e.1)
    ∧ ((runOps ops).CanMatch Side.Sell price = true ↔
      ∃ bestBid level rest, (runOps ops).bids = (bestBid, level) :: rest
        ∧ price ≤ bestBid ∧ ∀ e ∈ (runOps ops).bids, e.1 ≤ bestBid) := by
  have hs := runOps_sortedNC ops
  constructor
  · constructor
    · intro h
      rw [Orderbook.CanMatch] at h
      cases hask : (runOps ops).asks with
      | nil =>
        rw [hask] at h
        simp at h
      | cons a rest =>
        obtain ⟨ap, al⟩ := a
        rw [hask] at h
        simp only [ge_iff_le, decide_eq_true_eq] at h
        refine ⟨ap, al, rest, rfl, h, ?_⟩
        intro e he
        exact key_ge_head_asc (hask ▸ hs.2.1) e.1 (List.mem_map.mpr ⟨e, hask ▸ he, rfl⟩)
    · rintro ⟨ap, al, rest, heq, hle, _⟩
      rw [Orderbook.CanMatch, heq]
      simpa using hle
  · constructor
    · intro h
      rw [Orderbook.CanMatch] at h
      cases hbid : (runOps ops).bids with
      | nil =>
        rw [hbid] at h
        simp at h
      | cons b rest =>
        obtain ⟨bp, bl⟩ := b
        rw [hbid] at h
        simp only [decide_eq_true_eq] at h
        refine ⟨bp, bl, rest, rfl, h, ?_⟩
        intro e he
        exact key_le_head_desc (hbid ▸ hs.1) e.1 (List.mem_map.mpr ⟨e, hbid ▸ he, rfl⟩)
    · rintro ⟨bp, bl, rest, heq, hle, _⟩
      rw [Orderbook.CanMatch, heq]
      simpa using hle

theorem fillTotal_zero (o : Order) : o.fillTotal 0 = o := by
  rw [Order.fillTotal]
  simp

theorem fillTotal_fillTotal (o : Order) (m n : Nat) :
    (o.fillTotal m).fillTotal n = o.fillTotal (m + n) := by
  simp [Order.fillTotal, Nat.sub_sub]

/-- Every order in a queue returned by the inner loop is one of the input
orders, partially filled (possibly by zero). -/
theorem matchLevel_queue_fills (bids asks : OrderQueue) (ords : OrderIndex) :
    (∀ o' ∈ (matchLevel bids asks ords).bids, ∃ o ∈ bids, ∃ k, o' = o.fillTotal k)
    ∧ (∀ o' ∈ (matchLevel bids asks ords).asks, ∃ o ∈ asks, ∃ k, o' = o.fillTotal k) := by
  induction bids, asks, ords using matchLevel.induct with
  | case1 asks ords =>
    simp only [matchLevel]
    exact ⟨fun o' ho' => absurd ho' (List.not_mem_nil o'),
      fun o' ho' => ⟨o', ho', 0, (fillTotal_zero o').symm⟩⟩
  | case2 bid bids ords =>
    simp only [matchLevel]
    exact ⟨fun o' ho' => ⟨o', ho', 0, (fillTotal_zero o').symm⟩,
      fun o' ho' => absurd ho' (List.not_mem_nil o')⟩
  | case3 bid bids ask asks ords ih =>
    simp only [matchLevel]
    constructor
    · intro o' ho'
      rcases ih.1 o' ho' with ⟨o, ho, k, hk⟩
      rw [stepBids] at ho
      split at ho
      · exact ⟨o, List.mem_cons_of_mem bid ho, k, hk⟩
      · rcases List.mem_cons.mp ho with h' | h'
        · subst h'
          exact ⟨bid, List.mem_cons_self bid bids,
            fillQuantity bid ask + k, by rw [hk, fillTotal_fillTotal]⟩
        · exact ⟨o, List.mem_cons_of_mem bid h', k, hk⟩
    · intro o' ho'
      rcases ih.2 o' ho' with ⟨o, ho, k, hk⟩
      rw [stepAsks] at ho
      split at ho
      · exact ⟨o, List.mem_cons_of_mem ask ho, k, hk⟩
      · rcases List.mem_cons.mp ho with h' | h'
        · subst h'
          exact ⟨ask, List.mem_cons_self ask asks,
            fillQuantity bid ask + k, by rw [hk, fillTotal_fillTotal]⟩
        · exact ⟨o, List.mem_cons_of_mem ask h', k, hk⟩

/-- Every trade the inner loop emits is built by tradeOf from the two
front orders at the time of the match, each a partial fill of an input
order, with quantity the min of their remaining quantities then. -/
theorem matchLevel_trades (bids asks : OrderQueue) (ords : OrderIndex) :
    ∀ t ∈ (matchLevel bids asks ords).trades,
      ∃ b a n m, b ∈ bids ∧ a ∈ asks
        ∧ t = tradeOf (b.fillTotal n) (a.fillTotal m)
            (min (b.fillTotal n).remainingQuantity (a.fillTotal m).remainingQuantity) := by
  induction bids, asks, ords using matchLevel.induct with
  | case1 asks ords =>
    simp [matchLevel]
  | case2 bid bids ords =>
    simp [matchLevel]
  | case3 bid bids ask asks ords ih =>
    intro t ht
    simp only [matchLevel] at ht
    rcases List.mem_cons.mp ht with h | h
    · refine ⟨bid, ask, 0, 0, List.mem_cons_self bid bids, List.mem_cons_self ask asks, ?_⟩
      rw [fillTotal_zero, fillTotal_zero]
      exact h
    · rcases ih t h with ⟨b, a, n, m, hb, ha, hform⟩
      have hbmem : ∃ b0 ∈ bid :: bids, ∃ n0, b.fillTotal n = b0.fillTotal n0 := by
        rw [stepBids] at hb
        split at hb
        · exact ⟨b, List.mem_cons_of_mem bid hb, n, rfl⟩
        · rcases List.mem_cons.mp hb with h' | h'
          · refine ⟨bid, List.mem_cons_self bid bids, fillQuantity bid ask + n, ?_⟩
            rw [h']
            exact fillTotal_fillTotal bid (fillQuantity bid ask) n
          · exact ⟨b, List.mem_cons_of_mem bid h', n, rfl⟩
      have hamem : ∃ a0 ∈ ask :: asks, ∃ m0, a.fillTotal m = a0.fillTotal m0 := by
        rw [stepAsks] at ha
        split at ha
        · exact ⟨a, List.mem_cons_of_mem ask ha, m, rfl⟩
        · rcases List.mem_cons.mp ha with h' | h'
          · refine ⟨ask, List.mem_cons_self ask asks, fillQuantity bid ask + m, ?_⟩
            rw [h']
            exact fillTotal_fillTotal ask (fillQuantity bid ask) m
          · exact ⟨a, List.mem_cons_of_mem ask h', m, rfl⟩
      rcases hbmem with ⟨b0, hb0, n0, hbn⟩
      rcases hamem with ⟨a0, ha0, m0, han⟩
      exact ⟨b0, a0, n0, m0, hb0, ha0, by rw [hform, hbn, han]⟩

/-- Claim C7 (main lemma): every trade the matching loop emits is built by
tradeOf from a bid-side resting order and an ask-side resting order as
they stood at the time of the match (a partial fill of an order that was
in the bid resp. ask ladder when the loop started), with quantity the min
of the two remaining quantities at that time. -/
theorem matchLoop_trades (bids asks : Ladder) (ords : OrderIndex) :
    ∀ t ∈ (matchLoop bids asks ords).trades,
      ∃ b a n m, (∃ e ∈ bids, b ∈ e.2) ∧ (∃ e ∈ asks, a ∈ e.2)
        ∧ t = tradeOf (b.fillTotal n) (a.fillTotal m)
            (min (b.fillTotal n).remainingQuantity (a.fillTotal m).remainingQuantity) := by
  induction bids, asks, ords using matchLoop.induct with
  | case1 asks ords => simp [matchLoop]
  | case2 b bids ords => simp [matchLoop]
  | case3 bidPrice bidOrders restBids askPrice askOrders restAsks ords hlt =>
    simp [matchLoop, if_pos hlt]
  | case4 bidPrice bidOrders restBids askPrice askOrders restAsks ords hlt r bids' asks' ih =>
    intro t ht
    simp only [matchLoop, if_neg hlt] at ht
    rcases List.mem_append.mp ht with h | h
    · rcases matchLevel_trades bidOrders askOrders ords t h with ⟨b, a, n, m, hb, ha, hform⟩
      exact ⟨b, a, n, m,
        ⟨(bidPrice, bidOrders), List.mem_cons_self _ _, hb⟩,
        ⟨(askPrice, askOrders), List.mem_cons_self _ _, ha⟩, hform⟩
    · rcases ih t h with ⟨b, a, n, m, ⟨eb, heb, hbmem⟩, ⟨ea, hea, hamem⟩, hform⟩
      have hbres : ∃ b0, (∃ e ∈ (bidPrice, bidOrders) :: restBids, b0 ∈ e.2)
          ∧ ∃ n0, b.fillTotal n = b0.fillTotal n0 := by
        unfold bids' at heb
        split at heb
        · exact ⟨b, ⟨eb, List.mem_cons_of_mem _ heb, hbmem⟩, n, rfl⟩
        · rcases List.mem_cons.mp heb with h' | h'
          · subst h'
            rcases (matchLevel_queue_fills bidOrders askOrders ords).1 b hbmem
              with ⟨o, ho, k, hk⟩
            refine ⟨o, ⟨(bidPrice, bidOrders), List.mem_cons_self _ _, ho⟩, k + n, ?_⟩
            rw [hk, fillTotal_fillTotal]
          · exact ⟨b, ⟨eb, List.mem_cons_of_mem _ h', hbmem⟩, n, rfl⟩
      have hares : ∃ a0, (∃ e ∈ (askPrice, askOrders) :: restAsks, a0 ∈ e.2)
          ∧ ∃ m0, a.fillTotal m = a0.fillTotal m0 := by
        unfold asks' at hea
        split at hea
        · exact ⟨a, ⟨ea, List.mem_cons_of_mem _ hea, hamem⟩, m, rfl⟩
        · rcases List.mem_cons.mp hea with h' | h'
          · subst h'
            rcases (matchLevel_queue_fills bidOrders askOrders ords).2 a hamem
              with ⟨o, ho, k, hk⟩
            refine ⟨o, ⟨(askPrice, askOrders), List.mem_cons_self _ _, ho⟩, k + m, ?_⟩
            rw [hk, fillTotal_fillTotal]
          · exact ⟨a, ⟨ea, List.mem_cons_of_mem _ h', hamem⟩, m, rfl⟩
      rcases hbres with ⟨b0, hb0, n0, hbn⟩
      rcases hares with ⟨a0, ha0, m0, han⟩
      exact ⟨b0, a0, n0, m0, hb0, ha0, by rw [hform, hbn, han]⟩

/-- Claim C7: for every trade emitted by the matching loop there are a
bid-side order b and an ask-side order a - the states, at match time, of
orders resting in the bid resp. ask ladder - such that the trade is
tradeOf b a (min of their remaining quantities): its bid-side TradeInfo
carries b's id, b's own resting price and the matched quantity, and its
ask-side TradeInfo carries a's id, a's own resting price and the same
matched quantity. -/
theorem trade_fields_spec (bids asks : Ladder) (ords : OrderIndex) :
    ∀ t ∈ (matchLoop bids asks ords).trades,
      ∃ b a, (∃ o, (∃ e ∈ bids, o ∈ e.2) ∧ ∃ n, b = o.fillTotal n)
        ∧ (∃ o, (∃ e ∈ asks, o ∈ e.2) ∧ ∃ m, a = o.fillTotal m)
        ∧ t = tradeOf b a (min b.remainingQuantity a.remainingQuantity)
        ∧ t.bidTrade.orderId = b.orderId ∧ t.bidTrade.price = b.price
        ∧ t.askTrade.orderId = a.orderId ∧ t.askTrade.price = a.price
        ∧ t.bidTrade.quantity = min b.remainingQuantity a.remainingQuantity
        ∧ t.askTrade.quantity = t.bidTrade.quantity := by
  intro t ht
  rcases matchLoop_trades bids asks ords t ht with ⟨b, a, n, m, hb, ha, hform⟩
  refine ⟨b.fillTotal n, a.fillTotal m, ⟨b, hb, n, rfl⟩, ⟨a, ha, m, rfl⟩, hform, ?_⟩
  rw [hform]
  exact ⟨rfl, rfl, rfl, rfl, rfl, rfl⟩

/-- Witness for trade_fields_spec: the trade from matching a resting bid
(id 1, price 100, qty 10) against an incoming ask (id 2, price 100,
qty 20). -/
theorem trade_fields_spec_witness :
    ∃ b a, (∃ o, (∃ e ∈ ([(100, [mkOrder .GoodTillCancel 1 .Buy 100 10])] : Ladder), o ∈ e.2)
          ∧ ∃ n, b = o.fillTotal n)
      ∧ (∃ o, (∃ e ∈ ([(100, [mkOrder .GoodTillCancel 2 .Sell 100 20])] : Ladder), o ∈ e.2)
          ∧ ∃ m, a = o.fillTotal m)
      ∧ (Trade.mk ⟨1, 100, 10⟩ ⟨2, 100, 10⟩)
          = tradeOf b a (min b.remainingQuantity a.remainingQuantity)
      ∧ (Trade.mk ⟨1, 100, 10⟩ ⟨2, 100, 10⟩).bidTrade.orderId = b.orderId
      ∧ (Trade.mk ⟨1, 100, 10⟩ ⟨2, 100, 10⟩).bidTrade.price = b.price
      ∧ (Trade.mk ⟨1, 100, 10⟩ ⟨2, 100, 10⟩).askTrade.orderId = a.orderId
      ∧ (Trade.mk ⟨1, 100, 10⟩ ⟨2, 100, 10⟩).askTrade.price = a.price
      ∧ (Trade.mk ⟨1, 100, 10⟩ ⟨2, 100, 10⟩).bidTrade.quantity
          = min b.remainingQuantity a.remainingQuantity
      ∧ (Trade.mk ⟨1, 100, 10⟩ ⟨2, 100, 10⟩).askTrade.quantity
          = (Trade.mk ⟨1, 100, 10⟩ ⟨2, 100, 10⟩).bidTrade.quantity :=
  trade_fields_spec [(100, [mkOrder .GoodTillCancel 1 .Buy 100 10])]
    [(100, [mkOrder .GoodTillCancel 2 .Sell 100 20])] []
    (Trade.mk ⟨1, 100, 10⟩ ⟨2, 100, 10⟩)
    (by simp [matchLoop, matchLevel, stepBids, stepAsks, stepOrds, fillQuantity, Order.fillTotal,
      Order.IsFilled, eraseId, tradeOf, mkOrder])

theorem eraseId_sublist (ords : OrderIndex) (id : Nat) : (eraseId ords id).Sublist ords :=
  List.eraseP_sublist ords

theorem containsId_iff_mem (ords : OrderIndex) (id : Nat) :
    containsId ords id = true ↔ id ∈ ords.map (fun e => e.1) := by
  rw [containsId, List.any_eq_true]
  constructor
  · rintro ⟨e, he, hid⟩
    exact List.mem_map.mpr ⟨e, he, by simpa using hid⟩
  · rintro h
    rcases List.mem_map.mp h with ⟨e, he, hid⟩
    exact ⟨e, he, by simp [hid]⟩

theorem containsId_eraseId_ne (ords : OrderIndex) (id x : Nat) (h : x ≠ id) :
    containsId (eraseId ords id) x = containsId ords x := by
  induction ords with
  | nil => rfl
  | cons e rest ih =>
    rw [eraseId, List.eraseP_cons]
    by_cases he : e.1 = id
    · have hbe : (e.1 == id) = true := by simp [he]
      have hex : (e.1 == x) = false := by
        simp only [beq_eq_false_iff_ne, ne_eq, he]
        omega
      rw [hbe, cond_true]
      rw [containsId, containsId, List.any_cons, hex, Bool.false_or]
    · have hbe : (e.1 == id) = false := by simp [he]
      rw [hbe, cond_false]
      rw [containsId, containsId, List.any_cons, List.any_cons]
      have hih : (List.eraseP (fun e => e.1 == id) rest).any (fun e => e.1 == x)
          = rest.any (fun e => e.1 == x) := ih
      rw [hih]

theorem lookupId_eraseId_ne (ords : OrderIndex) (id x : Nat) (h : x ≠ id) :
    lookupId (eraseId ords id) x = lookupId ords x := by
  induction ords with
  | nil => rfl
  | cons e rest ih =>
    rw [eraseId, List.eraseP_cons]
    by_cases he : e.1 = id
    · have hbe : (e.1 == id) = true := by simp [he]
      have hex : (e.1 == x) = false := by
        simp only [beq_eq_false_iff_ne, ne_eq, he]
        omega
      rw [hbe, cond_true]
      simp only [lookupId, List.find?_cons, hex]
    · have hbe : (e.1 == id) = false := by simp [he]
      rw [hbe, cond_false]
      simp only [lookupId, List.find?_cons]
      cases hex : (e.1 == x) with
      | true => rfl
      | false => exact ih

theorem containsId_eraseId_self (ords : OrderIndex) (id : Nat)
    (h : (ords.map (fun e => e.1)).Nodup) :
    containsId (eraseId ords id) id = false := by
  induction ords with
  | nil => rfl
  | cons e rest ih =>
    rw [List.map_cons, List.nodup_cons] at h
    rw [eraseId, List.eraseP_cons]
    by_cases he : e.1 = id
    · have hbe : (e.1 == id) = true := by simp [he]
      rw [hbe, cond_true]
      cases hcc : containsId rest id with
      | false => rfl
      | true =>
        exfalso
        exact h.1 (by rw [he]; exact (containsId_iff_mem rest id).mp hcc)
    · have hbe : (e.1 == id) = false := by simp [he]
      rw [hbe, cond_false]
      rw [containsId, List.any_cons, hbe, Bool.false_or]
      exact ih h.2

theorem lookupId_sublist_eq (id : Nat) :
    ∀ {ords' ords : OrderIndex}, ords'.Sublist ords →
      (ords.map (fun e => e.1)).Nodup → containsId ords' id = true →
      lookupId ords' id = lookupId ords id := by
  intro ords' ords hsub
  induction hsub with
  | slnil =>
    intro _ hc
    simp [containsId] at hc
  | cons e hs ih =>
    rename_i l' l
    intro hnodup hc
    rw [List.map_cons, List.nodup_cons] at hnodup
    have he : (e.1 == id) = false := by
      cases hbe : (e.1 == id) with
      | false => rfl
      | true =>
        exfalso
        have hid : id ∈ l'.map (fun x => x.1) := (containsId_iff_mem l' id).mp hc
        have hsubm : (l'.map (fun x => x.1)).Sublist (l.map (fun x => x.1)) := hs.map _
        have hmem : id ∈ l.map (fun x => x.1) := hsubm.subset hid
        rw [show e.1 = id from by simpa using hbe] at hnodup
        exact hnodup.1 hmem
    conv_rhs => rw [lookupId]
    simp only [List.find?_cons, he]
    exact ih hnodup.2 hc
  | cons₂ e hs ih =>
    rename_i l' l
    intro hnodup hc
    rw [List.map_cons, List.nodup_cons] at hnodup
    simp only [lookupId, List.find?_cons]
    cases he : (e.1 == id) with
    | true => rfl
    | false =>
      refine ih hnodup.2 ?_
      rw [containsId, List.any_cons, he, Bool.false_or] at hc
      exact hc

theorem lookupId_append_fresh (ords : OrderIndex) (id : Nat) (o : Order)
    (h : containsId ords id = false) :
    lookupId (ords ++ [(id, o)]) id = some o := by
  induction ords with
  | nil => simp [lookupId, List.find?]
  | cons e rest ih =>
    rw [containsId, List.any_cons] at h
    simp only [Bool.or_eq_false_iff] at h
    rw [List.cons_append, lookupId, List.find?_cons]
    rw [h.1]
    exact ih h.2

theorem containsId_append (ords : OrderIndex) (id : Nat) (o : Order) (x : Nat) :
    containsId (ords ++ [(id, o)]) x = (containsId ords x || (id == x)) := by
  rw [containsId, containsId, List.any_append]
  simp [List.any_cons, eq_comm]

theorem getLevel_cons_self (p : Int) (q : OrderQueue) (rest : Ladder) :
    getLevel ((p, q) :: rest) p = q := by
  simp [getLevel, List.find?_cons]

theorem getLevel_cons_ne (p p' : Int) (q : OrderQueue) (rest : Ladder) (h : p' ≠ p) :
    getLevel ((p, q) :: rest) p' = getLevel rest p' := by
  rw [getLevel, getLevel, List.find?_cons]
  have : (p == p') = false := by
    simp only [beq_eq_false_iff_ne, ne_eq]
    omega
  simp only [this]

theorem getLevel_not_mem (lad : Ladder) (p : Int) (h : p ∉ lad.map (fun e => e.1)) :
    getLevel lad p = [] := by
  rw [getLevel, List.find?_eq_none.mpr]
  · rfl
  · intro e he
    simp only [beq_eq_false_iff_ne, ne_eq, Bool.not_eq_true, beq_eq_false_iff_ne]
    intro hk
    exact h (List.mem_map.mpr ⟨e, he, hk⟩)

theorem ladder_keys_nodup_desc (lad : Ladder) (h : lad.Pairwise (fun x y => y.1 < x.1)) :
    (lad.map (fun e => e.1)).Nodup :=
  List.Pairwise.map _ (fun a b hab => ne_of_gt hab) h

theorem ladder_keys_nodup_asc (lad : Ladder) (h : lad.Pairwise (fun x y => x.1 < y.1)) :
    (lad.map (fun e => e.1)).Nodup :=
  List.Pairwise.map _ (fun a b hab => ne_of_lt hab) h

theorem getLevel_of_mem (lad : Ladder) (e : Int × OrderQueue)
    (hnd : (lad.map (fun x => x.1)).Nodup) (he : e ∈ lad) :
    getLevel lad e.1 = e.2 := by
  induction lad with
  | nil => cases he
  | cons hd tl ih =>
    rw [List.map_cons, List.nodup_cons] at hnd
    rcases List.mem_cons.mp he with h | h
    · subst h
      exact getLevel_cons_self e.1 e.2 tl
    · obtain ⟨p, q⟩ := hd
      have hne : e.1 ≠ p := by
        intro hx
        exact hnd.1 (hx ▸ List.mem_map.mpr ⟨e, h, rfl⟩)
      rw [getLevel_cons_ne p e.1 q tl hne]
      exact ih hnd.2 h

theorem ladderOrders_mem (lad : Ladder) (o : Order) :
    o ∈ ladderOrders lad ↔ ∃ e ∈ lad, o ∈ e.2 := by
  rw [ladderOrders, List.mem_flatten]
  constructor
  · rintro ⟨q, hq, ho⟩
    rcases List.mem_map.mp hq with ⟨e, he, hqe⟩
    exact ⟨e, he, hqe ▸ ho⟩
  · rintro ⟨e, he, ho⟩
    exact ⟨e.2, List.mem_map.mpr ⟨e, he, rfl⟩, ho⟩

theorem getLevel_sub_ladderOrders (lad : Ladder) (p : Int) :
    ∀ o ∈ getLevel lad p, o ∈ ladderOrders lad := by
  intro o ho
  rw [getLevel] at ho
  cases hf : lad.find? (fun e => e.1 == p) with
  | none =>
    rw [hf] at ho
    cases ho
  | some e =>
    rw [hf] at ho
    exact (ladderOrders_mem lad o).mpr ⟨e, List.mem_of_find?_eq_some hf, ho⟩

theorem getLevel_setLevel_self (lad : Ladder) (p : Int) (l : OrderQueue)
    (h : p ∈ lad.map (fun e => e.1)) :
    getLevel (setLevel lad p l) p = l := by
  induction lad with
  | nil => cases h
  | cons hd tl ih =>
    obtain ⟨hp, hq⟩ := hd
    rw [List.map_cons, List.mem_cons] at h
    rw [setLevel, List.map_cons]
    by_cases hk : hp = p
    · rw [if_pos (by simp [hk])]
      exact hk ▸ getLevel_cons_self hp l _
    · rw [if_neg (by simp [hk])]
      rw [getLevel_cons_ne hp p hq _ (fun hx => hk hx.symm)]
      rw [← setLevel]
      exact ih (h.resolve_left (fun hx => hk hx.symm))

theorem getLevel_setLevel_ne (lad : Ladder) (p p' : Int) (l : OrderQueue) (h : p' ≠ p) :
    getLevel (setLevel lad p l) p' = getLevel lad p' := by
  induction lad with
  | nil => rfl
  | cons hd tl ih =>
    obtain ⟨hp, hq⟩ := hd
    rw [setLevel, List.map_cons]
    by_cases hk : hp = p
    · rw [if_pos (by simp [hk])]
      rw [getLevel_cons_ne hp p' l _ (fun hx => h (hx.trans hk))]
      rw [getLevel_cons_ne hp p' hq tl (fun hx => h (hx.trans hk))]
      exact ih
    · rw [if_neg (by simp [hk])]
      by_cases hk2 : hp = p'
      · subst hk2
        rw [getLevel_cons_self, getLevel_cons_self]
      · rw [getLevel_cons_ne hp p' hq _ (fun hx => hk2 hx.symm)]
        rw [getLevel_cons_ne hp p' hq tl (fun hx => hk2 hx.symm)]
        exact ih

theorem getLevel_eraseLevel_ne (lad : Ladder) (p p' : Int) (h : p' ≠ p) :
    getLevel (eraseLevel lad p) p' = getLevel lad p' := by
  induction lad with
  | nil => rfl
  | cons hd tl ih =>
    obtain ⟨hp, hq⟩ := hd
    rw [eraseLevel, List.filter_cons]
    by_cases hk : hp = p
    · rw [if_neg (by simp [hk])]
      rw [getLevel_cons_ne hp p' hq tl (fun hx => h (hx.trans hk))]
      exact ih
    · rw [if_pos (by simp [hk])]
      by_cases hk2 : hp = p'
      · subst hk2
        rw [getLevel_cons_self, getLevel_cons_self]
      · rw [getLevel_cons_ne hp p' hq _ (fun hx => hk2 hx.symm)]
        rw [getLevel_cons_ne hp p' hq tl (fun hx => hk2 hx.symm)]
        exact ih

theorem getLevel_eraseLevel_self (lad : Ladder) (p : Int) :
    getLevel (eraseLevel lad p) p = [] := by
  apply getLevel_not_mem
  intro h
  rcases List.mem_map.mp h with ⟨e, he, hk⟩
  rw [eraseLevel] at he
  have := List.of_mem_filter he
  simp [hk] at this

/-- Effect of CancelOrder's ladder update on each price level: the level at
the cancelled order's price loses the first order with that id, every
other level is untouched. -/
theorem cancelLadder_getLevel (lad : Ladder) (p : Int) (id : Nat) (p' : Int) :
    getLevel (cancelLadder lad p id) p'
      = if p' = p then (getLevel lad p').eraseP (fun o => o.orderId == id)
        else getLevel lad p' := by
  rw [cancelLadder]
  by_cases hk : p' = p
  · subst hk
    split
    · rename_i hemp
      rw [getLevel_eraseLevel_self, if_pos rfl]
      rw [List.isEmpty_iff] at hemp
      exact hemp.symm
    · rename_i hemp
      rw [if_pos rfl]
      apply getLevel_setLevel_self
      by_contra hmem
      rw [getLevel_not_mem lad p' hmem] at hemp
      simp [List.eraseP] at hemp
  · rw [if_neg hk]
    split
    · exact getLevel_eraseLevel_ne lad p p' hk
    · exact getLevel_setLevel_ne lad p p' _ hk

/-- Effect of the bid-side insertion on each price level: the new order is
appended at the back of its own level's queue (created if absent), every
other level is untouched. -/
theorem insertBid_getLevel (o : Order) (lad : Ladder)
    (hs : lad.Pairwise (fun x y => y.1 < x.1)) (p' : Int) :
    getLevel (insertBid o lad) p'
      = if p' = o.price then getLevel lad p' ++ [o] else getLevel lad p' := by
  induction lad with
  | nil =>
    rw [insertBid]
    by_cases hk : p' = o.price
    · subst hk
      rw [if_pos rfl, getLevel_cons_self]
      rfl
    · rw [if_neg hk, getLevel_cons_ne o.price p' [o] [] (fun hx => hk hx)]
  | cons hd tl ih =>
    obtain ⟨hp, hq⟩ := hd
    rw [List.pairwise_cons] at hs
    rw [insertBid]
    split
    · rename_i hgt
      by_cases hk : p' = o.price
      · subst hk
        rw [if_pos rfl, getLevel_cons_self]
        have hnm : o.price ∉ ((hp, hq) :: tl).map (fun e => e.1) := by
          intro hmem
          rcases List.mem_map.mp hmem with ⟨e, he, hke⟩
          rcases List.mem_cons.mp he with h' | h'
          · rw [h'] at hke
            simp only at hke
            omega
          · have := hs.1 e h'
            omega
        rw [getLevel_not_mem _ o.price hnm]
        rfl
      · rw [if_neg hk, getLevel_cons_ne o.price p' [o] _ (fun hx => hk hx)]
    · split
      · rename_i hgt heq
        have heqp : o.price = hp := by simpa using heq
        by_cases hk : p' = o.price
        · subst hk
          rw [if_pos rfl, heqp, getLevel_cons_self, getLevel_cons_self]
        · rw [if_neg hk]
          rw [getLevel_cons_ne hp p' (hq ++ [o]) tl (fun hx => hk (hx.trans heqp.symm))]
          rw [getLevel_cons_ne hp p' hq tl (fun hx => hk (hx.trans heqp.symm))]
      · rename_i hgt heq
        have hlt : o.price < hp := lt_of_le_of_ne (not_lt.mp hgt) (by simpa using heq)
        by_cases hk : p' = hp
        · subst hk
          rw [getLevel_cons_self]
          rw [if_neg (by omega)]
          rw [getLevel_cons_self]
        · rw [getLevel_cons_ne hp p' hq _ (fun hx => hk hx)]
          rw [ih hs.2]
          by_cases hk2 : p' = o.price
          · rw [if_pos hk2, if_pos hk2, getLevel_cons_ne hp p' hq tl (fun hx => hk hx)]
          · rw [if_neg hk2, if_neg hk2, getLevel_cons_ne hp p' hq tl (fun hx => hk hx)]

/-- Ask-side mirror of insertBid_getLevel. -/
theorem insertAsk_getLevel (o : Order) (lad : Ladder)
    (hs : lad.Pairwise (fun x y => x.1 < y.1)) (p' : Int) :
    getLevel (insertAsk o lad) p'
      = if p' = o.price then getLevel lad p' ++ [o] else getLevel lad p' := by
  induction lad with
  | nil =>
    rw [insertAsk]
    by_cases hk : p' = o.price
    · subst hk
      rw [if_pos rfl, getLevel_cons_self]
      rfl
    · rw [if_neg hk, getLevel_cons_ne o.price p' [o] [] (fun hx => hk hx)]
  | cons hd tl ih =>
    obtain ⟨hp, hq⟩ := hd
    rw [List.pairwise_cons] at hs
    rw [insertAsk]
    split
    · rename_i hltp
      by_cases hk : p' = o.price
      · subst hk
        rw [if_pos rfl, getLevel_cons_self]
        have hnm : o.price ∉ ((hp, hq) :: tl).map (fun e => e.1) := by
          intro hmem
          rcases List.mem_map.mp hmem with ⟨e, he, hke⟩
          rcases List.mem_cons.mp he with h' | h'
          · rw [h'] at hke
            simp only at hke
            omega
          · have := hs.1 e h'
            omega
        rw [getLevel_not_mem _ o.price hnm]
        rfl
      · rw [if_neg hk, getLevel_cons_ne o.price p' [o] _ (fun hx => hk hx)]
    · split
      · rename_i hltp heq
        have heqp : o.price = hp := by simpa using heq
        by_cases hk : p' = o.price
        · subst hk
          rw [if_pos rfl, heqp, getLevel_cons_self, getLevel_cons_self]
        · rw [if_neg hk]
          rw [getLevel_cons_ne hp p' (hq ++ [o]) tl (fun hx => hk (hx.trans heqp.symm))]
          rw [getLevel_cons_ne hp p' hq tl (fun hx => hk (hx.trans heqp.symm))]
      · rename_i hltp heq
        have hlt : hp < o.price := lt_of_le_of_ne (not_lt.mp hltp)
          (fun hx => (by simpa using heq : ¬o.price = hp) hx.symm)
        by_cases hk : p' = hp
        · subst hk
          rw [getLevel_cons_self]
          rw [if_neg (by omega)]
          rw [getLevel_cons_self]
        · rw [getLevel_cons_ne hp p' hq _ (fun hx => hk hx)]
          rw [ih hs.2]
          by_cases hk2 : p' = o.price
          · rw [if_pos hk2, if_pos hk2, getLevel_cons_ne hp p' hq tl (fun hx => hk hx)]
          · rw [if_neg hk2, if_neg hk2, getLevel_cons_ne hp p' hq tl (fun hx => hk hx)]

theorem headFilled_zero (l : OrderQueue) : headFilled 0 l = l := by
  cases l with
  | nil => rfl
  | cons o rest =>
    rw [headFilled, fillTotal_zero]

theorem headFilled_ids (q : Nat) (l : OrderQueue) :
    (headFilled q l).map (fun o => o.orderId) = l.map (fun o => o.orderId) := by
  cases l with
  | nil => rfl
  | cons o rest => rfl

/-- The inner loop consumes each queue from the front: the surviving queue
is the input queue with a fully-filled prefix dropped and the new front
order partially filled. -/
theorem matchLevel_consumed (bids asks : OrderQueue) (ords : OrderIndex) :
    (∃ k q, (matchLevel bids asks ords).bids = headFilled q (bids.drop k))
    ∧ (∃ k q, (matchLevel bids asks ords).asks = headFilled q (asks.drop k)) := by
  induction bids, asks, ords using matchLevel.induct with
  | case1 asks ords =>
    simp only [matchLevel]
    exact ⟨⟨0, 0, rfl⟩, ⟨0, 0, (headFilled_zero asks).symm⟩⟩
  | case2 bid bids ords =>
    simp only [matchLevel]
    exact ⟨⟨0, 0, (headFilled_zero (bid :: bids)).symm⟩, ⟨0, 0, rfl⟩⟩
  | case3 bid bids ask asks ords ih =>
    simp only [matchLevel]
    constructor
    · rcases ih.1 with ⟨k, q, hk⟩
      set M := (matchLevel (stepBids bid ask bids) (stepAsks bid ask asks)
        (stepOrds bid ask ords)).bids with hM
      rw [stepBids] at hk
      split at hk
      · exact ⟨k + 1, q, hk⟩
      · cases k with
        | zero =>
          refine ⟨0, fillQuantity bid ask + q, ?_⟩
          rw [hk]
          rw [List.drop_zero, List.drop_zero, headFilled, headFilled]
          rw [fillTotal_fillTotal]
        | succ k' =>
          exact ⟨k' + 1, q, hk⟩
    · rcases ih.2 with ⟨k, q, hk⟩
      set M := (matchLevel (stepBids bid ask bids) (stepAsks bid ask asks)
        (stepOrds bid ask ords)).asks with hM
      rw [stepAsks] at hk
      split at hk
      · exact ⟨k + 1, q, hk⟩
      · cases k with
        | zero =>
          refine ⟨0, fillQuantity bid ask + q, ?_⟩
          rw [hk]
          rw [List.drop_zero, List.drop_zero, headFilled, headFilled]
          rw [fillTotal_fillTotal]
        | succ k' =>
          exact ⟨k' + 1, q, hk⟩

theorem containsId_false_of_sublist (ords' ords : OrderIndex) (x : Nat)
    (hsub : ords'.Sublist ords) (h : containsId ords x = false) :
    containsId ords' x = false := by
  cases hc : containsId ords' x with
  | false => rfl
  | true =>
    exfalso
    rw [containsId, List.any_eq_true] at hc
    rcases hc with ⟨e, he, hpe⟩
    rw [containsId, List.any_eq_false] at h
    exact absurd hpe (h e (hsub.subset he))

theorem stepOrds_sublist (bid ask : Order) (ords : OrderIndex) :
    (stepOrds bid ask ords).Sublist ords := by
  rw [stepOrds]
  split
  · split
    · exact (eraseId_sublist _ _).trans ((eraseId_sublist _ _).trans (List.Sublist.refl _))
    · exact eraseId_sublist _ _
  · split
    · exact eraseId_sublist _ _
    · exact List.Sublist.refl _

theorem matchLevel_orders_sublist (bids asks : OrderQueue) (ords : OrderIndex) :
    (matchLevel bids asks ords).orders.Sublist ords := by
  induction bids, asks, ords using matchLevel.induct with
  | case1 asks ords =>
    simp only [matchLevel]
    exact List.Sublist.refl _
  | case2 bid bids ords =>
    simp only [matchLevel]
    exact List.Sublist.refl _
  | case3 bid bids ask asks ords ih =>
    simp only [matchLevel]
    exact ih.trans (stepOrds_sublist bid ask ords)

theorem matchLevel_bids_ids (bids asks : OrderQueue) (ords : OrderIndex) :
    (queueIds (matchLevel bids asks ords).bids).Sublist (queueIds bids) := by
  rcases (matchLevel_consumed bids asks ords).1 with ⟨k, q, hk⟩
  rw [queueIds, hk, headFilled_ids, List.map_drop]
  exact List.drop_sublist k (List.map (fun o => o.orderId) bids)

theorem matchLevel_asks_ids (bids asks : OrderQueue) (ords : OrderIndex) :
    (queueIds (matchLevel bids asks ords).asks).Sublist (queueIds asks) := by
  rcases (matchLevel_consumed bids asks ords).2 with ⟨k, q, hk⟩
  rw [queueIds, hk, headFilled_ids, List.map_drop]
  exact List.drop_sublist k (List.map (fun o => o.orderId) asks)

theorem stepOrds_preserves (bid ask : Order) (ords : OrderIndex) (id : Nat)
    (hb : (bid.fillTotal (fillQuantity bid ask)).IsFilled = true → id ≠ bid.orderId)
    (ha : (ask.fillTotal (fillQuantity bid ask)).IsFilled = true → id ≠ ask.orderId) :
    containsId (stepOrds bid ask ords) id = containsId ords id
    ∧ lookupId (stepOrds bid ask ords) id = lookupId ords id := by
  rw [stepOrds]
  by_cases hfb : (bid.fillTotal (fillQuantity bid ask)).IsFilled = true
  · by_cases hfa : (ask.fillTotal (fillQuantity bid ask)).IsFilled = true
    · rw [if_pos hfa, if_pos hfb]
      constructor
      · rw [containsId_eraseId_ne _ _ _ (ha hfa), containsId_eraseId_ne _ _ _ (hb hfb)]
      · rw [lookupId_eraseId_ne _ _ _ (ha hfa), lookupId_eraseId_ne _ _ _ (hb hfb)]
    · rw [if_neg hfa, if_pos hfb]
      exact ⟨containsId_eraseId_ne _ _ _ (hb hfb), lookupId_eraseId_ne _ _ _ (hb hfb)⟩
  · by_cases hfa : (ask.fillTotal (fillQuantity bid ask)).IsFilled = true
    · rw [if_pos hfa, if_neg hfb]
      exact ⟨containsId_eraseId_ne _ _ _ (ha hfa), lookupId_eraseId_ne _ _ _ (ha hfa)⟩
    · rw [if_neg hfa, if_neg hfb]
      exact ⟨rfl, rfl⟩

/-- The inner loop leaves the index entry of every surviving order
untouched: only ids of fully filled (popped) orders are erased, and under
the id-uniqueness invariant these differ from every surviving id. -/
theorem matchLevel_keeps_survivors (bids asks : OrderQueue) (ords : OrderIndex)
    (hnd : (queueIds bids ++ queueIds asks).Nodup) :
    ∀ id, (id ∈ queueIds (matchLevel bids asks ords).bids
        ∨ id ∈ queueIds (matchLevel bids asks ords).asks) →
      containsId (matchLevel bids asks ords).orders id = containsId ords id
      ∧ lookupId (matchLevel bids asks ords).orders id = lookupId ords id := by
  induction bids, asks, ords using matchLevel.induct with
  | case1 asks ords =>
    intro id _
    simp [matchLevel]
  | case2 bid bids ords =>
    intro id _
    simp [matchLevel]
  | case3 bid bids ask asks ords ih =>
    intro id hid
    simp only [matchLevel] at hid ⊢
    have hndStep : (queueIds (stepBids bid ask bids) ++ queueIds (stepAsks bid ask asks)).Nodup := by
      refine hnd.sublist (List.Sublist.append ?_ ?_)
      · rw [stepBids]
        split
        · exact (List.sublist_cons_self bid bids).map _
        · exact List.Sublist.refl _
      · rw [stepAsks]
        split
        · exact (List.sublist_cons_self ask asks).map _
        · exact List.Sublist.refl _
    have hsurv : id ∈ queueIds (stepBids bid ask bids) ∨ id ∈ queueIds (stepAsks bid ask asks) := by
      rcases hid with h | h
      · exact Or.inl ((matchLevel_bids_ids _ _ _).subset h)
      · exact Or.inr ((matchLevel_asks_ids _ _ _).subset h)
    have hnd' := List.nodup_append.mp hnd
    have hbguard : (bid.fillTotal (fillQuantity bid ask)).IsFilled = true → id ≠ bid.orderId := by
      intro hfb heq
      rcases hsurv with h | h
      · rw [stepBids, if_pos hfb] at h
        have : bid.orderId ∉ queueIds bids := by
          have := hnd'.1
          rw [queueIds, List.map_cons, List.nodup_cons] at this
          exact this.1
        exact this (heq ▸ h)
      · have hdisj := hnd'.2.2
        have hmem : bid.orderId ∈ queueIds (bid :: bids) := by
          rw [queueIds, List.map_cons]
          exact List.mem_cons_self _ _
        have : id ∈ queueIds (ask :: asks) := by
          rw [stepAsks] at h
          split at h
          · exact (List.sublist_cons_self ask asks).map _ |>.subset h
          · exact h
        exact hdisj hmem (heq ▸ this)
    have haguard : (ask.fillTotal (fillQuantity bid ask)).IsFilled = true → id ≠ ask.orderId := by
      intro hfa heq
      rcases hsurv with h | h
      · have hdisj := hnd'.2.2
        have hmem : ask.orderId ∈ queueIds (ask :: asks) := by
          rw [queueIds, List.map_cons]
          exact List.mem_cons_self _ _
        have : id ∈ queueIds (bid :: bids) := by
          rw [stepBids] at h
          split at h
          · exact (List.sublist_cons_self bid bids).map _ |>.subset h
          · exact h
        exact hdisj (heq ▸ this) hmem
      · rw [stepAsks, if_pos hfa] at h
        have : ask.orderId ∉ queueIds asks := by
          have := hnd'.2.1
          rw [queueIds, List.map_cons, List.nodup_cons] at this
          exact this.1
        exact this (heq ▸ h)
    have hstep := stepOrds_preserves bid ask ords id hbguard haguard
    have hih := ih hndStep id hid
    exact ⟨hih.1.trans hstep.1, hih.2.trans hstep.2⟩

/-- Index entries whose id does not rest in either front queue are
untouched by the inner loop. -/
theorem matchLevel_outside_ids (bids asks : OrderQueue) (ords : OrderIndex) :
    ∀ id, id ∉ queueIds bids ++ queueIds asks →
      containsId (matchLevel bids asks ords).orders id = containsId ords id
      ∧ lookupId (matchLevel bids asks ords).orders id = lookupId ords id := by
  induction bids, asks, ords using matchLevel.induct with
  | case1 asks ords =>
    intro id _
    simp [matchLevel]
  | case2 bid bids ords =>
    intro id _
    simp [matchLevel]
  | case3 bid bids ask asks ords ih =>
    intro id hid
    simp only [matchLevel]
    have hnb : id ≠ bid.orderId := by
      intro h
      exact hid (List.mem_append.mpr (Or.inl (by
        rw [queueIds, List.map_cons, h]
        exact List.mem_cons_self _ _)))
    have hna : id ≠ ask.orderId := by
      intro h
      exact hid (List.mem_append.mpr (Or.inr (by
        rw [queueIds, List.map_cons, h]
        exact List.mem_cons_self _ _)))
    have hid' : id ∉ queueIds (stepBids bid ask bids) ++ queueIds (stepAsks bid ask asks) := by
      intro hmem
      refine hid ?_
      rcases List.mem_append.mp hmem with h | h
      · refine List.mem_append.mpr (Or.inl ?_)
        rw [stepBids] at h
        split at h
        · exact ((List.sublist_cons_self bid bids).map _).subset h
        · rw [queueIds, List.map_cons] at h ⊢
          exact h
      · refine List.mem_append.mpr (Or.inr ?_)
        rw [stepAsks] at h
        split at h
        · exact ((List.sublist_cons_self ask asks).map _).subset h
        · rw [queueIds, List.map_cons] at h ⊢
          exact h
    have hstep := stepOrds_preserves bid ask ords id (fun _ => hnb) (fun _ => hna)
    have hih := ih id hid'
    exact ⟨hih.1.trans hstep.1, hih.2.trans hstep.2⟩

/-- When the inner loop fully fills (pops) an order, it erases its id from
the index: an id present in a front queue before but absent from both
surviving queues has no index entry afterwards. -/
theorem matchLevel_erases_dropped (bids asks : OrderQueue) (ords : OrderIndex)
    (hnd : (queueIds bids ++ queueIds asks).Nodup)
    (hknd : (ords.map (fun e => e.1)).Nodup) :
    ∀ id, id ∈ queueIds bids ++ queueIds asks →
      id ∉ queueIds (matchLevel bids asks ords).bids →
      id ∉ queueIds (matchLevel bids asks ords).asks →
      containsId (matchLevel bids asks ords).orders id = false := by
  induction bids, asks, ords using matchLevel.induct with
  | case1 asks ords =>
    intro id hin hb ha
    simp only [matchLevel] at hb ha ⊢
    rcases List.mem_append.mp hin with h | h
    · simp [queueIds] at h
    · exact absurd h ha
  | case2 bid bids ords =>
    intro id hin hb ha
    simp only [matchLevel] at hb ha ⊢
    rcases List.mem_append.mp hin with h | h
    · exact absurd h hb
    · simp [queueIds] at h
  | case3 bid bids ask asks ords ih =>
    intro id hin hb ha
    simp only [matchLevel] at hb ha ⊢
    have hndStep : (queueIds (stepBids bid ask bids) ++ queueIds (stepAsks bid ask asks)).Nodup := by
      refine hnd.sublist (List.Sublist.append ?_ ?_)
      · rw [stepBids]
        split
        · exact (List.sublist_cons_self bid bids).map _
        · exact List.Sublist.refl _
      · rw [stepAsks]
        split
        · exact (List.sublist_cons_self ask asks).map _
        · exact List.Sublist.refl _
    have hkndStep : ((stepOrds bid ask ords).map (fun e => e.1)).Nodup :=
      hknd.sublist ((stepOrds_sublist bid ask ords).map _)
    by_cases hinStep : id ∈ queueIds (stepBids bid ask bids) ++ queueIds (stepAsks bid ask asks)
    · exact ih hndStep hkndStep id hinStep hb ha
    · -- id was dropped at this very step: id = bid.orderId with bid popped,
      -- or id = ask.orderId with ask popped; its entry is erased by stepOrds.
      have hcontains : containsId (stepOrds bid ask ords) id = false := by
        rcases List.mem_append.mp hin with h | h
        · rw [queueIds, List.map_cons, List.mem_cons] at h
          rcases h with h | h
          · -- id = bid.orderId; bid must have been popped
            by_cases hfb : (bid.fillTotal (fillQuantity bid ask)).IsFilled = true
            · rw [stepOrds]
              by_cases hfa : (ask.fillTotal (fillQuantity bid ask)).IsFilled = true
              · rw [if_pos hfa, if_pos hfb]
                have hba : id ≠ ask.orderId := by
                  intro hx
                  have hdisj := (List.nodup_append.mp hnd).2.2
                  have h1 : id ∈ queueIds (bid :: bids) := by
                    rw [queueIds, List.map_cons, h]
                    exact List.mem_cons_self _ _
                  have h2 : id ∈ queueIds (ask :: asks) := by
                    rw [queueIds, List.map_cons, hx]
                    exact List.mem_cons_self _ _
                  exact hdisj h1 h2
                rw [containsId_eraseId_ne _ _ _ hba, h]
                exact containsId_eraseId_self ords bid.orderId hknd
              · rw [if_neg hfa, if_pos hfb, h]
                exact containsId_eraseId_self ords bid.orderId hknd
            · exfalso
              refine hinStep (List.mem_append.mpr (Or.inl ?_))
              rw [stepBids, if_neg hfb, queueIds, List.map_cons, h]
              exact List.mem_cons_self _ _
          · exfalso
            refine hinStep (List.mem_append.mpr (Or.inl ?_))
            rw [stepBids]
            split
            · exact h
            · rw [queueIds, List.map_cons]
              exact List.mem_cons_of_mem _ h
        · rw [queueIds, List.map_cons, List.mem_cons] at h
          rcases h with h | h
          · by_cases hfa : (ask.fillTotal (fillQuantity bid ask)).IsFilled = true
            · have hknd' : ((if (bid.fillTotal (fillQuantity bid ask)).IsFilled = true
                  then eraseId ords bid.orderId else ords).map (fun e => e.1)).Nodup := by
                refine hknd.sublist (List.Sublist.map _ ?_)
                split
                · exact eraseId_sublist _ _
                · exact List.Sublist.refl _
              rw [stepOrds, if_pos hfa, h]
              exact containsId_eraseId_self _ ask.orderId hknd'
            · exfalso
              refine hinStep (List.mem_append.mpr (Or.inr ?_))
              rw [stepAsks, if_neg hfa, queueIds, List.map_cons, h]
              exact List.mem_cons_self _ _
          · exfalso
            refine hinStep (List.mem_append.mpr (Or.inr ?_))
            rw [stepAsks]
            split
            · exact h
            · rw [queueIds, List.map_cons]
              exact List.mem_cons_of_mem _ h
      exact containsId_false_of_sublist _ _ _ (matchLevel_orders_sublist _ _ _) hcontains

theorem ladderIds_cons (p : Int) (q : OrderQueue) (rest : Ladder) :
    ladderIds ((p, q) :: rest) = queueIds q ++ ladderIds rest := by
  simp [ladderIds, ladderOrders, queueIds]

theorem ladderIds_nil : ladderIds [] = [] := rfl

theorem matchLoop_NE (bids asks : Ladder) (ords : OrderIndex)
    (hb : ∀ e ∈ bids, e.2 ≠ []) (ha : ∀ e ∈ asks, e.2 ≠ []) :
    (∀ e ∈ (matchLoop bids asks ords).bids, e.2 ≠ [])
    ∧ (∀ e ∈ (matchLoop bids asks ords).asks, e.2 ≠ []) := by
  induction bids, asks, ords using matchLoop.induct with
  | case1 asks ords =>
    simp only [matchLoop]
    exact ⟨hb, ha⟩
  | case2 b bids ords =>
    simp only [matchLoop]
    exact ⟨hb, ha⟩
  | case3 bidPrice bidOrders restBids askPrice askOrders restAsks ords hlt =>
    simp only [matchLoop, if_pos hlt]
    exact ⟨hb, ha⟩
  | case4 bidPrice bidOrders restBids askPrice askOrders restAsks ords hlt r bids' asks' ih =>
    simp only [matchLoop, if_neg hlt]
    refine ih ?_ ?_
    · unfold bids'
      split
      · exact fun e he => hb e (List.mem_cons_of_mem _ he)
      · rename_i hne
        intro e he
        rcases List.mem_cons.mp he with h | h
        · subst h
          simpa [List.isEmpty_iff] using hne
        · exact hb e (List.mem_cons_of_mem _ h)
    · unfold asks'
      split
      · exact fun e he => ha e (List.mem_cons_of_mem _ he)
      · rename_i hne
        intro e he
        rcases List.mem_cons.mp he with h | h
        · subst h
          simpa [List.isEmpty_iff] using hne
        · exact ha e (List.mem_cons_of_mem _ h)

theorem matchLoop_priceSide (bids asks : Ladder) (ords : OrderIndex)
    (hb : ∀ e ∈ bids, ∀ o ∈ e.2, o.price = e.1 ∧ o.side = Side.Buy)
    (ha : ∀ e ∈ asks, ∀ o ∈ e.2, o.price = e.1 ∧ o.side = Side.Sell) :
    (∀ e ∈ (matchLoop bids asks ords).bids, ∀ o ∈ e.2, o.price = e.1 ∧ o.side = Side.Buy)
    ∧ (∀ e ∈ (matchLoop bids asks ords).asks, ∀ o ∈ e.2, o.price = e.1 ∧ o.side = Side.Sell) := by
  induction bids, asks, ords using matchLoop.induct with
  | case1 asks ords =>
    simp only [matchLoop]
    exact ⟨hb, ha⟩
  | case2 b bids ords =>
    simp only [matchLoop]
    exact ⟨hb, ha⟩
  | case3 bidPrice bidOrders restBids askPrice askOrders restAsks ords hlt =>
    simp only [matchLoop, if_pos hlt]
    exact ⟨hb, ha⟩
  | case4 bidPrice bidOrders restBids askPrice askOrders restAsks ords hlt r bids' asks' ih =>
    simp only [matchLoop, if_neg hlt]
    refine ih ?_ ?_
    · unfold bids'
      split
      · exact fun e he => hb e (List.mem_cons_of_mem _ he)
      · intro e he
        rcases List.mem_cons.mp he with h | h
        · subst h
          intro o ho
          rcases (matchLevel_queue_fills bidOrders askOrders ords).1 o ho with ⟨o0, ho0, k, hk⟩
          have := hb (bidPrice, bidOrders) (List.mem_cons_self _ _) o0 ho0
          subst hk
          exact this
        · exact hb e (List.mem_cons_of_mem _ h)
    · unfold asks'
      split
      · exact fun e he => ha e (List.mem_cons_of_mem _ he)
      · intro e he
        rcases List.mem_cons.mp he with h | h
        · subst h
          intro o ho
          rcases (matchLevel_queue_fills bidOrders askOrders ords).2 o ho with ⟨o0, ho0, k, hk⟩
          have := ha (askPrice, askOrders) (List.mem_cons_self _ _) o0 ho0
          subst hk
          exact this
        · exact ha e (List.mem_cons_of_mem _ h)

theorem matchLoop_ladderIds (bids asks : Ladder) (ords : OrderIndex) :
    (ladderIds (matchLoop bids asks ords).bids).Sublist (ladderIds bids)
    ∧ (ladderIds (matchLoop bids asks ords).asks).Sublist (ladderIds asks) := by
  induction bids, asks, ords using matchLoop.induct with
  | case1 asks ords =>
    simp only [matchLoop]
    exact ⟨List.Sublist.refl _, List.Sublist.refl _⟩
  | case2 b bids ords =>
    simp only [matchLoop]
    exact ⟨List.Sublist.refl _, List.Sublist.refl _⟩
  | case3 bidPrice bidOrders restBids askPrice askOrders restAsks ords hlt =>
    simp only [matchLoop, if_pos hlt]
    exact ⟨List.Sublist.refl _, List.Sublist.refl _⟩
  | case4 bidPrice bidOrders restBids askPrice askOrders restAsks ords hlt r bids' asks' ih =>
    simp only [matchLoop, if_neg hlt]
    constructor
    · refine ih.1.trans ?_
      unfold bids'
      split
      · rw [ladderIds_cons]
        exact List.sublist_append_right _ _
      · rw [ladderIds_cons, ladderIds_cons]
        exact List.Sublist.append (matchLevel_bids_ids _ _ _) (List.Sublist.refl _)
    · refine ih.2.trans ?_
      unfold asks'
      split
      · rw [ladderIds_cons]
        exact List.sublist_append_right _ _
      · rw [ladderIds_cons, ladderIds_cons]
        exact List.Sublist.append (matchLevel_asks_ids _ _ _) (List.Sublist.refl _)

theorem matchLoop_orders_sublist (bids asks : Ladder) (ords : OrderIndex) :
    (matchLoop bids asks ords).orders.Sublist ords := by
  induction bids, asks, ords using matchLoop.induct with
  | case1 asks ords =>
    simp only [matchLoop]
    exact List.Sublist.refl _
  | case2 b bids ords =>
    simp only [matchLoop]
    exact List.Sublist.refl _
  | case3 bidPrice bidOrders restBids askPrice askOrders restAsks ords hlt =>
    simp only [matchLoop, if_pos hlt]
    exact List.Sublist.refl _
  | case4 bidPrice bidOrders restBids askPrice askOrders restAsks ords hlt r bids' asks' ih =>
    simp only [matchLoop, if_neg hlt]
    exact ih.trans (matchLevel_orders_sublist _ _ _)

theorem ladderOrders_cons (p : Int) (q : OrderQueue) (rest : Ladder) :
    ladderOrders ((p, q) :: rest) = q ++ ladderOrders rest := by
  simp [ladderOrders]

/-- Every order resting after the matching loop is a (possibly zero)
partial fill of an order that was resting on the same side before. -/
theorem matchLoop_orders_fills (bids asks : Ladder) (ords : OrderIndex) :
    (∀ o' ∈ ladderOrders (matchLoop bids asks ords).bids,
      ∃ o ∈ ladderOrders bids, ∃ k, o' = o.fillTotal k)
    ∧ (∀ o' ∈ ladderOrders (matchLoop bids asks ords).asks,
      ∃ o ∈ ladderOrders asks, ∃ k, o' = o.fillTotal k) := by
  induction bids, asks, ords using matchLoop.induct with
  | case1 asks ords =>
    simp only [matchLoop]
    exact ⟨fun o' ho' => ⟨o', ho', 0, (fillTotal_zero o').symm⟩,
      fun o' ho' => ⟨o', ho', 0, (fillTotal_zero o').symm⟩⟩
  | case2 b bids ords =>
    simp only [matchLoop]
    exact ⟨fun o' ho' => ⟨o', ho', 0, (fillTotal_zero o').symm⟩,
      fun o' ho' => ⟨o', ho', 0, (fillTotal_zero o').symm⟩⟩
  | case3 bidPrice bidOrders restBids askPrice askOrders restAsks ords hlt =>
    simp only [matchLoop, if_pos hlt]
    exact ⟨fun o' ho' => ⟨o', ho', 0, (fillTotal_zero o').symm⟩,
      fun o' ho' => ⟨o', ho', 0, (fillTotal_zero o').symm⟩⟩
  | case4 bidPrice bidOrders restBids askPrice askOrders restAsks ords hlt r bids' asks' ih =>
    simp only [matchLoop, if_neg hlt]
    constructor
    · intro o' ho'
      rcases ih.1 o' ho' with ⟨o, ho, k, hk⟩
      have : ∃ o0 ∈ ladderOrders ((bidPrice, bidOrders) :: restBids), ∃ k0, o = o0.fillTotal k0 := by
        unfold bids' at ho
        split at ho
        · exact ⟨o, by rw [ladderOrders_cons]; exact List.mem_append_right _ ho, 0,
            (fillTotal_zero o).symm⟩
        · rw [ladderOrders_cons] at ho
          rcases List.mem_append.mp ho with h | h
          · rcases (matchLevel_queue_fills bidOrders askOrders ords).1 o h with ⟨o0, ho0, k0, hk0⟩
            exact ⟨o0, by rw [ladderOrders_cons]; exact List.mem_append_left _ ho0, k0, hk0⟩
          · exact ⟨o, by rw [ladderOrders_cons]; exact List.mem_append_right _ h, 0,
              (fillTotal_zero o).symm⟩
      rcases this with ⟨o0, ho0, k0, hk0⟩
      exact ⟨o0, ho0, k0 + k, by rw [hk, hk0, fillTotal_fillTotal]⟩
    · intro o' ho'
      rcases ih.2 o' ho' with ⟨o, ho, k, hk⟩
      have : ∃ o0 ∈ ladderOrders ((askPrice, askOrders) :: restAsks), ∃ k0, o = o0.fillTotal k0 := by
        unfold asks' at ho
        split at ho
        · exact ⟨o, by rw [ladderOrders_cons]; exact List.mem_append_right _ ho, 0,
            (fillTotal_zero o).symm⟩
        · rw [ladderOrders_cons] at ho
          rcases List.mem_append.mp ho with h | h
          · rcases (matchLevel_queue_fills bidOrders askOrders ords).2 o h with ⟨o0, ho0, k0, hk0⟩
            exact ⟨o0, by rw [ladderOrders_cons]; exact List.mem_append_left _ ho0, k0, hk0⟩
          · exact ⟨o, by rw [ladderOrders_cons]; exact List.mem_append_right _ h, 0,
              (fillTotal_zero o).symm⟩
      rcases this with ⟨o0, ho0, k0, hk0⟩
      exact ⟨o0, ho0, k0 + k, by rw [hk, hk0, fillTotal_fillTotal]⟩

/-- The matching loop leaves index entries of ids that rest on neither
side untouched. -/
theorem matchLoop_outside_ids (bids asks : Ladder) (ords : OrderIndex) :
    ∀ id, id ∉ ladderIds bids ++ ladderIds asks →
      containsId (matchLoop bids asks ords).orders id = containsId ords id
      ∧ lookupId (matchLoop bids asks ords).orders id = lookupId ords id := by
  induction bids, asks, ords using matchLoop.induct with
  | case1 asks ords =>
    intro id _
    simp [matchLoop]
  | case2 b bids ords =>
    intro id _
    simp [matchLoop]
  | case3 bidPrice bidOrders restBids askPrice askOrders restAsks ords hlt =>
    intro id _
    simp [matchLoop, if_pos hlt]
  | case4 bidPrice bidOrders restBids askPrice askOrders restAsks ords hlt r bids' asks' ih =>
    intro id hid
    simp only [matchLoop, if_neg hlt]
    rw [ladderIds_cons, ladderIds_cons] at hid
    have hfront : id ∉ queueIds bidOrders ++ queueIds askOrders := by
      intro h
      rcases List.mem_append.mp h with h | h
      · exact hid (List.mem_append.mpr (Or.inl (List.mem_append_left _ h)))
      · exact hid (List.mem_append.mpr (Or.inr (List.mem_append_left _ h)))
    have hrec : id ∉ ladderIds bids' ++ ladderIds asks' := by
      intro h
      rcases List.mem_append.mp h with h | h
      · refine hid (List.mem_append.mpr (Or.inl ?_))
        unfold bids' at h
        split at h
        · exact List.mem_append_right _ h
        · rw [ladderIds_cons] at h
          rcases List.mem_append.mp h with h' | h'
          · exact List.mem_append_left _ ((matchLevel_bids_ids _ _ _).subset h')
          · exact List.mem_append_right _ h'
      · refine hid (List.mem_append.mpr (Or.inr ?_))
        unfold asks' at h
        split at h
        · exact List.mem_append_right _ h
        · rw [ladderIds_cons] at h
          rcases List.mem_append.mp h with h' | h'
          · exact List.mem_append_left _ ((matchLevel_asks_ids _ _ _).subset h')
          · exact List.mem_append_right _ h'
    have hstep := matchLevel_outside_ids bidOrders askOrders ords id hfront
    have hih := ih id hrec
    exact ⟨hih.1.trans hstep.1, hih.2.trans hstep.2⟩

/-- The matching loop leaves the index entry of every order that is still
resting when it finishes untouched. -/
theorem matchLoop_keeps_survivors (bids asks : Ladder) (ords : OrderIndex)
    (hnd : (ladderIds bids ++ ladderIds asks).Nodup) :
    ∀ id, (id ∈ ladderIds (matchLoop bids asks ords).bids
        ∨ id ∈ ladderIds (matchLoop bids asks ords).asks) →
      containsId (matchLoop bids asks ords).orders id = containsId ords id
      ∧ lookupId (matchLoop bids asks ords).orders id = lookupId ords id := by
  induction bids, asks, ords using matchLoop.induct with
  | case1 asks ords =>
    intro id _
    simp [matchLoop]
  | case2 b bids ords =>
    intro id _
    simp [matchLoop]
  | case3 bidPrice bidOrders restBids askPrice askOrders restAsks ords hlt =>
    intro id _
    simp [matchLoop, if_pos hlt]
  | case4 bidPrice bidOrders restBids askPrice askOrders restAsks ords hlt r bids' asks' ih =>
    intro id hid
    simp only [matchLoop, if_neg hlt] at hid ⊢
    have hsubB : (ladderIds bids').Sublist (ladderIds ((bidPrice, bidOrders) :: restBids)) := by
      unfold bids'
      split
      · rw [ladderIds_cons]
        exact List.sublist_append_right _ _
      · rw [ladderIds_cons, ladderIds_cons]
        exact List.Sublist.append (matchLevel_bids_ids _ _ _) (List.Sublist.refl _)
    have hsubA : (ladderIds asks').Sublist (ladderIds ((askPrice, askOrders) :: restAsks)) := by
      unfold asks'
      split
      · rw [ladderIds_cons]
        exact List.sublist_append_right _ _
      · rw [ladderIds_cons, ladderIds_cons]
        exact List.Sublist.append (matchLevel_asks_ids _ _ _) (List.Sublist.refl _)
    have hndRec : (ladderIds bids' ++ ladderIds asks').Nodup :=
      hnd.sublist (List.Sublist.append hsubB hsubA)
    have hih := ih hndRec id hid
    -- id is resting after the recursion, hence after this iteration's matchLevel
    have hidRec : id ∈ ladderIds bids' ++ ladderIds asks' := by
      rcases hid with h | h
      · exact List.mem_append_left _ ((matchLoop_ladderIds bids' asks' r.orders).1.subset h)
      · exact List.mem_append_right _ ((matchLoop_ladderIds bids' asks' r.orders).2.subset h)
    have hstep : containsId r.orders id = containsId ords id
        ∧ lookupId r.orders id = lookupId ords id := by
      by_cases hfront : id ∈ queueIds bidOrders ++ queueIds askOrders
      · -- id was in a front queue; since it is still resting it survived matchLevel
        have hndFront : (queueIds bidOrders ++ queueIds askOrders).Nodup := by
          refine hnd.sublist ?_
          rw [ladderIds_cons, ladderIds_cons]
          exact List.Sublist.append (List.sublist_append_left _ _)
            (List.sublist_append_left _ _)
        have hsurvFront : id ∈ queueIds (matchLevel bidOrders askOrders ords).bids
            ∨ id ∈ queueIds (matchLevel bidOrders askOrders ords).asks := by
          have hdisj := List.nodup_append.mp hnd
          rcases List.mem_append.mp hidRec with h | h
          · unfold bids' at h
            split at h
            · exfalso
              rcases List.mem_append.mp hfront with hf | hf
              · have : id ∈ ladderIds ((bidPrice, bidOrders) :: restBids) := by
                  rw [ladderIds_cons]
                  exact List.mem_append_left _ hf
                have hndB := hdisj.1
                rw [ladderIds_cons] at hndB
                exact (List.nodup_append.mp hndB).2.2 hf h
              · have : id ∈ ladderIds ((askPrice, askOrders) :: restAsks) := by
                  rw [ladderIds_cons]
                  exact List.mem_append_left _ hf
                exact hdisj.2.2 (by rw [ladderIds_cons]; exact List.mem_append_right _ h) this
            · rw [ladderIds_cons] at h
              rcases List.mem_append.mp h with h' | h'
              · exact Or.inl h'
              · exfalso
                rcases List.mem_append.mp hfront with hf | hf
                · have hndB := hdisj.1
                  rw [ladderIds_cons] at hndB
                  exact (List.nodup_append.mp hndB).2.2 hf h'
                · exact hdisj.2.2 (by rw [ladderIds_cons]; exact List.mem_append_right _ h')
                    (by rw [ladderIds_cons]; exact List.mem_append_left _ hf)
          · unfold asks' at h
            split at h
            · exfalso
              rcases List.mem_append.mp hfront with hf | hf
              · exact hdisj.2.2 (by rw [ladderIds_cons]; exact List.mem_append_left _ hf)
                  (by rw [ladderIds_cons]; exact List.mem_append_right _ h)
              · have hndA := hdisj.2.1
                rw [ladderIds_cons] at hndA
                exact (List.nodup_append.mp hndA).2.2 hf h
            · rw [ladderIds_cons] at h
              rcases List.mem_append.mp h with h' | h'
              · exact Or.inr h'
              · exfalso
                rcases List.mem_append.mp hfront with hf | hf
                · exact hdisj.2.2 (by rw [ladderIds_cons]; exact List.mem_append_left _ hf)
                    (by rw [ladderIds_cons]; exact List.mem_append_right _ h')
                · have hndA := hdisj.2.1
                  rw [ladderIds_cons] at hndA
                  exact (List.nodup_append.mp hndA).2.2 hf h'
        exact matchLevel_keeps_survivors bidOrders askOrders ords hndFront id hsurvFront
      · exact matchLevel_outside_ids bidOrders askOrders ords id hfront
    exact ⟨hih.1.trans hstep.1, hih.2.trans hstep.2⟩

/-- Ids that rested before the matching loop but rest on neither side
afterwards have been erased from the index. -/
theorem matchLoop_erases_dropped (bids asks : Ladder) (ords : OrderIndex)
    (hnd : (ladderIds bids ++ ladderIds asks).Nodup)
    (hknd : (ords.map (fun e => e.1)).Nodup) :
    ∀ id, id ∈ ladderIds bids ++ ladderIds asks →
      id ∉ ladderIds (matchLoop bids asks ords).bids →
      id ∉ ladderIds (matchLoop bids asks ords).asks →
      containsId (matchLoop bids asks ords).orders id = false := by
  induction bids, asks, ords using matchLoop.induct with
  | case1 asks ords =>
    intro id hin hb ha
    simp only [matchLoop] at hb ha ⊢
    rcases List.mem_append.mp hin with h | h
    · simp [ladderIds, ladderOrders] at h
    · exact absurd h ha
  | case2 b bids ords =>
    intro id hin hb ha
    simp only [matchLoop] at hb ha ⊢
    rcases List.mem_append.mp hin with h | h
    · exact absurd h hb
    · simp [ladderIds, ladderOrders] at h
  | case3 bidPrice bidOrders restBids askPrice askOrders restAsks ords hlt =>
    intro id hin hb ha
    simp only [matchLoop, if_pos hlt] at hb ha ⊢
    rcases List.mem_append.mp hin with h | h
    · exact absurd h hb
    · exact absurd h ha
  | case4 bidPrice bidOrders restBids askPrice askOrders restAsks ords hlt r bids' asks' ih =>
    intro id hin hb ha
    simp only [matchLoop, if_neg hlt] at hb ha ⊢
    have hsubB : (ladderIds bids').Sublist (ladderIds ((bidPrice, bidOrders) :: restBids)) := by
      unfold bids'
      split
      · rw [ladderIds_cons]
        exact List.sublist_append_right _ _
      · rw [ladderIds_cons, ladderIds_cons]
        exact List.Sublist.append (matchLevel_bids_ids _ _ _) (List.Sublist.refl _)
    have hsubA : (ladderIds asks').Sublist (ladderIds ((askPrice, askOrders) :: restAsks)) := by
      unfold asks'
      split
      · rw [ladderIds_cons]
        exact List.sublist_append_right _ _
      · rw [ladderIds_cons, ladderIds_cons]
        exact List.Sublist.append (matchLevel_asks_ids _ _ _) (List.Sublist.refl _)
    have hndRec : (ladderIds bids' ++ ladderIds asks').Nodup :=
      hnd.sublist (List.Sublist.append hsubB hsubA)
    have hkndRec : (r.orders.map (fun e => e.1)).Nodup :=
      hknd.sublist ((matchLevel_orders_sublist _ _ _).map _)
    by_cases hinRec : id ∈ ladderIds bids' ++ ladderIds asks'
    · exact ih hndRec hkndRec id hinRec hb ha
    · -- id vanished in this iteration's matchLevel: it was in a front queue
      -- and survived in neither output queue, so its entry was erased.
      have hinFront : id ∈ queueIds bidOrders ++ queueIds askOrders := by
        rcases List.mem_append.mp hin with h | h
        · rw [ladderIds_cons] at h
          rcases List.mem_append.mp h with h' | h'
          · exact List.mem_append_left _ h'
          · exfalso
            refine hinRec (List.mem_append.mpr (Or.inl ?_))
            unfold bids'
            split
            · exact h'
            · rw [ladderIds_cons]
              exact List.mem_append_right _ h'
        · rw [ladderIds_cons] at h
          rcases List.mem_append.mp h with h' | h'
          · exact List.mem_append_right _ h'
          · exfalso
            refine hinRec (List.mem_append.mpr (Or.inr ?_))
            unfold asks'
            split
            · exact h'
            · rw [ladderIds_cons]
              exact List.mem_append_right _ h'
      have hndFront : (queueIds bidOrders ++ queueIds askOrders).Nodup := by
        refine hnd.sublist ?_
        rw [ladderIds_cons, ladderIds_cons]
        exact List.Sublist.append (List.sublist_append_left _ _) (List.sublist_append_left _ _)
      have hnotB : id ∉ queueIds (matchLevel bidOrders askOrders ords).bids := by
        intro h
        refine hinRec (List.mem_append.mpr (Or.inl ?_))
        unfold bids'
        split
        · rename_i hemp
          rw [List.isEmpty_iff] at hemp
          rw [hemp] at h
          cases h
        · rw [ladderIds_cons]
          exact List.mem_append_left _ h
      have hnotA : id ∉ queueIds (matchLevel bidOrders askOrders ords).asks := by
        intro h
        refine hinRec (List.mem_append.mpr (Or.inr ?_))
        unfold asks'
        split
        · rename_i hemp
          rw [List.isEmpty_iff] at hemp
          rw [hemp] at h
          cases h
        · rw [ladderIds_cons]
          exact List.mem_append_left _ h
      have hlevel := matchLevel_erases_dropped bidOrders askOrders ords hndFront hknd
        id hinFront hnotB hnotA
      exact containsId_false_of_sublist _ _ _ (matchLoop_orders_sublist bids' asks' r.orders) hlevel

/-- Consuming from the front twice is consuming from the front once:
composition of the level shapes produced by successive match rounds. -/
theorem headFilled_comp (l : OrderQueue) (k q k' q' : Nat) :
    ∃ km qm, headFilled q' ((headFilled q (l.drop k)).drop k') = headFilled qm (l.drop km) := by
  cases k' with
  | zero =>
    cases hm : l.drop k with
    | nil =>
      refine ⟨k, 0, ?_⟩
      rw [hm]
      rfl
    | cons x xs =>
      refine ⟨k, q + q', ?_⟩
      rw [hm]
      show headFilled q' (x.fillTotal q :: xs) = headFilled (q + q') (x :: xs)
      rw [headFilled, headFilled, fillTotal_fillTotal]
  | succ j =>
    cases hm : l.drop k with
    | nil =>
      refine ⟨k, 0, ?_⟩
      rw [hm]
      rfl
    | cons x xs =>
      refine ⟨k + (j + 1), q', ?_⟩
      have h1 : (l.drop k).drop (j + 1) = l.drop (k + (j + 1)) := List.drop_drop (j + 1) k l
      rw [hm] at h1
      show headFilled q' (xs.drop j) = headFilled q' (l.drop (k + (j + 1)))
      rw [← h1]
      rfl

/-- Per-level effect of the matching loop: every price level queue is left
as a front-consumed version of what it was (a fully filled prefix dropped
and the new front order possibly part-filled); levels never gain orders
and are never reordered. -/
theorem matchLoop_getLevel (bids asks : Ladder) (ords : OrderIndex)
    (hsb : bids.Pairwise (fun x y => y.1 < x.1))
    (hsa : asks.Pairwise (fun x y => x.1 < y.1)) :
    ∀ p, (∃ k q, getLevel (matchLoop bids asks ords).bids p
            = headFilled q ((getLevel bids p).drop k))
      ∧ (∃ k q, getLevel (matchLoop bids asks ords).asks p
            = headFilled q ((getLevel asks p).drop k)) := by
  induction bids, asks, ords using matchLoop.induct with
  | case1 asks ords =>
    intro p
    simp only [matchLoop]
    exact ⟨⟨0, 0, (headFilled_zero _).symm⟩, ⟨0, 0, (headFilled_zero _).symm⟩⟩
  | case2 b bids ords =>
    intro p
    simp only [matchLoop]
    exact ⟨⟨0, 0, (headFilled_zero _).symm⟩, ⟨0, 0, (headFilled_zero _).symm⟩⟩
  | case3 bidPrice bidOrders restBids askPrice askOrders restAsks ords hlt =>
    intro p
    simp only [matchLoop, if_pos hlt]
    exact ⟨⟨0, 0, (headFilled_zero _).symm⟩, ⟨0, 0, (headFilled_zero _).symm⟩⟩
  | case4 bidPrice bidOrders restBids askPrice askOrders restAsks ords hlt r bids' asks' ih =>
    intro p
    simp only [matchLoop, if_neg hlt]
    have hsb' : bids'.Pairwise (fun x y => y.1 < x.1) := by
      unfold bids'
      rw [List.pairwise_cons] at hsb
      split
      · exact hsb.2
      · exact List.pairwise_cons.mpr ⟨fun e he => hsb.1 e he, hsb.2⟩
    have hsa' : asks'.Pairwise (fun x y => x.1 < y.1) := by
      unfold asks'
      rw [List.pairwise_cons] at hsa
      split
      · exact hsa.2
      · exact List.pairwise_cons.mpr ⟨fun e he => hsa.1 e he, hsa.2⟩
    have hih := ih hsb' hsa' p
    constructor
    · rcases hih.1 with ⟨k, q, hk⟩
      set OUT := getLevel (matchLoop bids' asks' r.orders).bids p with hOUT
      by_cases hp : p = bidPrice
      · subst hp
        rcases (matchLevel_consumed bidOrders askOrders ords).1 with ⟨kl, ql, hkl⟩
        rw [getLevel_cons_self]
        have hrest : getLevel restBids p = [] := by
          apply getLevel_not_mem
          intro hmem
          rcases List.mem_map.mp hmem with ⟨e, he, hke⟩
          have := (List.pairwise_cons.mp hsb).1 e he
          omega
        unfold bids' at hk
        split at hk
        · rw [hrest] at hk
          refine ⟨bidOrders.length, 0, ?_⟩
          have hout : OUT = [] := hk.trans (by rw [List.drop_nil]; rfl)
          exact hout.trans (by rw [List.drop_length]; rfl)
        · rw [getLevel_cons_self, hkl] at hk
          rcases headFilled_comp bidOrders kl ql k q with ⟨km, qm, hcomp⟩
          exact ⟨km, qm, hk.trans hcomp⟩
      · rw [getLevel_cons_ne bidPrice p bidOrders restBids hp]
        unfold bids' at hk
        split at hk
        · exact ⟨k, q, hk⟩
        · rw [getLevel_cons_ne bidPrice p _ restBids hp] at hk
          exact ⟨k, q, hk⟩
    · rcases hih.2 with ⟨k, q, hk⟩
      set OUT := getLevel (matchLoop bids' asks' r.orders).asks p with hOUT
      by_cases hp : p = askPrice
      · subst hp
        rcases (matchLevel_consumed bidOrders askOrders ords).2 with ⟨kl, ql, hkl⟩
        rw [getLevel_cons_self]
        have hrest : getLevel restAsks p = [] := by
          apply getLevel_not_mem
          intro hmem
          rcases List.mem_map.mp hmem with ⟨e, he, hke⟩
          have := (List.pairwise_cons.mp hsa).1 e he
          omega
        unfold asks' at hk
        split at hk
        · rw [hrest] at hk
          refine ⟨askOrders.length, 0, ?_⟩
          have hout : OUT = [] := hk.trans (by rw [List.drop_nil]; rfl)
          exact hout.trans (by rw [List.drop_length]; rfl)
        · rw [getLevel_cons_self, hkl] at hk
          rcases headFilled_comp askOrders kl ql k q with ⟨km, qm, hcomp⟩
          exact ⟨km, qm, hk.trans hcomp⟩
      · rw [getLevel_cons_ne askPrice p askOrders restAsks hp]
        unfold asks' at hk
        split at hk
        · exact ⟨k, q, hk⟩
        · rw [getLevel_cons_ne askPrice p _ restAsks hp] at hk
          exact ⟨k, q, hk⟩


/-- Tracking the front bid level through the matching loop when it holds a
single order whose id rests nowhere else on the bid side: when the loop
finishes, either that order (same id and type, possibly partially filled)
is still alone at the front of the bid ladder, or its id no longer rests
on the bid side. -/
theorem matchLoop_front_bid (bids asks : Ladder) (ords : OrderIndex) :
    ∀ p o restB, bids = (p, [o]) :: restB → o.orderId ∉ ladderIds restB →
      (∃ o' rest', (matchLoop bids asks ords).bids = (p, [o']) :: rest'
          ∧ o'.orderId = o.orderId ∧ o'.orderType = o.orderType
          ∧ (ladderIds rest').Sublist (ladderIds restB))
      ∨ o.orderId ∉ ladderIds (matchLoop bids asks ords).bids := by
  induction bids, asks, ords using matchLoop.induct with
  | case1 asks ords =>
    intro p o restB heq _
    cases heq
  | case2 b bids ords =>
    intro p o restB heq _
    exact Or.inl ⟨o, restB, by simp only [matchLoop]; exact heq, rfl, rfl,
      List.Sublist.refl _⟩
  | case3 bidPrice bidOrders restBids askPrice askOrders restAsks ords hlt =>
    intro p o restB heq _
    exact Or.inl ⟨o, restB, by simp only [matchLoop, if_pos hlt]; exact heq, rfl, rfl,
      List.Sublist.refl _⟩
  | case4 bidPrice bidOrders restBids askPrice askOrders restAsks ords hlt r bids' asks' ih =>
    intro p o restB heq hfresh
    injection heq with hhead htail
    injection hhead with hp hq
    rw [← htail] at hfresh
    rw [← hp, ← htail]
    simp only [matchLoop, if_neg hlt]
    have hrb : r.bids = (matchLevel [o] askOrders ords).bids := by
      unfold r
      rw [hq]
    by_cases hemp : r.bids.isEmpty = true
    · -- the front order was fully filled: its id is gone from the bid side
      right
      intro hmem
      have hb' : bids' = restBids := by
        unfold bids'
        split
        · rfl
        · exact absurd hemp (by assumption)
      have hle : (ladderIds bids').Sublist (ladderIds restBids) := by
        rw [hb']
      have hsub := ((matchLoop_ladderIds bids' asks' r.orders).1).trans hle
      exact hfresh (hsub.subset hmem)
    · -- the front order survived, partially filled, still alone at the front
      have hsingleton : ∃ qf, r.bids = [o.fillTotal qf] := by
        rcases (matchLevel_consumed [o] askOrders ords).1 with ⟨k, q, hk⟩
        cases k with
        | zero =>
          exact ⟨q, by rw [hrb, hk]; rfl⟩
        | succ k' =>
          exfalso
          apply hemp
          rw [hrb, hk]
          cases k' <;> rfl
      rcases hsingleton with ⟨qf, hqf⟩
      have hb' : bids' = (bidPrice, [o.fillTotal qf]) :: restBids := by
        unfold bids'
        split
        · exact absurd (by assumption) hemp
        · rw [hqf]
      rcases ih bidPrice (o.fillTotal qf) restBids hb' hfresh with
        ⟨o'', rest'', hout, hid, htype, hsub⟩ | hnot
      · exact Or.inl ⟨o'', rest'', hout, hid, htype, hsub⟩
      · exact Or.inr hnot

/-- Symmetric tracking of the front ask level through the matching loop. -/
theorem matchLoop_front_ask (bids asks : Ladder) (ords : OrderIndex) :
    ∀ p o restA, asks = (p, [o]) :: restA → o.orderId ∉ ladderIds restA →
      (∃ o' rest', (matchLoop bids asks ords).asks = (p, [o']) :: rest'
          ∧ o'.orderId = o.orderId ∧ o'.orderType = o.orderType
          ∧ (ladderIds rest').Sublist (ladderIds restA))
      ∨ o.orderId ∉ ladderIds (matchLoop bids asks ords).asks := by
  induction bids, asks, ords using matchLoop.induct with
  | case1 asks ords =>
    intro p o restA heq _
    exact Or.inl ⟨o, restA, by simp only [matchLoop]; exact heq, rfl, rfl,
      List.Sublist.refl _⟩
  | case2 b bids ords =>
    intro p o restA heq _
    cases heq
  | case3 bidPrice bidOrders restBids askPrice askOrders restAsks ords hlt =>
    intro p o restA heq _
    exact Or.inl ⟨o, restA, by simp only [matchLoop, if_pos hlt]; exact heq, rfl, rfl,
      List.Sublist.refl _⟩
  | case4 bidPrice bidOrders restBids askPrice askOrders restAsks ords hlt r bids' asks' ih =>
    intro p o restA heq hfresh
    injection heq with hhead htail
    injection hhead with hp hq
    rw [← htail] at hfresh
    rw [← hp, ← htail]
    simp only [matchLoop, if_neg hlt]
    have hra : r.asks = (matchLevel bidOrders [o] ords).asks := by
      unfold r
      rw [hq]
    by_cases hemp : r.asks.isEmpty = true
    · right
      intro hmem
      have ha' : asks' = restAsks := by
        unfold asks'
        split
        · rfl
        · exact absurd hemp (by assumption)
      have hle : (ladderIds asks').Sublist (ladderIds restAsks) := by
        rw [ha']
      have hsub := ((matchLoop_ladderIds bids' asks' r.orders).2).trans hle
      exact hfresh (hsub.subset hmem)
    · have hsingleton : ∃ qf, r.asks = [o.fillTotal qf] := by
        rcases (matchLevel_consumed bidOrders [o] ords).2 with ⟨k, q, hk⟩
        cases k with
        | zero =>
          exact ⟨q, by rw [hra, hk]; rfl⟩
        | succ k' =>
          exfalso
          apply hemp
          rw [hra, hk]
          cases k' <;> rfl
      rcases hsingleton with ⟨qf, hqf⟩
      have ha' : asks' = (askPrice, [o.fillTotal qf]) :: restAsks := by
        unfold asks'
        split
        · exact absurd (by assumption) hemp
        · rw [hqf]
      rcases ih askPrice (o.fillTotal qf) restAsks ha' hfresh with
        ⟨o'', rest'', hout, hid, htype, hsub⟩ | hnot
      · exact Or.inl ⟨o'', rest'', hout, hid, htype, hsub⟩
      · exact Or.inr hnot

theorem cancelLadder_absent (lad : Ladder) (p : Int) (id : Nat)
    (hp : p ∉ lad.map (fun e => e.1)) : cancelLadder lad p id = lad := by
  rw [cancelLadder]
  rw [getLevel_not_mem lad p hp]
  simp only [List.eraseP_nil, List.isEmpty_nil, if_true]
  rw [eraseLevel, List.filter_eq_self]
  intro e he
  simp only [bne_iff_ne, ne_eq]
  intro h
  exact hp (by rw [← h]; exact List.mem_map_of_mem _ he)

theorem mem_keys_split (lad : Ladder) (p : Int) (hp : p ∈ lad.map (fun e => e.1)) :
    ∃ pre q post, lad = pre ++ (p, q) :: post ∧ p ∉ pre.map (fun e => e.1) := by
  induction lad with
  | nil => simp at hp
  | cons e rest ih =>
    by_cases he : e.1 = p
    · exact ⟨[], e.2, rest, by rw [← he]; rfl, by simp⟩
    · have hp' : p ∈ rest.map (fun e => e.1) := by
        rcases List.mem_map.mp hp with ⟨e', he', hee⟩
        rcases List.mem_cons.mp he' with h | h
        · subst h
          exact absurd hee he
        · rw [← hee]
          exact List.mem_map_of_mem _ h
      rcases ih hp' with ⟨pre, q, post, hdec, hpre⟩
      refine ⟨e :: pre, q, post, by rw [List.cons_append, ← hdec], ?_⟩
      intro hmem
      rcases List.mem_map.mp hmem with ⟨e', he', hee⟩
      rcases List.mem_cons.mp he' with h | h
      · subst h
        exact he hee
      · exact hpre (by rw [← hee]; exact List.mem_map_of_mem _ h)

theorem getLevel_append_absent (pre rest : Ladder) (p : Int)
    (hpre : p ∉ pre.map (fun e => e.1)) :
    getLevel (pre ++ rest) p = getLevel rest p := by
  have hnone : pre.find? (fun e => e.1 == p) = none := by
    rw [List.find?_eq_none]
    intro e he
    simp only [Bool.not_eq_true, beq_eq_false_iff_ne, ne_eq]
    intro h
    exact hpre (by rw [← h]; exact List.mem_map_of_mem _ he)
  rw [getLevel, getLevel, List.find?_append, hnone, Option.none_or]

theorem eraseLevel_split (pre post : Ladder) (q : OrderQueue) (p : Int)
    (hpre : p ∉ pre.map (fun e => e.1)) (hpost : p ∉ post.map (fun e => e.1)) :
    eraseLevel (pre ++ (p, q) :: post) p = pre ++ post := by
  have hf : ∀ (l : Ladder), p ∉ l.map (fun e => e.1) →
      l.filter (fun e => e.1 != p) = l := by
    intro l hl
    rw [List.filter_eq_self]
    intro e he
    simp only [bne_iff_ne, ne_eq]
    intro h
    exact hl (by rw [← h]; exact List.mem_map_of_mem _ he)
  rw [eraseLevel, List.filter_append, List.filter_cons]
  simp only [bne_self_eq_false, Bool.false_eq_true, if_false]
  rw [hf pre hpre, hf post hpost]

theorem setLevel_split (pre post : Ladder) (q : OrderQueue) (p : Int) (l : OrderQueue)
    (hpre : p ∉ pre.map (fun e => e.1)) (hpost : p ∉ post.map (fun e => e.1)) :
    setLevel (pre ++ (p, q) :: post) p l = pre ++ (p, l) :: post := by
  have hf : ∀ (lad : Ladder), p ∉ lad.map (fun e => e.1) →
      lad.map (fun e => if e.1 == p then (e.1, l) else e) = lad := by
    intro lad
    induction lad with
    | nil => intro _; rfl
    | cons e rest ih =>
      intro hl
      rw [List.map_cons, ih (fun hx => hl (List.mem_cons_of_mem _ hx))]
      rw [if_neg]
      simp only [beq_iff_eq]
      intro h
      exact hl (by rw [← h]; exact List.mem_map_of_mem _ (List.mem_cons_self _ _))
  rw [setLevel, List.map_append, List.map_cons]
  simp only [beq_self_eq_true, if_true]
  rw [hf pre hpre, hf post hpost]

/-- Structural effect of CancelOrder's ladder update when the price level
is present: the first order with the cancelled id is erased from that
level's queue, and the level itself is dropped when that empties it. -/
theorem cancelLadder_split (pre post : Ladder) (q : OrderQueue) (p : Int) (id : Nat)
    (hpre : p ∉ pre.map (fun e => e.1)) (hpost : p ∉ post.map (fun e => e.1)) :
    cancelLadder (pre ++ (p, q) :: post) p id
      = if (q.eraseP (fun o => o.orderId == id)).isEmpty then pre ++ post
        else pre ++ (p, q.eraseP (fun o => o.orderId == id)) :: post := by
  have hget : getLevel (pre ++ (p, q) :: post) p = q := by
    rw [getLevel_append_absent _ _ _ hpre, getLevel_cons_self]
  rw [cancelLadder]
  simp only [hget]
  split
  · exact eraseLevel_split pre post q p hpre hpost
  · exact setLevel_split pre post q p _ hpre hpost

/-- Either the price is absent from the ladder and the cancel leaves it
unchanged, or the ladder splits around the unique level at that price and
the cancel acts there. -/
theorem cancelLadder_cases (lad : Ladder) (p : Int) (id : Nat)
    (hnd : (lad.map (fun e => e.1)).Nodup) :
    (p ∉ lad.map (fun e => e.1) ∧ cancelLadder lad p id = lad) ∨
    ∃ pre q post,
      lad = pre ++ (p, q) :: post
      ∧ p ∉ pre.map (fun e => e.1) ∧ p ∉ post.map (fun e => e.1)
      ∧ cancelLadder lad p id
          = (if (q.eraseP (fun o => o.orderId == id)).isEmpty then pre ++ post
             else pre ++ (p, q.eraseP (fun o => o.orderId == id)) :: post) := by
  by_cases hp : p ∈ lad.map (fun e => e.1)
  · right
    rcases mem_keys_split lad p hp with ⟨pre, q, post, hdec, hpre⟩
    have hpost : p ∉ post.map (fun e => e.1) := by
      rw [hdec, List.map_append, List.map_cons] at hnd
      have h2 := (List.nodup_append.mp hnd).2.1
      rw [List.nodup_cons] at h2
      exact h2.1
    exact ⟨pre, q, post, hdec, hpre, hpost,
      by rw [hdec]; exact cancelLadder_split pre post q p id hpre hpost⟩
  · exact Or.inl ⟨hp, cancelLadder_absent lad p id hp⟩

theorem ladderOrders_append (l1 l2 : Ladder) :
    ladderOrders (l1 ++ l2) = ladderOrders l1 ++ ladderOrders l2 := by
  simp [ladderOrders]

theorem ladderIds_append (l1 l2 : Ladder) :
    ladderIds (l1 ++ l2) = ladderIds l1 ++ ladderIds l2 := by
  simp [ladderIds, ladderOrders]

theorem queueIds_append (l1 l2 : OrderQueue) :
    queueIds (l1 ++ l2) = queueIds l1 ++ queueIds l2 := by
  simp [queueIds]

theorem queueIds_cons (a : Order) (t : OrderQueue) :
    queueIds (a :: t) = a.orderId :: queueIds t := rfl

theorem eraseP_nil_cases (f : Order → Bool) (q : OrderQueue) (h : q.eraseP f = []) :
    q = [] ∨ ∃ a, q = [a] ∧ f a = true := by
  cases q with
  | nil => exact Or.inl rfl
  | cons a t =>
    rw [List.eraseP_cons] at h
    cases hfa : f a with
    | true =>
      rw [hfa, cond_true] at h
      exact Or.inr ⟨a, by rw [h], hfa⟩
    | false =>
      rw [hfa, cond_false] at h
      exact absurd h (List.cons_ne_nil _ _)

/-- Every entry of the cancelled ladder is an original entry or the level
at the cancelled price with one order erased (and then non-empty). -/
theorem cancelLadder_entry_mem (lad : Ladder) (p : Int) (id : Nat)
    (hnd : (lad.map (fun e => e.1)).Nodup) :
    ∀ e' ∈ cancelLadder lad p id, e' ∈ lad ∨
      ∃ q, (p, q) ∈ lad ∧ e' = (p, q.eraseP (fun o => o.orderId == id))
        ∧ q.eraseP (fun o => o.orderId == id) ≠ [] := by
  intro e' he'
  rcases cancelLadder_cases lad p id hnd with ⟨_, hcl⟩ | ⟨pre, q, post, hdec, _, _, hcl⟩
  · rw [hcl] at he'
    exact Or.inl he'
  · rw [hcl] at he'
    split at he'
    · rcases List.mem_append.mp he' with h | h
      · exact Or.inl (hdec ▸ List.mem_append_left _ h)
      · exact Or.inl (hdec ▸ List.mem_append_right _ (List.mem_cons_of_mem _ h))
    · rename_i hemp
      rcases List.mem_append.mp he' with h | h
      · exact Or.inl (hdec ▸ List.mem_append_left _ h)
      · rcases List.mem_cons.mp h with h2 | h2
        · exact Or.inr ⟨q, hdec ▸ List.mem_append_right _ (List.mem_cons_self _ _), h2,
            fun hx => hemp (by rw [hx]; rfl)⟩
        · exact Or.inl (hdec ▸ List.mem_append_right _ (List.mem_cons_of_mem _ h2))

theorem cancelLadder_ids_sublist (lad : Ladder) (p : Int) (id : Nat)
    (hnd : (lad.map (fun e => e.1)).Nodup) :
    (ladderIds (cancelLadder lad p id)).Sublist (ladderIds lad) := by
  rcases cancelLadder_cases lad p id hnd with ⟨_, hcl⟩ | ⟨pre, q, post, hdec, _, _, hcl⟩
  · rw [hcl]
  · rw [hcl, hdec, ladderIds_append, ladderIds_cons]
    split
    · rw [ladderIds_append]
      exact List.Sublist.append (List.Sublist.refl _) (List.sublist_append_right _ _)
    · rw [ladderIds_append, ladderIds_cons]
      exact List.Sublist.append (List.Sublist.refl _)
        (List.Sublist.append (List.Sublist.map _ (List.eraseP_sublist _)) (List.Sublist.refl _))

/-- An order whose id is not the cancelled one rests in the cancelled
ladder exactly when it rested before. -/
theorem cancelLadder_mem_ne (lad : Ladder) (p : Int) (id : Nat)
    (hnd : (lad.map (fun e => e.1)).Nodup) (o'' : Order) (hne : o''.orderId ≠ id) :
    o'' ∈ ladderOrders (cancelLadder lad p id) ↔ o'' ∈ ladderOrders lad := by
  have hf : ¬((fun o => o.orderId == id) o'' = true) := by simp [hne]
  rcases cancelLadder_cases lad p id hnd with ⟨_, hcl⟩ | ⟨pre, q, post, hdec, _, _, hcl⟩
  · rw [hcl]
  · rw [hcl, hdec, ladderOrders_append, ladderOrders_cons]
    split
    · rename_i hemp
      rw [ladderOrders_append]
      constructor
      · intro hm
        rcases List.mem_append.mp hm with h | h
        · exact List.mem_append_left _ h
        · exact List.mem_append_right _ (List.mem_append_right _ h)
      · intro hm
        rcases List.mem_append.mp hm with h | h
        · exact List.mem_append_left _ h
        · rcases List.mem_append.mp h with h2 | h2
          · exfalso
            rcases eraseP_nil_cases _ q (List.isEmpty_iff.mp hemp) with h3 | ⟨a, h3, hfa⟩
            · rw [h3] at h2
              cases h2
            · rw [h3] at h2
              rw [List.mem_singleton.mp h2] at hne
              simp only [beq_iff_eq] at hfa
              exact hne hfa
          · exact List.mem_append_right _ h2
    · rw [ladderOrders_append, ladderOrders_cons]
      constructor
      · intro hm
        rcases List.mem_append.mp hm with h | h
        · exact List.mem_append_left _ h
        · rcases List.mem_append.mp h with h2 | h2
          · exact List.mem_append_right _
              (List.mem_append_left _
                ((@List.mem_eraseP_of_neg Order (fun o => o.orderId == id) o'' q hf).mp h2))
          · exact List.mem_append_right _ (List.mem_append_right _ h2)
      · intro hm
        rcases List.mem_append.mp hm with h | h
        · exact List.mem_append_left _ h
        · rcases List.mem_append.mp h with h2 | h2
          · exact List.mem_append_right _
              (List.mem_append_left _
                ((@List.mem_eraseP_of_neg Order (fun o => o.orderId == id) o'' q hf).mpr h2))
          · exact List.mem_append_right _ (List.mem_append_right _ h2)

/-- Cancelling an id known to rest at price p on a ladder whose orders sit
at their own price removes that id from the ladder (ids unique). -/
theorem cancelLadder_removes (lad : Ladder) (p : Int) (id : Nat)
    (hnd : (lad.map (fun e => e.1)).Nodup)
    (hqnd : (ladderIds lad).Nodup)
    (hPS : ∀ e ∈ lad, ∀ o ∈ e.2, o.price = e.1)
    (o' : Order) (ho' : o' ∈ ladderOrders lad) (hid : o'.orderId = id) (hp : o'.price = p) :
    id ∉ ladderIds (cancelLadder lad p id) := by
  rcases (ladderOrders_mem lad o').mp ho' with ⟨e, he, hoe⟩
  have hkey : e.1 = p := by rw [← hPS e he o' hoe, hp]
  rcases cancelLadder_cases lad p id hnd with ⟨habs, _⟩ | ⟨pre, q, post, hdec, hpre, hpost, hcl⟩
  · exact absurd (by rw [← hkey]; exact List.mem_map_of_mem _ he) habs
  · have he' : e ∈ pre ++ (p, q) :: post := hdec ▸ he
    have heq : e = (p, q) := by
      rcases List.mem_append.mp he' with h | h
      · exact absurd (hkey ▸ List.mem_map_of_mem (fun e => e.1) h) hpre
      · rcases List.mem_cons.mp h with h2 | h2
        · exact h2
        · exact absurd (hkey ▸ List.mem_map_of_mem (fun e => e.1) h2) hpost
    have hoq : o' ∈ q := by
      rw [heq] at hoe
      exact hoe
    rcases @List.exists_of_eraseP Order (fun o => o.orderId == id) q o' hoq (by simp [hid]) with
      ⟨a, l1, l2, hl1, hfa, hql, hqe⟩
    have haid : a.orderId = id := by
      simpa using hfa
    have hqids : queueIds q = queueIds l1 ++ id :: queueIds l2 := by
      rw [hql, queueIds_append, queueIds_cons, haid]
    rw [hdec, ladderIds_append, ladderIds_cons, hqids] at hqnd
    have hnd2 := List.nodup_append.mp hqnd
    have hdisj := hnd2.2.2
    have hnd3 := List.nodup_append.mp hnd2.2.1
    have hmid := hnd3.1
    have hdisj2 := hnd3.2.2
    have hidmid : id ∈ (queueIds l1 ++ id :: queueIds l2) ++ ladderIds post :=
      List.mem_append_left _ (List.mem_append_right _ (List.mem_cons_self _ _))
    have hnotpre : id ∉ ladderIds pre := fun hx => hdisj hx hidmid
    have hnotpost : id ∉ ladderIds post :=
      hdisj2 (List.mem_append_right _ (List.mem_cons_self _ _))
    have hnotl1 : id ∉ queueIds l1 := by
      intro hx
      rcases List.mem_map.mp hx with ⟨b, hb, hbe⟩
      exact hl1 b hb (by simp [hbe])
    have hnotl2 : id ∉ queueIds l2 := by
      rw [List.nodup_append] at hmid
      have := hmid.2.1
      rw [List.nodup_cons] at this
      exact this.1
    rw [hcl, hqe]
    split
    · rw [ladderIds_append]
      intro hx
      rcases List.mem_append.mp hx with h | h
      · exact hnotpre h
      · exact hnotpost h
    · rw [ladderIds_append, ladderIds_cons, queueIds_append]
      intro hx
      rcases List.mem_append.mp hx with h | h
      · exact hnotpre h
      · rcases List.mem_append.mp h with h2 | h2
        · rcases List.mem_append.mp h2 with h3 | h3
          · exact hnotl1 h3
          · exact hnotl2 h3
        · exact hnotpost h2

theorem restingIds_eq (book : Orderbook) :
    book.restingIds = ladderIds book.bids ++ ladderIds book.asks := by
  rw [Orderbook.restingIds, Orderbook.restingOrders, List.map_append]
  rfl

theorem lookupId_mem (ords : OrderIndex) (id : Nat) (order : Order)
    (h : lookupId ords id = some order) : (id, order) ∈ ords := by
  rw [lookupId] at h
  cases hf : ords.find? (fun e => e.1 == id) with
  | none =>
    rw [hf] at h
    cases h
  | some e =>
    rw [hf] at h
    have hmem := List.mem_of_find?_eq_some hf
    have hpred := List.find?_some hf
    simp only [Option.map_some'] at h
    have he2 : e.2 = order := Option.some.inj h
    have he1 : e.1 = id := by simpa using hpred
    have heq : e = (id, order) := by
      rw [← he1, ← he2]
    rw [← heq]
    exact hmem

theorem cancelLadder_ids_ne (lad : Ladder) (p : Int) (id : Nat)
    (hnd : (lad.map (fun e => e.1)).Nodup) (x : Nat) (hx : x ≠ id) :
    x ∈ ladderIds (cancelLadder lad p id) ↔ x ∈ ladderIds lad := by
  constructor
  · intro hm
    rcases List.mem_map.mp hm with ⟨o'', ho'', hox⟩
    exact List.mem_map.mpr
      ⟨o'', (cancelLadder_mem_ne lad p id hnd o'' (by rw [hox]; exact hx)).mp ho'', hox⟩
  · intro hm
    rcases List.mem_map.mp hm with ⟨o'', ho'', hox⟩
    exact List.mem_map.mpr
      ⟨o'', (cancelLadder_mem_ne lad p id hnd o'' (by rw [hox]; exact hx)).mpr ho'', hox⟩

/-- CancelOrder preserves every component of the book invariant other than
the fill-and-kill postcondition (which it also preserves, shown
separately via the resting-order subset property). -/
theorem CancelOrder_wf0 (book : Orderbook) (id : Nat) (h : BookWF0 book) :
    BookWF0 (book.CancelOrder id) := by
  have hbnd : (book.bids.map (fun e => e.1)).Nodup := ladder_keys_nodup_desc _ h.bidsSorted
  have hand : (book.asks.map (fun e => e.1)).Nodup := ladder_keys_nodup_asc _ h.asksSorted
  have hr : (ladderIds book.bids ++ ladderIds book.asks).Nodup := by
    have := h.idsNodup
    rwa [restingIds_eq] at this
  have hrb := (List.nodup_append.mp hr).1
  have hra := (List.nodup_append.mp hr).2.1
  have hdisjBA := (List.nodup_append.mp hr).2.2
  cases hlook : lookupId book.orders id with
  | none =>
    simp only [Orderbook.CancelOrder, hlook]
    exact h
  | some order =>
    have hent : (id, order) ∈ book.orders := lookupId_mem _ _ _ hlook
    have hsnap := h.snapshots (id, order) hent
    cases hside : order.side with
    | Buy =>
      rw [hside] at hsnap
      simp only [Orderbook.sideLadder] at hsnap
      rcases hsnap with ⟨o', ho', hoid, hop⟩
      simp only [Orderbook.CancelOrder, hlook, hside]
      have hgone : id ∉ ladderIds (cancelLadder book.bids order.price id) :=
        cancelLadder_removes book.bids order.price id hbnd hrb
          (fun e he o ho => (h.bidsPS e he o ho).1) o' ho' hoid hop
      have hbidmem : id ∈ ladderIds book.bids := List.mem_map.mpr ⟨o', ho', hoid⟩
      refine ⟨?_, ?_, ?_, ?_, ?_, ?_, ?_, ?_, ?_, ?_, ?_⟩
      · exact cancelLadder_sorted (fun a b => b < a) book.bids order.price id h.bidsSorted
      · exact h.asksSorted
      · intro e he
        rcases cancelLadder_entry_mem book.bids order.price id hbnd e he with
          h1 | ⟨q, _, heq, hne⟩
        · exact h.bidsNE e h1
        · rw [heq]
          exact hne
      · exact h.asksNE
      · intro e he o ho
        rcases cancelLadder_entry_mem book.bids order.price id hbnd e he with
          h1 | ⟨q, hq, heq, _⟩
        · exact h.bidsPS e h1 o ho
        · rw [heq] at ho ⊢
          exact h.bidsPS (order.price, q) hq o ((List.eraseP_sublist _).subset ho)
      · intro e he o ho
        exact h.asksPS e he o ho
      · rw [restingIds_eq]
        exact List.Nodup.sublist
          (List.Sublist.append (cancelLadder_ids_sublist _ _ _ hbnd) (List.Sublist.refl _)) hr
      · exact List.Nodup.sublist (List.Sublist.map _ (eraseId_sublist _ _)) h.keysNodup
      · intro x
        by_cases hx : x = id
        · subst hx
          rw [containsId_eraseId_self book.orders x h.keysNodup]
          constructor
          · intro habs
            cases habs
          · intro hmem
            rw [restingIds_eq] at hmem
            rcases List.mem_append.mp hmem with hm | hm
            · exact absurd hm hgone
            · exact absurd hm (hdisjBA hbidmem)
        · rw [containsId_eraseId_ne book.orders id x hx]
          refine (h.sync x).trans ?_
          rw [restingIds_eq, restingIds_eq]
          simp only [List.mem_append]
          exact or_congr (cancelLadder_ids_ne book.bids order.price id hbnd x hx).symm Iff.rfl
      · intro e he
        have hein : e ∈ book.orders := (eraseId_sublist _ _).subset he
        have hne : e.1 ≠ id := by
          intro hx
          have : containsId (eraseId book.orders id) id = true :=
            List.any_eq_true.mpr ⟨e, he, by simp [hx]⟩
          rw [containsId_eraseId_self book.orders id h.keysNodup] at this
          cases this
        rcases h.snapshots e hein with ⟨o'', ho'', ho''id, ho''p⟩
        cases hs : e.2.side with
        | Buy =>
          rw [hs] at ho''
          simp only [Orderbook.sideLadder] at ho'' ⊢
          refine ⟨o'', ?_, ho''id, ho''p⟩
          exact (cancelLadder_mem_ne book.bids order.price id hbnd o''
            (by rw [ho''id]; exact hne)).mpr ho''
        | Sell =>
          rw [hs] at ho''
          simp only [Orderbook.sideLadder] at ho'' ⊢
          exact ⟨o'', ho'', ho''id, ho''p⟩
      · have := CancelOrder_notCrossed book id h.bidsSorted h.asksSorted h.notCrossedWF
        simpa only [Orderbook.CancelOrder, hlook, hside] using this
    | Sell =>
      rw [hside] at hsnap
      simp only [Orderbook.sideLadder] at hsnap
      rcases hsnap with ⟨o', ho', hoid, hop⟩
      simp only [Orderbook.CancelOrder, hlook, hside]
      have hgone : id ∉ ladderIds (cancelLadder book.asks order.price id) :=
        cancelLadder_removes book.asks order.price id hand hra
          (fun e he o ho => (h.asksPS e he o ho).1) o' ho' hoid hop
      have haskmem : id ∈ ladderIds book.asks := List.mem_map.mpr ⟨o', ho', hoid⟩
      refine ⟨?_, ?_, ?_, ?_, ?_, ?_, ?_, ?_, ?_, ?_, ?_⟩
      · exact h.bidsSorted
      · exact cancelLadder_sorted (fun a b => a < b) book.asks order.price id h.asksSorted
      · exact h.bidsNE
      · intro e he
        rcases cancelLadder_entry_mem book.asks order.price id hand e he with
          h1 | ⟨q, _, heq, hne⟩
        · exact h.asksNE e h1
        · rw [heq]
          exact hne
      · intro e he o ho
        exact h.bidsPS e he o ho
      · intro e he o ho
        rcases cancelLadder_entry_mem book.asks order.price id hand e he with
          h1 | ⟨q, hq, heq, _⟩
        · exact h.asksPS e h1 o ho
        · rw [heq] at ho ⊢
          exact h.asksPS (order.price, q) hq o ((List.eraseP_sublist _).subset ho)
      · rw [restingIds_eq]
        exact List.Nodup.sublist
          (List.Sublist.append (List.Sublist.refl _) (cancelLadder_ids_sublist _ _ _ hand)) hr
      · exact List.Nodup.sublist (List.Sublist.map _ (eraseId_sublist _ _)) h.keysNodup
      · intro x
        by_cases hx : x = id
        · subst hx
          rw [containsId_eraseId_self book.orders x h.keysNodup]
          constructor
          · intro habs
            cases habs
          · intro hmem
            rw [restingIds_eq] at hmem
            rcases List.mem_append.mp hmem with hm | hm
            · exact absurd haskmem (hdisjBA hm)
            · exact absurd hm hgone
        · rw [containsId_eraseId_ne book.orders id x hx]
          refine (h.sync x).trans ?_
          rw [restingIds_eq, restingIds_eq]
          simp only [List.mem_append]
          exact or_congr Iff.rfl (cancelLadder_ids_ne book.asks order.price id hand x hx).symm
      · intro e he
        have hein : e ∈ book.orders := (eraseId_sublist _ _).subset he
        have hne : e.1 ≠ id := by
          intro hx
          have : containsId (eraseId book.orders id) id = true :=
            List.any_eq_true.mpr ⟨e, he, by simp [hx]⟩
          rw [containsId_eraseId_self book.orders id h.keysNodup] at this
          cases this
        rcases h.snapshots e hein with ⟨o'', ho'', ho''id, ho''p⟩
        cases hs : e.2.side with
        | Buy =>
          rw [hs] at ho''
          simp only [Orderbook.sideLadder] at ho'' ⊢
          exact ⟨o'', ho'', ho''id, ho''p⟩
        | Sell =>
          rw [hs] at ho''
          simp only [Orderbook.sideLadder] at ho'' ⊢
          refine ⟨o'', ?_, ho''id, ho''p⟩
          exact (cancelLadder_mem_ne book.asks order.price id hand o''
            (by rw [ho''id]; exact hne)).mpr ho''
      · have := CancelOrder_notCrossed book id h.bidsSorted h.asksSorted h.notCrossedWF
        simpa only [Orderbook.CancelOrder, hlook, hside] using this

/-- Every order resting after a CancelOrder was resting before it. -/
theorem CancelOrder_orders_subset (book : Orderbook) (id : Nat) (h : BookWF0 book) :
    ∀ o ∈ (book.CancelOrder id).restingOrders, o ∈ book.restingOrders := by
  have hbnd : (book.bids.map (fun e => e.1)).Nodup := ladder_keys_nodup_desc _ h.bidsSorted
  have hand : (book.asks.map (fun e => e.1)).Nodup := ladder_keys_nodup_asc _ h.asksSorted
  cases hlook : lookupId book.orders id with
  | none =>
    simp only [Orderbook.CancelOrder, hlook]
    exact fun o ho => ho
  | some order =>
    cases hside : order.side with
    | Buy =>
      simp only [Orderbook.CancelOrder, hlook, hside]
      intro o ho
      rw [Orderbook.restingOrders] at ho ⊢
      rcases List.mem_append.mp ho with hm | hm
      · rcases (ladderOrders_mem _ o).mp hm with ⟨e, he, hoe⟩
        rcases cancelLadder_entry_mem book.bids order.price id hbnd e he with
          h1 | ⟨q, hq, heq, _⟩
        · exact List.mem_append_left _ ((ladderOrders_mem _ o).mpr ⟨e, h1, hoe⟩)
        · rw [heq] at hoe
          exact List.mem_append_left _
            ((ladderOrders_mem _ o).mpr ⟨(order.price, q), hq, (List.eraseP_sublist _).subset hoe⟩)
      · exact List.mem_append_right _ hm
    | Sell =>
      simp only [Orderbook.CancelOrder, hlook, hside]
      intro o ho
      rw [Orderbook.restingOrders] at ho ⊢
      rcases List.mem_append.mp ho with hm | hm
      · exact List.mem_append_left _ hm
      · rcases (ladderOrders_mem _ o).mp hm with ⟨e, he, hoe⟩
        rcases cancelLadder_entry_mem book.asks order.price id hand e he with
          h1 | ⟨q, hq, heq, _⟩
        · exact List.mem_append_right _ ((ladderOrders_mem _ o).mpr ⟨e, h1, hoe⟩)
        · rw [heq] at hoe
          exact List.mem_append_right _
            ((ladderOrders_mem _ o).mpr ⟨(order.price, q), hq, (List.eraseP_sublist _).subset hoe⟩)

/-- CancelOrder preserves the full book invariant. -/
theorem CancelOrder_wf (book : Orderbook) (id : Nat) (h : BookWF book) :
    BookWF (book.CancelOrder id) :=
  ⟨CancelOrder_wf0 book id h.toBookWF0,
    fun o ho => h.noFnK o (CancelOrder_orders_subset book id h.toBookWF0 o ho)⟩

/-- Every entry after a bid-side insertion is an original entry, the new
singleton level, or an original level with the new order appended. -/
theorem insertBid_entry_mem (o : Order) (lad : Ladder) :
    ∀ e ∈ insertBid o lad,
      e ∈ lad ∨ e = (o.price, [o]) ∨ ∃ q, (o.price, q) ∈ lad ∧ e = (o.price, q ++ [o]) := by
  induction lad with
  | nil =>
    intro e he
    rw [insertBid] at he
    rcases List.mem_singleton.mp he with h
    exact Or.inr (Or.inl h)
  | cons hd tl ih =>
    obtain ⟨p, l⟩ := hd
    intro e he
    rw [insertBid] at he
    split at he
    · rcases List.mem_cons.mp he with h | h
      · exact Or.inr (Or.inl h)
      · exact Or.inl h
    · split at he
      · rename_i heq
        have hp : o.price = p := by simpa using heq
        rcases List.mem_cons.mp he with h | h
        · exact Or.inr (Or.inr ⟨l, by rw [hp]; exact List.mem_cons_self _ _, by rw [h, hp]⟩)
        · exact Or.inl (List.mem_cons_of_mem _ h)
      · rcases List.mem_cons.mp he with h | h
        · exact Or.inl (h ▸ List.mem_cons_self _ _)
        · rcases ih e h with h2 | h2 | ⟨q, hq, he2⟩
          · exact Or.inl (List.mem_cons_of_mem _ h2)
          · exact Or.inr (Or.inl h2)
          · exact Or.inr (Or.inr ⟨q, List.mem_cons_of_mem _ hq, he2⟩)

theorem insertAsk_entry_mem (o : Order) (lad : Ladder) :
    ∀ e ∈ insertAsk o lad,
      e ∈ lad ∨ e = (o.price, [o]) ∨ ∃ q, (o.price, q) ∈ lad ∧ e = (o.price, q ++ [o]) := by
  induction lad with
  | nil =>
    intro e he
    rw [insertAsk] at he
    rcases List.mem_singleton.mp he with h
    exact Or.inr (Or.inl h)
  | cons hd tl ih =>
    obtain ⟨p, l⟩ := hd
    intro e he
    rw [insertAsk] at he
    split at he
    · rcases List.mem_cons.mp he with h | h
      · exact Or.inr (Or.inl h)
      · exact Or.inl h
    · split at he
      · rename_i heq
        have hp : o.price = p := by simpa using heq
        rcases List.mem_cons.mp he with h | h
        · exact Or.inr (Or.inr ⟨l, by rw [hp]; exact List.mem_cons_self _ _, by rw [h, hp]⟩)
        · exact Or.inl (List.mem_cons_of_mem _ h)
      · rcases List.mem_cons.mp he with h | h
        · exact Or.inl (h ▸ List.mem_cons_self _ _)
        · rcases ih e h with h2 | h2 | ⟨q, hq, he2⟩
          · exact Or.inl (List.mem_cons_of_mem _ h2)
          · exact Or.inr (Or.inl h2)
          · exact Or.inr (Or.inr ⟨q, List.mem_cons_of_mem _ hq, he2⟩)

/-- Insertion adds exactly the new order to the ladder's multiset of
resting orders. -/
theorem insertBid_orders_perm (o : Order) (lad : Ladder) :
    (ladderOrders (insertBid o lad)).Perm (ladderOrders lad ++ [o]) := by
  induction lad with
  | nil =>
    rw [insertBid]
    simp [ladderOrders]
  | cons hd tl ih =>
    obtain ⟨p, l⟩ := hd
    rw [insertBid]
    split
    · rw [ladderOrders_cons, ladderOrders_cons]
      exact List.perm_append_comm
    · split
      · rw [ladderOrders_cons, ladderOrders_cons, List.append_assoc, List.append_assoc]
        exact List.Perm.append_left l (List.perm_append_comm)
      · rw [ladderOrders_cons, ladderOrders_cons, List.append_assoc]
        exact List.Perm.append_left l ih

theorem insertAsk_orders_perm (o : Order) (lad : Ladder) :
    (ladderOrders (insertAsk o lad)).Perm (ladderOrders lad ++ [o]) := by
  induction lad with
  | nil =>
    rw [insertAsk]
    simp [ladderOrders]
  | cons hd tl ih =>
    obtain ⟨p, l⟩ := hd
    rw [insertAsk]
    split
    · rw [ladderOrders_cons, ladderOrders_cons]
      exact List.perm_append_comm
    · split
      · rw [ladderOrders_cons, ladderOrders_cons, List.append_assoc, List.append_assoc]
        exact List.Perm.append_left l (List.perm_append_comm)
      · rw [ladderOrders_cons, ladderOrders_cons, List.append_assoc]
        exact List.Perm.append_left l ih

/-- When the new price beats every bid level, the insertion creates a new
front level holding only the new order. -/
theorem insertBid_front (o : Order) (lad : Ladder)
    (h : ∀ k ∈ lad.map (fun e => e.1), k < o.price) :
    insertBid o lad = (o.price, [o]) :: lad := by
  cases lad with
  | nil => rfl
  | cons e rest =>
    obtain ⟨p, l⟩ := e
    rw [insertBid, if_pos]
    exact h p (List.mem_map_of_mem _ (List.mem_cons_self _ _))

theorem insertAsk_front (o : Order) (lad : Ladder)
    (h : ∀ k ∈ lad.map (fun e => e.1), o.price < k) :
    insertAsk o lad = (o.price, [o]) :: lad := by
  cases lad with
  | nil => rfl
  | cons e rest =>
    obtain ⟨p, l⟩ := e
    rw [insertAsk, if_pos]
    exact h p (List.mem_map_of_mem _ (List.mem_cons_self _ _))

/-- The id index stays in sync with the ladders through the matching
loop. -/
theorem matchLoop_sync (bids asks : Ladder) (ords : OrderIndex)
    (hnd : (ladderIds bids ++ ladderIds asks).Nodup)
    (hknd : (ords.map (fun e => e.1)).Nodup)
    (hsync : ∀ x, containsId ords x = true ↔ x ∈ ladderIds bids ++ ladderIds asks) :
    ∀ x, containsId (matchLoop bids asks ords).orders x = true
      ↔ x ∈ ladderIds (matchLoop bids asks ords).bids
          ++ ladderIds (matchLoop bids asks ords).asks := by
  intro x
  constructor
  · intro hc
    by_contra hmem
    rw [List.mem_append] at hmem
    push_neg at hmem
    by_cases hin : x ∈ ladderIds bids ++ ladderIds asks
    · have := matchLoop_erases_dropped bids asks ords hnd hknd x hin hmem.1 hmem.2
      rw [this] at hc
      cases hc
    · have := (matchLoop_outside_ids bids asks ords x hin).1
      rw [this] at hc
      rw [hsync x] at hc
      exact hin hc
  · intro hmem
    have hsurv := matchLoop_keeps_survivors bids asks ords hnd x (List.mem_append.mp hmem)
    rw [hsurv.1, hsync x]
    rcases List.mem_append.mp hmem with h | h
    · exact List.mem_append_left _ ((matchLoop_ladderIds bids asks ords).1.subset h)
    · exact List.mem_append_right _ ((matchLoop_ladderIds bids asks ords).2.subset h)

/-- A surviving index entry whose recorded side and price located a
resting bid keeps locating one after the loop: the survivor carries the
same id and (being a partial fill of the same order) the same price. -/
theorem matchLoop_snapshots_bid (bids asks : Ladder) (ords : OrderIndex)
    (hnd : (ladderIds bids ++ ladderIds asks).Nodup)
    (hknd : (ords.map (fun e => e.1)).Nodup)
    (hsync : ∀ x, containsId ords x = true ↔ x ∈ ladderIds bids ++ ladderIds asks)
    (e : Nat × Order) (he : e ∈ (matchLoop bids asks ords).orders)
    (o' : Order) (ho' : o' ∈ ladderOrders bids) (hid : o'.orderId = e.1)
    (hp : o'.price = e.2.price) :
    ∃ o'' ∈ ladderOrders (matchLoop bids asks ords).bids,
      o''.orderId = e.1 ∧ o''.price = e.2.price := by
  have hc : containsId (matchLoop bids asks ords).orders e.1 = true :=
    List.any_eq_true.mpr ⟨e, he, by simp⟩
  have hmem := (matchLoop_sync bids asks ords hnd hknd hsync e.1).mp hc
  have hbid : e.1 ∈ ladderIds (matchLoop bids asks ords).bids := by
    rcases List.mem_append.mp hmem with h | h
    · exact h
    · exfalso
      have h2 : e.1 ∈ ladderIds asks := (matchLoop_ladderIds bids asks ords).2.subset h
      have h1 : e.1 ∈ ladderIds bids := List.mem_map.mpr ⟨o', ho', hid⟩
      exact (List.nodup_append.mp hnd).2.2 h1 h2
  rcases List.mem_map.mp hbid with ⟨o'', ho'', ho''id⟩
  rcases (matchLoop_orders_fills bids asks ords).1 o'' ho'' with ⟨o0, ho0, k, hk⟩
  have ho0id : o0.orderId = e.1 := by
    rw [← ho''id, hk, Order.fillTotal]
  have ho0eq : o0 = o' := by
    have hbnodup := (List.nodup_append.mp hnd).1
    exact List.inj_on_of_nodup_map hbnodup ho0 ho' (by rw [ho0id, hid])
  refine ⟨o'', ho'', ho''id, ?_⟩
  rw [hk, ho0eq, ← hp, Order.fillTotal]

theorem matchLoop_snapshots_ask (bids asks : Ladder) (ords : OrderIndex)
    (hnd : (ladderIds bids ++ ladderIds asks).Nodup)
    (hknd : (ords.map (fun e => e.1)).Nodup)
    (hsync : ∀ x, containsId ords x = true ↔ x ∈ ladderIds bids ++ ladderIds asks)
    (e : Nat × Order) (he : e ∈ (matchLoop bids asks ords).orders)
    (o' : Order) (ho' : o' ∈ ladderOrders asks) (hid : o'.orderId = e.1)
    (hp : o'.price = e.2.price) :
    ∃ o'' ∈ ladderOrders (matchLoop bids asks ords).asks,
      o''.orderId = e.1 ∧ o''.price = e.2.price := by
  have hc : containsId (matchLoop bids asks ords).orders e.1 = true :=
    List.any_eq_true.mpr ⟨e, he, by simp⟩
  have hmem := (matchLoop_sync bids asks ords hnd hknd hsync e.1).mp hc
  have hask : e.1 ∈ ladderIds (matchLoop bids asks ords).asks := by
    rcases List.mem_append.mp hmem with h | h
    · exfalso
      have h2 : e.1 ∈ ladderIds bids := (matchLoop_ladderIds bids asks ords).1.subset h
      have h1 : e.1 ∈ ladderIds asks := List.mem_map.mpr ⟨o', ho', hid⟩
      exact (List.nodup_append.mp hnd).2.2 h2 h1
    · exact h
  rcases List.mem_map.mp hask with ⟨o'', ho'', ho''id⟩
  rcases (matchLoop_orders_fills bids asks ords).2 o'' ho'' with ⟨o0, ho0, k, hk⟩
  have ho0id : o0.orderId = e.1 := by
    rw [← ho''id, hk, Order.fillTotal]
  have ho0eq : o0 = o' := by
    have hanodup := (List.nodup_append.mp hnd).2.1
    exact List.inj_on_of_nodup_map hanodup ho0 ho' (by rw [ho0id, hid])
  refine ⟨o'', ho'', ho''id, ?_⟩
  rw [hk, ho0eq, ← hp, Order.fillTotal]

theorem cancelLadder_orders_subset (lad : Ladder) (p : Int) (id : Nat)
    (hnd : (lad.map (fun e => e.1)).Nodup) :
    ∀ o ∈ ladderOrders (cancelLadder lad p id), o ∈ ladderOrders lad := by
  intro o ho
  rcases (ladderOrders_mem _ o).mp ho with ⟨e, he, hoe⟩
  rcases cancelLadder_entry_mem lad p id hnd e he with h1 | ⟨q, hq, heq, _⟩
  · exact (ladderOrders_mem _ o).mpr ⟨e, h1, hoe⟩
  · rw [heq] at hoe
    exact (ladderOrders_mem _ o).mpr ⟨(p, q), hq, (List.eraseP_sublist _).subset hoe⟩

theorem lookupId_some_of_contains (ords : OrderIndex) (id : Nat)
    (h : containsId ords id = true) : ∃ o2, lookupId ords id = some o2 := by
  rw [containsId, List.any_eq_true] at h
  rcases h with ⟨e, he, hbe⟩
  have hs : (ords.find? (fun e => e.1 == id)).isSome = true :=
    List.find?_isSome.mpr ⟨e, he, hbe⟩
  rcases Option.isSome_iff_exists.mp hs with ⟨e2, hf⟩
  exact ⟨e2.2, by rw [lookupId, hf]; rfl⟩

/-- The bid-side fill-and-kill check of MatchOrders preserves BookWF0,
leaves the ask ladder untouched, and leaves the bid side free of resting
fill-and-kill orders provided the only possible one was alone at the
front of the best level. -/
theorem WF_fnkBid_step (b : Orderbook) (h0 : BookWF0 b)
    (hbid : (∀ o ∈ ladderOrders b.bids, o.orderType ≠ OrderType.FillAndKill)
      ∨ (∃ p o' rest, b.bids = (p, [o']) :: rest
          ∧ (∀ o ∈ ladderOrders rest, o.orderType ≠ OrderType.FillAndKill))) :
    BookWF0 (fnkBidStep b)
    ∧ (∀ o ∈ ladderOrders (fnkBidStep b).bids, o.orderType ≠ OrderType.FillAndKill)
    ∧ (fnkBidStep b).asks = b.asks := by
  have hbnd : (b.bids.map (fun e => e.1)).Nodup := ladder_keys_nodup_desc _ h0.bidsSorted
  have hr0 : (ladderIds b.bids ++ ladderIds b.asks).Nodup := by
    have := h0.idsNodup
    rwa [restingIds_eq] at this
  have hr0bids := (List.nodup_append.mp hr0).1
  have hdisjBA := (List.nodup_append.mp hr0).2.2
  rw [fnkBidStep]
  split
  · rename_i p0 order qtail btail heq
    by_cases hfk : (order.orderType == OrderType.FillAndKill) = true
    · rw [if_pos hfk]
      have hfkty : order.orderType = OrderType.FillAndKill := by simpa using hfk
      have hordmem : order ∈ ladderOrders b.bids := by
        rw [heq, ladderOrders_cons]
        exact List.mem_append_left _ (List.mem_cons_self _ _)
      rcases hbid with hnofnk | ⟨p, o', rest, heq2, hrest⟩
      · exact absurd hfkty (hnofnk order hordmem)
      · rw [heq] at heq2
        injection heq2 with hhead htail
        injection hhead with hp hq
        injection hq with ho1 ho2
        subst htail
        subst ho1
        subst ho2
        -- now b.bids = (p0, [order]) :: btail, hrest about btail
        have hidbid : order.orderId ∈ ladderIds b.bids :=
          List.mem_map.mpr ⟨order, hordmem, rfl⟩
        have hr1 : (order.orderId :: (ladderIds btail ++ ladderIds b.asks)).Nodup := by
          rw [heq, ladderIds_cons] at hr0
          simpa [queueIds] using hr0
        have hfr := (List.nodup_cons.mp hr1).1
        have hnotask : order.orderId ∉ ladderIds b.asks :=
          fun hx => hfr (List.mem_append_right _ hx)
        have hcont : containsId b.orders order.orderId = true := by
          rw [h0.sync, restingIds_eq]
          exact List.mem_append_left _ hidbid
        rcases lookupId_some_of_contains b.orders order.orderId hcont with ⟨ordEntry, hlook⟩
        have hent : (order.orderId, ordEntry) ∈ b.orders := lookupId_mem _ _ _ hlook
        have hsnapE := h0.snapshots (order.orderId, ordEntry) hent
        cases hside : ordEntry.side with
        | Sell =>
          exfalso
          rw [hside] at hsnapE
          simp only [Orderbook.sideLadder] at hsnapE
          rcases hsnapE with ⟨o'', ho'', ho''id, _⟩
          exact hnotask (List.mem_map.mpr ⟨o'', ho'', ho''id⟩)
        | Buy =>
          rw [hside] at hsnapE
          simp only [Orderbook.sideLadder] at hsnapE
          rcases hsnapE with ⟨o'', ho'', ho''id, ho''p⟩
          have ho''eq : o'' = order :=
            List.inj_on_of_nodup_map hr0bids ho'' hordmem ho''id
          have hprice : order.price = ordEntry.price := by
            rw [← ho''eq]
            exact ho''p
          have hgone : order.orderId ∉ ladderIds (cancelLadder b.bids ordEntry.price order.orderId) :=
            cancelLadder_removes b.bids ordEntry.price order.orderId hbnd hr0bids
              (fun e he o ho => (h0.bidsPS e he o ho).1) order hordmem rfl hprice
          have hwf := CancelOrder_wf0 b order.orderId h0
          simp only [Orderbook.CancelOrder, hlook, hside] at hwf
          simp only [Orderbook.CancelOrder, hlook, hside]
          refine ⟨hwf, ?_, trivial⟩
          intro o ho
          have hsub := cancelLadder_orders_subset b.bids ordEntry.price order.orderId hbnd o ho
          rw [heq, ladderOrders_cons] at hsub
          rcases List.mem_append.mp hsub with h | h
          · exfalso
            have : o = order := List.mem_singleton.mp h
            subst this
            exact hgone (List.mem_map.mpr ⟨o, ho, rfl⟩)
          · exact hrest o h
    · rw [if_neg hfk]
      refine ⟨h0, ?_, rfl⟩
      rcases hbid with hnofnk | ⟨p, o', rest, heq2, hrest⟩
      · exact hnofnk
      · intro o ho
        rw [heq2, ladderOrders_cons] at ho
        rcases List.mem_append.mp ho with h | h
        · have hoo : o = o' := List.mem_singleton.mp h
          subst hoo
          rw [heq] at heq2
          injection heq2 with hhead _
          injection hhead with _ hq
          injection hq with ho1 _
          rw [← ho1]
          simpa using hfk
        · exact hrest o h
  · rename_i hnomatch
    refine ⟨h0, ?_, rfl⟩
    rcases hbid with hnofnk | ⟨p, o', rest, heq2, hrest⟩
    · exact hnofnk
    · exact absurd heq2 (by intro hx; exact hnomatch p o' [] rest hx)

/-- Symmetric ask-side fill-and-kill check: preserves BookWF0, leaves the
bid ladder untouched, and clears the ask side of resting fill-and-kill
orders provided the only possible one was alone at the front. -/
theorem WF_fnkAsk_step (b : Orderbook) (h0 : BookWF0 b)
    (hask : (∀ o ∈ ladderOrders b.asks, o.orderType ≠ OrderType.FillAndKill)
      ∨ (∃ p o' rest, b.asks = (p, [o']) :: rest
          ∧ (∀ o ∈ ladderOrders rest, o.orderType ≠ OrderType.FillAndKill))) :
    BookWF0 (fnkAskStep b)
    ∧ (∀ o ∈ ladderOrders (fnkAskStep b).asks, o.orderType ≠ OrderType.FillAndKill)
    ∧ (fnkAskStep b).bids = b.bids := by
  have hand : (b.asks.map (fun e => e.1)).Nodup := ladder_keys_nodup_asc _ h0.asksSorted
  have hr0 : (ladderIds b.bids ++ ladderIds b.asks).Nodup := by
    have := h0.idsNodup
    rwa [restingIds_eq] at this
  have hr0asks := (List.nodup_append.mp hr0).2.1
  have hdisjBA := (List.nodup_append.mp hr0).2.2
  rw [fnkAskStep]
  split
  · rename_i p0 order qtail atail heq
    by_cases hfk : (order.orderType == OrderType.FillAndKill) = true
    · rw [if_pos hfk]
      have hfkty : order.orderType = OrderType.FillAndKill := by simpa using hfk
      have hordmem : order ∈ ladderOrders b.asks := by
        rw [heq, ladderOrders_cons]
        exact List.mem_append_left _ (List.mem_cons_self _ _)
      rcases hask with hnofnk | ⟨p, o', rest, heq2, hrest⟩
      · exact absurd hfkty (hnofnk order hordmem)
      · rw [heq] at heq2
        injection heq2 with hhead htail
        injection hhead with hp hq
        injection hq with ho1 ho2
        subst htail
        subst ho1
        subst ho2
        have hidask : order.orderId ∈ ladderIds b.asks :=
          List.mem_map.mpr ⟨order, hordmem, rfl⟩
        have hnotbid : order.orderId ∉ ladderIds b.bids :=
          fun hx => hdisjBA hx hidask
        have hcont : containsId b.orders order.orderId = true := by
          rw [h0.sync, restingIds_eq]
          exact List.mem_append_right _ hidask
        rcases lookupId_some_of_contains b.orders order.orderId hcont with ⟨ordEntry, hlook⟩
        have hent : (order.orderId, ordEntry) ∈ b.orders := lookupId_mem _ _ _ hlook
        have hsnapE := h0.snapshots (order.orderId, ordEntry) hent
        cases hside : ordEntry.side with
        | Buy =>
          exfalso
          rw [hside] at hsnapE
          simp only [Orderbook.sideLadder] at hsnapE
          rcases hsnapE with ⟨o'', ho'', ho''id, _⟩
          exact hnotbid (List.mem_map.mpr ⟨o'', ho'', ho''id⟩)
        | Sell =>
          rw [hside] at hsnapE
          simp only [Orderbook.sideLadder] at hsnapE
          rcases hsnapE with ⟨o'', ho'', ho''id, ho''p⟩
          have ho''eq : o'' = order :=
            List.inj_on_of_nodup_map hr0asks ho'' hordmem ho''id
          have hprice : order.price = ordEntry.price := by
            rw [← ho''eq]
            exact ho''p
          have hgone : order.orderId ∉ ladderIds (cancelLadder b.asks ordEntry.price order.orderId) :=
            cancelLadder_removes b.asks ordEntry.price order.orderId hand hr0asks
              (fun e he o ho => (h0.asksPS e he o ho).1) order hordmem rfl hprice
          have hwf := CancelOrder_wf0 b order.orderId h0
          simp only [Orderbook.CancelOrder, hlook, hside] at hwf
          simp only [Orderbook.CancelOrder, hlook, hside]
          refine ⟨hwf, ?_, trivial⟩
          intro o ho
          have hsub := cancelLadder_orders_subset b.asks ordEntry.price order.orderId hand o ho
          rw [heq, ladderOrders_cons] at hsub
          rcases List.mem_append.mp hsub with h | h
          · exfalso
            have : o = order := List.mem_singleton.mp h
            subst this
            exact hgone (List.mem_map.mpr ⟨o, ho, rfl⟩)
          · exact hrest o h
    · rw [if_neg hfk]
      refine ⟨h0, ?_, rfl⟩
      rcases hask with hnofnk | ⟨p, o', rest, heq2, hrest⟩
      · exact hnofnk
      · intro o ho
        rw [heq2, ladderOrders_cons] at ho
        rcases List.mem_append.mp ho with h | h
        · have hoo : o = o' := List.mem_singleton.mp h
          subst hoo
          rw [heq] at heq2
          injection heq2 with hhead _
          injection hhead with _ hq
          injection hq with ho1 _
          rw [← ho1]
          simpa using hfk
        · exact hrest o h
  · rename_i hnomatch
    refine ⟨h0, ?_, rfl⟩
    rcases hask with hnofnk | ⟨p, o', rest, heq2, hrest⟩
    · exact hnofnk
    · exact absurd heq2 (by intro hx; exact hnomatch p o' [] rest hx)

/-- The matching loop turns a book satisfying every BookWF0 component
except non-crossing into a BookWF0 book. -/
theorem matchLoop_wf0 (book : Orderbook)
    (hsb : book.bids.Pairwise (fun x y => y.1 < x.1))
    (hsa : book.asks.Pairwise (fun x y => x.1 < y.1))
    (hbNE : ∀ e ∈ book.bids, e.2 ≠ [])
    (haNE : ∀ e ∈ book.asks, e.2 ≠ [])
    (hbPS : ∀ e ∈ book.bids, ∀ o ∈ e.2, o.price = e.1 ∧ o.side = Side.Buy)
    (haPS : ∀ e ∈ book.asks, ∀ o ∈ e.2, o.price = e.1 ∧ o.side = Side.Sell)
    (hnd : (ladderIds book.bids ++ ladderIds book.asks).Nodup)
    (hknd : (book.orders.map (fun e => e.1)).Nodup)
    (hsync : ∀ x, containsId book.orders x = true
        ↔ x ∈ ladderIds book.bids ++ ladderIds book.asks)
    (hsnap : ∀ e ∈ book.orders, ∃ o' ∈ ladderOrders (book.sideLadder e.2.side),
        o'.orderId = e.1 ∧ o'.price = e.2.price) :
    BookWF0 (Orderbook.mk (matchLoop book.bids book.asks book.orders).bids
      (matchLoop book.bids book.asks book.orders).asks
      (matchLoop book.bids book.asks book.orders).orders) := by
  refine ⟨?_, ?_, ?_, ?_, ?_, ?_, ?_, ?_, ?_, ?_, ?_⟩
  · exact (matchLoop_sorted book.bids book.asks book.orders hsb hsa).1
  · exact (matchLoop_sorted book.bids book.asks book.orders hsb hsa).2
  · exact (matchLoop_NE book.bids book.asks book.orders hbNE haNE).1
  · exact (matchLoop_NE book.bids book.asks book.orders hbNE haNE).2
  · exact (matchLoop_priceSide book.bids book.asks book.orders hbPS haPS).1
  · exact (matchLoop_priceSide book.bids book.asks book.orders hbPS haPS).2
  · rw [restingIds_eq]
    exact List.Nodup.sublist
      (List.Sublist.append (matchLoop_ladderIds book.bids book.asks book.orders).1
        (matchLoop_ladderIds book.bids book.asks book.orders).2) hnd
  · exact List.Nodup.sublist
      (List.Sublist.map _ (matchLoop_orders_sublist book.bids book.asks book.orders)) hknd
  · intro x
    rw [restingIds_eq]
    exact matchLoop_sync book.bids book.asks book.orders hnd hknd hsync x
  · intro e he
    have he0 : e ∈ book.orders :=
      (matchLoop_orders_sublist book.bids book.asks book.orders).subset he
    rcases hsnap e he0 with ⟨o', ho', hid, hp⟩
    cases hside : e.2.side with
    | Buy =>
      rw [hside] at ho'
      simp only [Orderbook.sideLadder] at ho' ⊢
      exact matchLoop_snapshots_bid book.bids book.asks book.orders hnd hknd hsync
        e he o' ho' hid hp
    | Sell =>
      rw [hside] at ho'
      simp only [Orderbook.sideLadder] at ho' ⊢
      exact matchLoop_snapshots_ask book.bids book.asks book.orders hnd hknd hsync
        e he o' ho' hid hp
  · exact matchLoop_notCrossed book.bids book.asks book.orders

/-- MatchOrders (the loop plus the two fill-and-kill checks) turns any
intermediate AddOrder state - well-formed except for crossing and except
for at most one fill-and-kill order resting alone at the front of the
best level of its side - into a fully well-formed book. -/
theorem MatchOrders_wf (book : Orderbook)
    (hsb : book.bids.Pairwise (fun x y => y.1 < x.1))
    (hsa : book.asks.Pairwise (fun x y => x.1 < y.1))
    (hbNE : ∀ e ∈ book.bids, e.2 ≠ [])
    (haNE : ∀ e ∈ book.asks, e.2 ≠ [])
    (hbPS : ∀ e ∈ book.bids, ∀ o ∈ e.2, o.price = e.1 ∧ o.side = Side.Buy)
    (haPS : ∀ e ∈ book.asks, ∀ o ∈ e.2, o.price = e.1 ∧ o.side = Side.Sell)
    (hnd : (ladderIds book.bids ++ ladderIds book.asks).Nodup)
    (hknd : (book.orders.map (fun e => e.1)).Nodup)
    (hsync : ∀ x, containsId book.orders x = true
        ↔ x ∈ ladderIds book.bids ++ ladderIds book.asks)
    (hsnap : ∀ e ∈ book.orders, ∃ o' ∈ ladderOrders (book.sideLadder e.2.side),
        o'.orderId = e.1 ∧ o'.price = e.2.price)
    (hfnk : (∀ o ∈ ladderOrders book.bids ++ ladderOrders book.asks,
          o.orderType ≠ OrderType.FillAndKill)
      ∨ (∃ p o' rest, book.bids = (p, [o']) :: rest
          ∧ (∀ o ∈ ladderOrders rest, o.orderType ≠ OrderType.FillAndKill)
          ∧ (∀ o ∈ ladderOrders book.asks, o.orderType ≠ OrderType.FillAndKill))
      ∨ (∃ p o' rest, book.asks = (p, [o']) :: rest
          ∧ (∀ o ∈ ladderOrders rest, o.orderType ≠ OrderType.FillAndKill)
          ∧ (∀ o ∈ ladderOrders book.bids, o.orderType ≠ OrderType.FillAndKill))) :
    BookWF (book.MatchOrders).1 := by
  have hfills := matchLoop_orders_fills book.bids book.asks book.orders
  have h1 : BookWF0 (Orderbook.mk (matchLoop book.bids book.asks book.orders).bids
      (matchLoop book.bids book.asks book.orders).asks
      (matchLoop book.bids book.asks book.orders).orders) :=
    matchLoop_wf0 book hsb hsa hbNE haNE hbPS haPS hnd hknd hsync hsnap
  have hmain :
      ((∀ o ∈ ladderOrders (matchLoop book.bids book.asks book.orders).bids,
          o.orderType ≠ OrderType.FillAndKill)
        ∨ (∃ p o' rest, (matchLoop book.bids book.asks book.orders).bids = (p, [o']) :: rest
            ∧ (∀ o ∈ ladderOrders rest, o.orderType ≠ OrderType.FillAndKill))) →
      ((∀ o ∈ ladderOrders (matchLoop book.bids book.asks book.orders).asks,
          o.orderType ≠ OrderType.FillAndKill)
        ∨ (∃ p o' rest, (matchLoop book.bids book.asks book.orders).asks = (p, [o']) :: rest
            ∧ (∀ o ∈ ladderOrders rest, o.orderType ≠ OrderType.FillAndKill))) →
      BookWF (book.MatchOrders).1 := by
    intro hB1bid hB1ask
    obtain ⟨h2, h2bid, h2asks⟩ :=
      WF_fnkBid_step (Orderbook.mk (matchLoop book.bids book.asks book.orders).bids
        (matchLoop book.bids book.asks book.orders).asks
        (matchLoop book.bids book.asks book.orders).orders) h1 hB1bid
    obtain ⟨h3, h3ask, h3bids⟩ :=
      WF_fnkAsk_step _ h2 (by rw [h2asks]; exact hB1ask)
    simp only [Orderbook.MatchOrders]
    refine ⟨h3, ?_⟩
    intro o ho
    rw [Orderbook.restingOrders] at ho
    rcases List.mem_append.mp ho with h | h
    · rw [h3bids] at h
      exact h2bid o h
    · exact h3ask o h
  rcases hfnk with hA | ⟨p, o', rest, heqb, hrestno, haskno⟩ | ⟨p, o', rest, heqa, hrestno, hbidno⟩
  · refine hmain (Or.inl ?_) (Or.inl ?_)
    · intro o ho
      rcases hfills.1 o ho with ⟨o0, ho0, k, hk⟩
      have ht : (o0.fillTotal k).orderType = o0.orderType := rfl
      rw [hk, ht]
      exact hA o0 (List.mem_append_left _ ho0)
    · intro o ho
      rcases hfills.2 o ho with ⟨o0, ho0, k, hk⟩
      have ht : (o0.fillTotal k).orderType = o0.orderType := rfl
      rw [hk, ht]
      exact hA o0 (List.mem_append_right _ ho0)
  · -- bid-side aggressor alone at the new front level
    have hnd' : (o'.orderId :: (ladderIds rest ++ ladderIds book.asks)).Nodup := by
      have h := hnd
      rw [heqb, ladderIds_cons] at h
      simpa [queueIds] using h
    have hfr : o'.orderId ∉ ladderIds rest :=
      fun hx => (List.nodup_cons.mp hnd').1 (List.mem_append_left _ hx)
    have haskfnk : ∀ o ∈ ladderOrders (matchLoop book.bids book.asks book.orders).asks,
        o.orderType ≠ OrderType.FillAndKill := by
      intro o ho
      rcases hfills.2 o ho with ⟨o0, ho0, k, hk⟩
      have ht : (o0.fillTotal k).orderType = o0.orderType := rfl
      rw [hk, ht]
      exact haskno o0 ho0
    refine hmain ?_ (Or.inl haskfnk)
    have horig : ladderOrders book.bids = o' :: ladderOrders rest := by
      rw [heqb, ladderOrders_cons]
      rfl
    rcases matchLoop_front_bid book.bids book.asks book.orders p o' rest heqb hfr with
      ⟨o'', rest'', hout, hid, htype, hsubids⟩ | hnot
    · refine Or.inr ⟨p, o'', rest'', hout, ?_⟩
      intro o ho
      have hmem : o ∈ ladderOrders (matchLoop book.bids book.asks book.orders).bids := by
        rw [hout, ladderOrders_cons]
        exact List.mem_append_right _ ho
      rcases hfills.1 o hmem with ⟨o0, ho0, k, hk⟩
      rw [horig] at ho0
      rcases List.mem_cons.mp ho0 with h0 | h0
      · exfalso
        have : o.orderId ∈ ladderIds rest'' := List.mem_map.mpr ⟨o, ho, rfl⟩
        have h2 : o.orderId ∈ ladderIds rest := hsubids.subset this
        have h3 : o.orderId = o'.orderId := by
          rw [hk, h0]
          rfl
        rw [h3] at h2
        exact hfr h2
      · have ht : (o0.fillTotal k).orderType = o0.orderType := rfl
        rw [hk, ht]
        exact hrestno o0 h0
    · refine Or.inl ?_
      intro o ho
      rcases hfills.1 o ho with ⟨o0, ho0, k, hk⟩
      rw [horig] at ho0
      rcases List.mem_cons.mp ho0 with h0 | h0
      · exfalso
        have h3 : o.orderId = o'.orderId := by
          rw [hk, h0]
          rfl
        exact hnot (h3 ▸ List.mem_map.mpr ⟨o, ho, rfl⟩)
      · have ht : (o0.fillTotal k).orderType = o0.orderType := rfl
        rw [hk, ht]
        exact hrestno o0 h0
  · -- ask-side aggressor alone at the new front level
    have hnd' : ((ladderIds book.bids) ++ o'.orderId :: ladderIds rest).Nodup := by
      have h := hnd
      rw [heqa, ladderIds_cons] at h
      simpa [queueIds] using h
    have hfr : o'.orderId ∉ ladderIds rest := by
      have h2 := (List.nodup_append.mp hnd').2.1
      exact (List.nodup_cons.mp h2).1
    have hbidfnk : ∀ o ∈ ladderOrders (matchLoop book.bids book.asks book.orders).bids,
        o.orderType ≠ OrderType.FillAndKill := by
      intro o ho
      rcases hfills.1 o ho with ⟨o0, ho0, k, hk⟩
      have ht : (o0.fillTotal k).orderType = o0.orderType := rfl
      rw [hk, ht]
      exact hbidno o0 ho0
    refine hmain (Or.inl hbidfnk) ?_
    have horig : ladderOrders book.asks = o' :: ladderOrders rest := by
      rw [heqa, ladderOrders_cons]
      rfl
    rcases matchLoop_front_ask book.bids book.asks book.orders p o' rest heqa hfr with
      ⟨o'', rest'', hout, hid, htype, hsubids⟩ | hnot
    · refine Or.inr ⟨p, o'', rest'', hout, ?_⟩
      intro o ho
      have hmem : o ∈ ladderOrders (matchLoop book.bids book.asks book.orders).asks := by
        rw [hout, ladderOrders_cons]
        exact List.mem_append_right _ ho
      rcases hfills.2 o hmem with ⟨o0, ho0, k, hk⟩
      rw [horig] at ho0
      rcases List.mem_cons.mp ho0 with h0 | h0
      · exfalso
        have : o.orderId ∈ ladderIds rest'' := List.mem_map.mpr ⟨o, ho, rfl⟩
        have h2 : o.orderId ∈ ladderIds rest := hsubids.subset this
        have h3 : o.orderId = o'.orderId := by
          rw [hk, h0]
          rfl
        rw [h3] at h2
        exact hfr h2
      · have ht : (o0.fillTotal k).orderType = o0.orderType := rfl
        rw [hk, ht]
        exact hrestno o0 h0
    · refine Or.inl ?_
      intro o ho
      rcases hfills.2 o ho with ⟨o0, ho0, k, hk⟩
      rw [horig] at ho0
      rcases List.mem_cons.mp ho0 with h0 | h0
      · exfalso
        have h3 : o.orderId = o'.orderId := by
          rw [hk, h0]
          rfl
        exact hnot (h3 ▸ List.mem_map.mpr ⟨o, ho, rfl⟩)
      · have ht : (o0.fillTotal k).orderType = o0.orderType := rfl
        rw [hk, ht]
        exact hrestno o0 h0

/-- AddOrder preserves the full book invariant. -/
theorem AddOrder_wf (book : Orderbook) (o : Order) (h : BookWF book) :
    BookWF (book.AddOrder o).1 := by
  rw [Orderbook.AddOrder]
  split
  · exact h
  · split
    · exact h
    · rename_i hdup hcm
      have hfree : o.orderId ∉ ladderIds book.bids ++ ladderIds book.asks := by
        intro hx
        apply hdup
        rw [h.sync, restingIds_eq]
        exact hx
      have hkfree : o.orderId ∉ book.orders.map (fun e => e.1) := by
        intro hx
        exact hdup ((containsId_iff_mem book.orders o.orderId).mpr hx)
      have hcan : o.orderType = OrderType.FillAndKill →
          book.CanMatch o.side o.price = true := by
        intro hty
        cases hq : book.CanMatch o.side o.price with
        | true => rfl
        | false =>
          exfalso
          apply hcm
          rw [Bool.and_eq_true]
          exact ⟨by simp [hty], by rw [hq]; rfl⟩
      cases hs : o.side with
      | Buy =>
        simp only [hs]
        have hpermIds : (ladderIds (insertBid o book.bids)).Perm
            (ladderIds book.bids ++ [o.orderId]) := by
          have h1 := (insertBid_orders_perm o book.bids).map (fun x => x.orderId)
          rw [List.map_append] at h1
          exact h1
        have hpermAll : (ladderIds (insertBid o book.bids) ++ ladderIds book.asks).Perm
            (o.orderId :: (ladderIds book.bids ++ ladderIds book.asks)) := by
          refine (hpermIds.append_right _).trans ?_
          have h2 : (ladderIds book.bids ++ [o.orderId]).Perm
              (o.orderId :: ladderIds book.bids) := List.perm_append_comm
          exact h2.append_right _
        have hr : (ladderIds book.bids ++ ladderIds book.asks).Nodup := by
          have := h.idsNodup
          rwa [restingIds_eq] at this
        have hnd2 : (ladderIds (insertBid o book.bids) ++ ladderIds book.asks).Nodup :=
          hpermAll.nodup_iff.mpr (List.nodup_cons.mpr ⟨hfree, hr⟩)
        have hknd2 : ((book.orders ++ [(o.orderId, o)]).map (fun e => e.1)).Nodup := by
          rw [List.map_append]
          refine List.nodup_append.mpr ⟨h.keysNodup, by simp, ?_⟩
          intro a ha hamem
          rcases List.mem_singleton.mp hamem with rfl
          exact hkfree ha
        have hsync2 : ∀ x, containsId (book.orders ++ [(o.orderId, o)]) x = true
            ↔ x ∈ ladderIds (insertBid o book.bids) ++ ladderIds book.asks := by
          intro x
          rw [containsId_append, Bool.or_eq_true, hpermAll.mem_iff, List.mem_cons]
          constructor
          · rintro (hc | hbe)
            · have := (h.sync x).mp hc
              rw [restingIds_eq] at this
              exact Or.inr this
            · exact Or.inl (beq_iff_eq.mp hbe).symm
          · rintro (hx | hmm)
            · exact Or.inr (by simp [hx])
            · refine Or.inl ((h.sync x).mpr ?_)
              rw [restingIds_eq]
              exact hmm
        have hbNE2 : ∀ e ∈ insertBid o book.bids, e.2 ≠ [] := by
          intro e he
          rcases insertBid_entry_mem o book.bids e he with h1 | h1 | ⟨q, _, h1⟩
          · exact h.bidsNE e h1
          · rw [h1]
            exact List.cons_ne_nil _ _
          · rw [h1]
            simp
        have hbPS2 : ∀ e ∈ insertBid o book.bids, ∀ o1 ∈ e.2,
            o1.price = e.1 ∧ o1.side = Side.Buy := by
          intro e he o1 ho1
          rcases insertBid_entry_mem o book.bids e he with h1 | h1 | ⟨q, hq, h1⟩
          · exact h.bidsPS e h1 o1 ho1
          · rw [h1] at ho1 ⊢
            rcases List.mem_singleton.mp ho1 with rfl
            exact ⟨rfl, hs⟩
          · rw [h1] at ho1 ⊢
            rcases List.mem_append.mp ho1 with h2 | h2
            · exact h.bidsPS (o.price, q) hq o1 h2
            · rcases List.mem_singleton.mp h2 with rfl
              exact ⟨rfl, hs⟩
        have hsnap2 : ∀ e ∈ book.orders ++ [(o.orderId, o)],
            ∃ o' ∈ ladderOrders ((Orderbook.mk (insertBid o book.bids) book.asks
                (book.orders ++ [(o.orderId, o)])).sideLadder e.2.side),
              o'.orderId = e.1 ∧ o'.price = e.2.price := by
          intro e he
          rcases List.mem_append.mp he with h1 | h1
          · rcases h.snapshots e h1 with ⟨o1, ho1, hid1, hp1⟩
            cases hside : e.2.side with
            | Buy =>
              rw [hside] at ho1
              simp only [Orderbook.sideLadder] at ho1 ⊢
              exact ⟨o1, (insertBid_orders_perm o book.bids).mem_iff.mpr
                (List.mem_append_left _ ho1), hid1, hp1⟩
            | Sell =>
              rw [hside] at ho1
              simp only [Orderbook.sideLadder] at ho1 ⊢
              exact ⟨o1, ho1, hid1, hp1⟩
          · rcases List.mem_singleton.mp h1 with rfl
            simp only [Orderbook.sideLadder, hs]
            exact ⟨o, (insertBid_orders_perm o book.bids).mem_iff.mpr
              (List.mem_append_right _ (List.mem_singleton.mpr rfl)), rfl, rfl⟩
        have hbidsno : ∀ o1 ∈ ladderOrders book.bids,
            o1.orderType ≠ OrderType.FillAndKill := by
          intro o1 ho1
          apply h.noFnK
          rw [Orderbook.restingOrders]
          exact List.mem_append_left _ ho1
        have hasksno : ∀ o1 ∈ ladderOrders book.asks,
            o1.orderType ≠ OrderType.FillAndKill := by
          intro o1 ho1
          apply h.noFnK
          rw [Orderbook.restingOrders]
          exact List.mem_append_right _ ho1
        have hfnk2 : (∀ o1 ∈ ladderOrders (insertBid o book.bids) ++ ladderOrders book.asks,
              o1.orderType ≠ OrderType.FillAndKill)
            ∨ (∃ p o' rest, insertBid o book.bids = (p, [o']) :: rest
                ∧ (∀ o1 ∈ ladderOrders rest, o1.orderType ≠ OrderType.FillAndKill)
                ∧ (∀ o1 ∈ ladderOrders book.asks, o1.orderType ≠ OrderType.FillAndKill))
            ∨ (∃ p o' rest, book.asks = (p, [o']) :: rest
                ∧ (∀ o1 ∈ ladderOrders rest, o1.orderType ≠ OrderType.FillAndKill)
                ∧ (∀ o1 ∈ ladderOrders (insertBid o book.bids),
                    o1.orderType ≠ OrderType.FillAndKill)) := by
          by_cases hty : o.orderType = OrderType.FillAndKill
          · have hcan2 := hcan hty
            have hlt : ∀ k ∈ book.bids.map (fun e => e.1), k < o.price := by
              intro k hk
              cases hasks : book.asks with
              | nil =>
                simp [Orderbook.CanMatch, hs, hasks] at hcan2
              | cons a arest =>
                obtain ⟨ap, aq⟩ := a
                simp only [Orderbook.CanMatch, hs, hasks, decide_eq_true_eq, ge_iff_le]
                  at hcan2
                cases hbids : book.bids with
                | nil =>
                  rw [hbids] at hk
                  cases hk
                | cons b brest =>
                  obtain ⟨bp, bq⟩ := b
                  have hnc := h.notCrossedWF
                  rw [Orderbook.notCrossed, hbids, hasks] at hnc
                  have hblt : bp < ap := by simpa using hnc
                  have hkle : k ≤ bp := key_le_head_desc (hbids ▸ h.bidsSorted) k (hbids ▸ hk)
                  omega
            refine Or.inr (Or.inl ⟨o.price, o, book.bids, insertBid_front o book.bids hlt,
              hbidsno, hasksno⟩)
          · refine Or.inl ?_
            intro o1 ho1
            rcases List.mem_append.mp ho1 with h1 | h1
            · rcases (insertBid_orders_perm o book.bids).mem_iff.mp h1 with h2
              rcases List.mem_append.mp h2 with h3 | h3
              · exact hbidsno o1 h3
              · rcases List.mem_singleton.mp h3 with rfl
                exact hty
            · exact hasksno o1 h1
        exact MatchOrders_wf
          (Orderbook.mk (insertBid o book.bids) book.asks (book.orders ++ [(o.orderId, o)]))
          (insertBid_sorted o book.bids h.bidsSorted) h.asksSorted
          hbNE2 h.asksNE hbPS2 h.asksPS hnd2 hknd2 hsync2 hsnap2 hfnk2
      | Sell =>
        simp only [hs]
        have hpermIds : (ladderIds (insertAsk o book.asks)).Perm
            (ladderIds book.asks ++ [o.orderId]) := by
          have h1 := (insertAsk_orders_perm o book.asks).map (fun x => x.orderId)
          rw [List.map_append] at h1
          exact h1
        have hpermAll : (ladderIds book.bids ++ ladderIds (insertAsk o book.asks)).Perm
            (o.orderId :: (ladderIds book.bids ++ ladderIds book.asks)) := by
          refine (List.Perm.append_left _ (hpermIds.trans List.perm_append_comm)).trans ?_
          exact List.perm_middle
        have hr : (ladderIds book.bids ++ ladderIds book.asks).Nodup := by
          have := h.idsNodup
          rwa [restingIds_eq] at this
        have hnd2 : (ladderIds book.bids ++ ladderIds (insertAsk o book.asks)).Nodup :=
          hpermAll.nodup_iff.mpr (List.nodup_cons.mpr ⟨hfree, hr⟩)
        have hknd2 : ((book.orders ++ [(o.orderId, o)]).map (fun e => e.1)).Nodup := by
          rw [List.map_append]
          refine List.nodup_append.mpr ⟨h.keysNodup, by simp, ?_⟩
          intro a ha hamem
          rcases List.mem_singleton.mp hamem with rfl
          exact hkfree ha
        have hsync2 : ∀ x, containsId (book.orders ++ [(o.orderId, o)]) x = true
            ↔ x ∈ ladderIds book.bids ++ ladderIds (insertAsk o book.asks) := by
          intro x
          rw [containsId_append, Bool.or_eq_true, hpermAll.mem_iff, List.mem_cons]
          constructor
          · rintro (hc | hbe)
            · have := (h.sync x).mp hc
              rw [restingIds_eq] at this
              exact Or.inr this
            · exact Or.inl (beq_iff_eq.mp hbe).symm
          · rintro (hx | hmm)
            · exact Or.inr (by simp [hx])
            · refine Or.inl ((h.sync x).mpr ?_)
              rw [restingIds_eq]
              exact hmm
        have haNE2 : ∀ e ∈ insertAsk o book.asks, e.2 ≠ [] := by
          intro e he
          rcases insertAsk_entry_mem o book.asks e he with h1 | h1 | ⟨q, _, h1⟩
          · exact h.asksNE e h1
          · rw [h1]
            exact List.cons_ne_nil _ _
          · rw [h1]
            simp
        have haPS2 : ∀ e ∈ insertAsk o book.asks, ∀ o1 ∈ e.2,
            o1.price = e.1 ∧ o1.side = Side.Sell := by
          intro e he o1 ho1
          rcases insertAsk_entry_mem o book.asks e he with h1 | h1 | ⟨q, hq, h1⟩
          · exact h.asksPS e h1 o1 ho1
          · rw [h1] at ho1 ⊢
            rcases List.mem_singleton.mp ho1 with rfl
            exact ⟨rfl, hs⟩
          · rw [h1] at ho1 ⊢
            rcases List.mem_append.mp ho1 with h2 | h2
            · exact h.asksPS (o.price, q) hq o1 h2
            · rcases List.mem_singleton.mp h2 with rfl
              exact ⟨rfl, hs⟩
        have hsnap2 : ∀ e ∈ book.orders ++ [(o.orderId, o)],
            ∃ o' ∈ ladderOrders ((Orderbook.mk book.bids (insertAsk o book.asks)
                (book.orders ++ [(o.orderId, o)])).sideLadder e.2.side),
              o'.orderId = e.1 ∧ o'.price = e.2.price := by
          intro e he
          rcases List.mem_append.mp he with h1 | h1
          · rcases h.snapshots e h1 with ⟨o1, ho1, hid1, hp1⟩
            cases hside : e.2.side with
            | Buy =>
              rw [hside] at ho1
              simp only [Orderbook.sideLadder] at ho1 ⊢
              exact ⟨o1, ho1, hid1, hp1⟩
            | Sell =>
              rw [hside] at ho1
              simp only [Orderbook.sideLadder] at ho1 ⊢
              exact ⟨o1, (insertAsk_orders_perm o book.asks).mem_iff.mpr
                (List.mem_append_left _ ho1), hid1, hp1⟩
          · rcases List.mem_singleton.mp h1 with rfl
            simp only [Orderbook.sideLadder, hs]
            exact ⟨o, (insertAsk_orders_perm o book.asks).mem_iff.mpr
              (List.mem_append_right _ (List.mem_singleton.mpr rfl)), rfl, rfl⟩
        have hbidsno : ∀ o1 ∈ ladderOrders book.bids,
            o1.orderType ≠ OrderType.FillAndKill := by
          intro o1 ho1
          apply h.noFnK
          rw [Orderbook.restingOrders]
          exact List.mem_append_left _ ho1
        have hasksno : ∀ o1 ∈ ladderOrders book.asks,
            o1.orderType ≠ OrderType.FillAndKill := by
          intro o1 ho1
          apply h.noFnK
          rw [Orderbook.restingOrders]
          exact List.mem_append_right _ ho1
        have hfnk2 : (∀ o1 ∈ ladderOrders book.bids ++ ladderOrders (insertAsk o book.asks),
              o1.orderType ≠ OrderType.FillAndKill)
            ∨ (∃ p o' rest, book.bids = (p, [o']) :: rest
                ∧ (∀ o1 ∈ ladderOrders rest, o1.orderType ≠ OrderType.FillAndKill)
                ∧ (∀ o1 ∈ ladderOrders (insertAsk o book.asks),
                    o1.orderType ≠ OrderType.FillAndKill))
            ∨ (∃ p o' rest, insertAsk o book.asks = (p, [o']) :: rest
                ∧ (∀ o1 ∈ ladderOrders rest, o1.orderType ≠ OrderType.FillAndKill)
                ∧ (∀ o1 ∈ ladderOrders book.bids, o1.orderType ≠ OrderType.FillAndKill)) := by
          by_cases hty : o.orderType = OrderType.FillAndKill
          · have hcan2 := hcan hty
            have hlt : ∀ k ∈ book.asks.map (fun e => e.1), o.price < k := by
              intro k hk
              cases hbids : book.bids with
              | nil =>
                simp [Orderbook.CanMatch, hs, hbids] at hcan2
              | cons b brest =>
                obtain ⟨bp, bq⟩ := b
                simp only [Orderbook.CanMatch, hs, hbids, decide_eq_true_eq]
                  at hcan2
                cases hasks : book.asks with
                | nil =>
                  rw [hasks] at hk
                  cases hk
                | cons a arest =>
                  obtain ⟨ap, aq⟩ := a
                  have hnc := h.notCrossedWF
                  rw [Orderbook.notCrossed, hbids, hasks] at hnc
                  have hblt : bp < ap := by simpa using hnc
                  have hkge : ap ≤ k := key_ge_head_asc (hasks ▸ h.asksSorted) k (hasks ▸ hk)
                  omega
            refine Or.inr (Or.inr ⟨o.price, o, book.asks, insertAsk_front o book.asks hlt,
              hasksno, hbidsno⟩)
          · refine Or.inl ?_
            intro o1 ho1
            rcases List.mem_append.mp ho1 with h1 | h1
            · exact hbidsno o1 h1
            · rcases (insertAsk_orders_perm o book.asks).mem_iff.mp h1 with h2
              rcases List.mem_append.mp h2 with h3 | h3
              · exact hasksno o1 h3
              · rcases List.mem_singleton.mp h3 with rfl
                exact hty
        exact MatchOrders_wf
          (Orderbook.mk book.bids (insertAsk o book.asks) (book.orders ++ [(o.orderId, o)]))
          h.bidsSorted (insertAsk_sorted o book.asks h.asksSorted)
          h.bidsNE haNE2 h.bidsPS haPS2 hnd2 hknd2 hsync2 hsnap2 hfnk2

theorem applyOp_wf (book : Orderbook) (op : Op) (h : BookWF book) :
    BookWF (book.applyOp op) := by
  cases op with
  | add o => exact AddOrder_wf book o h
  | cancel id => exact CancelOrder_wf book id h
  | modify request =>
    rw [Orderbook.applyOp, Orderbook.MatchOrder]
    split <;> exact h

theorem emptyBook_wf : BookWF emptyBook := by
  refine ⟨⟨List.Pairwise.nil, List.Pairwise.nil, ?_, ?_, ?_, ?_, ?_, ?_, ?_, ?_, rfl⟩, ?_⟩
  · intro e he
    cases he
  · intro e he
    cases he
  · intro e he
    cases he
  · intro e he
    cases he
  · exact List.nodup_nil
  · exact List.nodup_nil
  · intro id
    constructor
    · intro hc
      cases hc
    · intro hm
      cases hm
  · intro e he
    cases he
  · intro o ho
    cases ho

/-- Every book reachable from a fresh Orderbook through the public
interface satisfies the full invariant. -/
theorem runOps_wf (ops : List Op) : BookWF (runOps ops) := by
  rw [runOps]
  have hgen : ∀ (l : List Op) (b : Orderbook), BookWF b →
      BookWF (l.foldl Orderbook.applyOp b) := by
    intro l
    induction l with
    | nil => exact fun b hb => hb
    | cons op rest ih =>
      intro b hb
      exact ih (b.applyOp op) (applyOp_wf b op hb)
  exact hgen ops emptyBook emptyBook_wf

/-- Claim C5: after any sequence of public calls, no fill-and-kill order
is resting in either ladder: one that could not immediately cross never
entered any structure, and one that matched partially was cancelled by
the fill-and-kill check before its call returned. -/
theorem fnk_never_resting (ops : List Op) :
    ((runOps ops).restingOrders.all
      (fun o => !(o.orderType == OrderType.FillAndKill))) = true := by
  rw [List.all_eq_true]
  intro o ho
  have hne := (runOps_wf ops).noFnK o ho
  simp only [Bool.not_eq_true', beq_eq_false_iff_ne, ne_eq]
  exact hne

theorem getLevel_mem_of_ne_nil (lad : Ladder) (p : Int) (h : getLevel lad p ≠ []) :
    ∃ q, (p, q) ∈ lad ∧ getLevel lad p = q := by
  rw [getLevel] at h ⊢
  cases hf : lad.find? (fun e => e.1 == p) with
  | none =>
    rw [hf] at h
    exact absurd rfl h
  | some e =>
    have hmem := List.mem_of_find?_eq_some hf
    have he1 : e.1 = p := by simpa using List.find?_some hf
    refine ⟨e.2, ?_, by rfl⟩
    rw [← he1]
    exact hmem

theorem queueIds_sublist_ladderIds (lad : Ladder) (e : Int × OrderQueue) (he : e ∈ lad) :
    (queueIds e.2).Sublist (ladderIds lad) := by
  obtain ⟨pp, qq⟩ := e
  rcases List.append_of_mem he with ⟨s, t, rfl⟩
  rw [ladderIds_append, ladderIds_cons]
  exact ((List.sublist_append_left _ _).trans (List.sublist_append_right _ _))

/-- In a queue whose order ids are unique, two decompositions around
orders with the same id coincide. -/
theorem nodup_split_eq (X : List Order) :
    ∀ (l X' Y Y' : List Order) (b b' : Order),
      l = X ++ b :: Y → l = X' ++ b' :: Y' → b.orderId = b'.orderId →
      (l.map (fun o => o.orderId)).Nodup →
      X = X' ∧ b = b' ∧ Y = Y' := by
  induction X with
  | nil =>
    intro l X' Y Y' b b' h1 h2 hid hnd
    cases X' with
    | nil =>
      have h3 := h1.symm.trans h2
      injection h3 with hb hy
      exact ⟨rfl, hb, hy⟩
    | cons x xs =>
      exfalso
      have h3 := h1.symm.trans h2
      injection h3 with hb hy
      subst h1
      rw [List.nil_append, List.map_cons, List.nodup_cons] at hnd
      apply hnd.1
      rw [hid]
      have : b' ∈ Y := by
        rw [hy]
        exact List.mem_append_right _ (List.mem_cons_self _ _)
      exact List.mem_map.mpr ⟨b', this, rfl⟩
  | cons x xs ih =>
    intro l X' Y Y' b b' h1 h2 hid hnd
    cases X' with
    | nil =>
      exfalso
      have h3 := h2.symm.trans h1
      injection h3 with hb hy
      subst h2
      rw [List.nil_append, List.map_cons, List.nodup_cons] at hnd
      apply hnd.1
      rw [← hid]
      have : b ∈ Y' := by
        rw [hy]
        exact List.mem_append_right _ (List.mem_cons_self _ _)
      exact List.mem_map.mpr ⟨b, this, rfl⟩
    | cons x' xs' =>
      rw [List.cons_append] at h1
      rw [List.cons_append] at h2
      subst h1
      injection h2 with hx htl
      rw [List.map_cons, List.nodup_cons] at hnd
      rcases ih (xs ++ b :: Y) xs' Y Y' b b' rfl htl hid hnd.2 with ⟨he1, he2, he3⟩
      exact ⟨by rw [hx, he1], he2, he3⟩

/-- find? by id in a queue with unique ids returns the unique order with
that id. -/
theorem find_by_id (l : List Order) (hnd : (l.map (fun o => o.orderId)).Nodup)
    (o : Order) (ho : o ∈ l) (id : Nat) (hid : o.orderId = id) :
    l.find? (fun o' => o'.orderId == id) = some o := by
  induction l with
  | nil => cases ho
  | cons a t ih =>
    rw [List.map_cons, List.nodup_cons] at hnd
    rcases List.mem_cons.mp ho with h | h
    · subst h
      have hb : (o.orderId == id) = true := by simp [hid]
      simp [List.find?_cons, hb]
    · cases hb : (a.orderId == id) with
      | false =>
        simp only [List.find?_cons, hb]
        exact ih hnd.2 h
      | true =>
        exfalso
        rw [beq_iff_eq] at hb
        apply hnd.1
        rw [hb, ← hid]
        exact List.mem_map.mpr ⟨o, h, rfl⟩

theorem fnkBidStep_orders_subset (b : Orderbook) (h0 : BookWF0 b) :
    ∀ o ∈ (fnkBidStep b).restingOrders, o ∈ b.restingOrders := by
  rw [fnkBidStep]
  split
  · split
    · exact CancelOrder_orders_subset b _ h0
    · exact fun o ho => ho
  · exact fun o ho => ho

theorem fnkAskStep_orders_subset (b : Orderbook) (h0 : BookWF0 b) :
    ∀ o ∈ (fnkAskStep b).restingOrders, o ∈ b.restingOrders := by
  rw [fnkAskStep]
  split
  · split
    · exact CancelOrder_orders_subset b _ h0
    · exact fun o ho => ho
  · exact fun o ho => ho

theorem MatchOrder_state_id (book : Orderbook) (request : OrderModify) :
    (book.MatchOrder request).1 = book := by
  rw [Orderbook.MatchOrder]
  split <;> rfl

/-- Under the per-level price discipline, a resting order is in the queue
that getLevel returns at its own price. -/
theorem order_in_getLevel (lad : Ladder) (hnd : (lad.map (fun e => e.1)).Nodup)
    (hPS : ∀ e ∈ lad, ∀ o ∈ e.2, o.price = e.1)
    (o : Order) (ho : o ∈ ladderOrders lad) : o ∈ getLevel lad o.price := by
  rcases (ladderOrders_mem lad o).mp ho with ⟨e, he, hoe⟩
  have hp : o.price = e.1 := hPS e he o hoe
  rw [hp, getLevel_of_mem lad e hnd he]
  exact hoe

theorem fnkBidStep_wf0 (b : Orderbook) (h0 : BookWF0 b) : BookWF0 (fnkBidStep b) := by
  rw [fnkBidStep]
  split
  · split
    · exact CancelOrder_wf0 b _ h0
    · exact h0
  · exact h0

theorem fnkAskStep_wf0 (b : Orderbook) (h0 : BookWF0 b) : BookWF0 (fnkAskStep b) := by
  rw [fnkAskStep]
  split
  · split
    · exact CancelOrder_wf0 b _ h0
    · exact h0
  · exact h0

theorem restingRemaining_extract (bk : Orderbook) (id : Nat) (r : Nat)
    (h : bk.restingRemaining id = some r) :
    ∃ oB ∈ bk.restingOrders, oB.orderId = id ∧ oB.remainingQuantity = r := by
  rw [Orderbook.restingRemaining] at h
  cases hfind : bk.restingOrders.find? (fun o' => o'.orderId == id) with
  | none =>
    rw [hfind] at h
    cases h
  | some ob =>
    rw [hfind] at h
    refine ⟨ob, List.mem_of_find?_eq_some hfind, by simpa using List.find?_some hfind, ?_⟩
    simpa using h

/-- restingRemaining of a resting order's id reads that order's remaining
quantity (ids unique). -/
theorem restingRemaining_self (bk : Orderbook) (hnd : bk.restingIds.Nodup)
    (B : Order) (hBm : B ∈ bk.restingOrders) :
    bk.restingRemaining B.orderId = some B.remainingQuantity := by
  rw [Orderbook.restingRemaining, find_by_id bk.restingOrders hnd B hBm B.orderId rfl]
  rfl

/-- Core of the price-time-priority argument, bid side: if the level queue
at price p read l1 ++ A :: l2 ++ B :: l3 when the matching loop started,
and after the loop (and any further operations book3 whose resting orders
all come from the loop's output) the order with B's id is still resting
with a strictly smaller remaining quantity, then A's id no longer rests
anywhere in book3. -/
theorem priority_core_bid (bids2 asks2 : Ladder) (ords2 : OrderIndex)
    (hsb2 : bids2.Pairwise (fun x y => y.1 < x.1))
    (hsa2 : asks2.Pairwise (fun x y => x.1 < y.1))
    (hPSb2 : ∀ e ∈ bids2, ∀ o1 ∈ e.2, o1.price = e.1 ∧ o1.side = Side.Buy)
    (hPSa2 : ∀ e ∈ asks2, ∀ o1 ∈ e.2, o1.price = e.1 ∧ o1.side = Side.Sell)
    (hnd2 : (ladderIds bids2 ++ ladderIds asks2).Nodup)
    (book3 : Orderbook)
    (hsub3 : ∀ o1 ∈ book3.restingOrders,
      o1 ∈ ladderOrders (matchLoop bids2 asks2 ords2).bids
        ++ ladderOrders (matchLoop bids2 asks2 ords2).asks)
    (p : Int) (A B : Order) (L1 L2 L3 : OrderQueue)
    (horig : getLevel bids2 p = L1 ++ A :: L2 ++ B :: L3)
    (r : Nat) (hB : book3.restingRemaining B.orderId = some r)
    (hlt : r < B.remainingQuantity) :
    book3.idResting A.orderId = false := by
  have hb2nd := (List.nodup_append.mp hnd2).1
  have horigne : getLevel bids2 p ≠ [] := by
    rw [horig]
    simp
  rcases getLevel_mem_of_ne_nil bids2 p horigne with ⟨q0, hq0mem, hq0⟩
  have hAq0 : A ∈ getLevel bids2 p := by
    rw [horig]
    exact List.mem_append_left _ (List.mem_append_right _ (List.mem_cons_self _ _))
  have hBq0 : B ∈ getLevel bids2 p := by
    rw [horig]
    exact List.mem_append_right _ (List.mem_cons_self _ _)
  have hArest : A ∈ ladderOrders bids2 :=
    (ladderOrders_mem _ A).mpr ⟨(p, q0), hq0mem, hq0 ▸ hAq0⟩
  have hBrest : B ∈ ladderOrders bids2 :=
    (ladderOrders_mem _ B).mpr ⟨(p, q0), hq0mem, hq0 ▸ hBq0⟩
  have hApr : A.price = p := (hPSb2 (p, q0) hq0mem A (hq0 ▸ hAq0)).1
  have hBpr : B.price = p := (hPSb2 (p, q0) hq0mem B (hq0 ▸ hBq0)).1
  have hqnd : (queueIds (getLevel bids2 p)).Nodup := by
    refine List.Nodup.sublist ?_ hb2nd
    rw [hq0]
    exact queueIds_sublist_ladderIds bids2 (p, q0) hq0mem
  have hqnd' : (queueIds L1 ++ A.orderId :: (queueIds L2 ++ B.orderId :: queueIds L3)).Nodup := by
    have h1 := hqnd
    rw [horig] at h1
    simpa [queueIds] using h1
  have hint := (List.nodup_append.mp hqnd').2.1
  have hAnot := (List.nodup_cons.mp hint).1
  have hAneB : A.orderId ≠ B.orderId := fun hx =>
    hAnot (by rw [hx]; exact List.mem_append_right _ (List.mem_cons_self _ _))
  have hAnotl3 : A.orderId ∉ queueIds L3 := fun hx =>
    hAnot (List.mem_append_right _ (List.mem_cons_of_mem _ hx))
  rcases (matchLoop_getLevel bids2 asks2 ords2 hsb2 hsa2 p).1 with ⟨k, q, hk⟩
  have hfills := (matchLoop_orders_fills bids2 asks2 ords2).1
  have hPS1 := (matchLoop_priceSide bids2 asks2 ords2 hPSb2 hPSa2).1
  have hsorted1 := matchLoop_sorted bids2 asks2 ords2 hsb2 hsa2
  have hbnd1 : ((matchLoop bids2 asks2 ords2).bids.map (fun e => e.1)).Nodup :=
    ladder_keys_nodup_desc _ hsorted1.1
  rcases restingRemaining_extract book3 B.orderId r hB with ⟨oB, hoBm, hoBid, hoBr⟩
  have hoBbid : oB ∈ ladderOrders (matchLoop bids2 asks2 ords2).bids := by
    rcases List.mem_append.mp (hsub3 oB hoBm) with h1 | h1
    · exact h1
    · exfalso
      have h2 : oB.orderId ∈ ladderIds (matchLoop bids2 asks2 ords2).asks :=
        List.mem_map.mpr ⟨oB, h1, rfl⟩
      have h3 : oB.orderId ∈ ladderIds asks2 :=
        (matchLoop_ladderIds bids2 asks2 ords2).2.subset h2
      rw [hoBid] at h3
      have h4 : B.orderId ∈ ladderIds bids2 := List.mem_map.mpr ⟨B, hBrest, rfl⟩
      exact (List.nodup_append.mp hnd2).2.2 h4 h3
  rcases hfills oB hoBbid with ⟨o0, ho0, k0, hk0⟩
  have ho0id : o0.orderId = B.orderId := by
    rw [← hoBid, hk0, Order.fillTotal]
  have ho0B : o0 = B := List.inj_on_of_nodup_map hb2nd ho0 hBrest ho0id
  have hoBpr : oB.price = p := by
    rw [hk0, ho0B]
    exact hBpr
  have hoBOUT : oB ∈ getLevel (matchLoop bids2 asks2 ords2).bids p := by
    rw [← hoBpr]
    exact order_in_getLevel _ hbnd1 (fun e he o1 ho1 => (hPS1 e he o1 ho1).1) oB hoBbid
  rw [hk] at hoBOUT
  cases hdrop : (getLevel bids2 p).drop k with
  | nil =>
    rw [hdrop] at hoBOUT
    simp [headFilled] at hoBOUT
  | cons hd0 tail2 =>
    rw [hdrop] at hoBOUT
    simp only [headFilled] at hoBOUT
    rcases List.mem_cons.mp hoBOUT with hcase | hcase
    · have hd0mem : hd0 ∈ getLevel bids2 p := by
        have h1 : hd0 ∈ (getLevel bids2 p).drop k := by
          rw [hdrop]
          exact List.mem_cons_self _ _
        exact (List.drop_sublist _ _).subset h1
      have hd0id : hd0.orderId = B.orderId := by
        rw [← hoBid, hcase, Order.fillTotal]
      have hd0B : hd0 = B := List.inj_on_of_nodup_map hqnd hd0mem hBq0 hd0id
      have hdec2 : getLevel bids2 p = (getLevel bids2 p).take k ++ B :: tail2 := by
        conv_lhs => rw [← List.take_append_drop k (getLevel bids2 p)]
        rw [hdrop, hd0B]
      have hsplit := nodup_split_eq (L1 ++ A :: L2) (getLevel bids2 p)
        ((getLevel bids2 p).take k) L3 tail2 B B horig hdec2 rfl hqnd
      rw [Orderbook.idResting]
      by_contra hcontra
      simp only [Bool.not_eq_false] at hcontra
      have hmemA : A.orderId ∈ book3.restingIds := List.mem_of_elem_eq_true hcontra
      rw [Orderbook.restingIds] at hmemA
      rcases List.mem_map.mp hmemA with ⟨oA, hoAm, hoAid⟩
      have hoAbid : oA ∈ ladderOrders (matchLoop bids2 asks2 ords2).bids := by
        rcases List.mem_append.mp (hsub3 oA hoAm) with h1 | h1
        · exact h1
        · exfalso
          have h2 : oA.orderId ∈ ladderIds (matchLoop bids2 asks2 ords2).asks :=
            List.mem_map.mpr ⟨oA, h1, rfl⟩
          have h3 : oA.orderId ∈ ladderIds asks2 :=
            (matchLoop_ladderIds bids2 asks2 ords2).2.subset h2
          rw [hoAid] at h3
          have h4 : A.orderId ∈ ladderIds bids2 := List.mem_map.mpr ⟨A, hArest, rfl⟩
          exact (List.nodup_append.mp hnd2).2.2 h4 h3
      rcases hfills oA hoAbid with ⟨o0A, ho0A, kA, hkA⟩
      have ho0Aid : o0A.orderId = A.orderId := by
        rw [← hoAid, hkA, Order.fillTotal]
      have ho0AA : o0A = A := List.inj_on_of_nodup_map hb2nd ho0A hArest ho0Aid
      have hoApr : oA.price = p := by
        rw [hkA, ho0AA]
        exact hApr
      have hoAOUT : oA ∈ getLevel (matchLoop bids2 asks2 ords2).bids p := by
        rw [← hoApr]
        exact order_in_getLevel _ hbnd1 (fun e he o1 ho1 => (hPS1 e he o1 ho1).1) oA hoAbid
      rw [hk, hdrop] at hoAOUT
      simp only [headFilled] at hoAOUT
      rcases List.mem_cons.mp hoAOUT with hc2 | hc2
      · have hoAB : oA.orderId = B.orderId := by
          rw [hc2]
          exact hd0id
        rw [hoAid] at hoAB
        exact hAneB hoAB
      · rw [← hsplit.2.2] at hc2
        apply hAnotl3
        rw [← hoAid]
        exact List.mem_map.mpr ⟨oA, hc2, rfl⟩
    · exfalso
      have hoBmem0 : oB ∈ getLevel bids2 p := by
        have h1 : oB ∈ (getLevel bids2 p).drop k := by
          rw [hdrop]
          exact List.mem_cons_of_mem _ hcase
        exact (List.drop_sublist _ _).subset h1
      have hoBB : oB = B := List.inj_on_of_nodup_map hqnd hoBmem0 hBq0 hoBid
      rw [hoBB] at hoBr
      omega

/-- Symmetric core of the price-time-priority argument for the ask
ladder. -/
theorem priority_core_ask (bids2 asks2 : Ladder) (ords2 : OrderIndex)
    (hsb2 : bids2.Pairwise (fun x y => y.1 < x.1))
    (hsa2 : asks2.Pairwise (fun x y => x.1 < y.1))
    (hPSb2 : ∀ e ∈ bids2, ∀ o1 ∈ e.2, o1.price = e.1 ∧ o1.side = Side.Buy)
    (hPSa2 : ∀ e ∈ asks2, ∀ o1 ∈ e.2, o1.price = e.1 ∧ o1.side = Side.Sell)
    (hnd2 : (ladderIds bids2 ++ ladderIds asks2).Nodup)
    (book3 : Orderbook)
    (hsub3 : ∀ o1 ∈ book3.restingOrders,
      o1 ∈ ladderOrders (matchLoop bids2 asks2 ords2).bids
        ++ ladderOrders (matchLoop bids2 asks2 ords2).asks)
    (p : Int) (A B : Order) (L1 L2 L3 : OrderQueue)
    (horig : getLevel asks2 p = L1 ++ A :: L2 ++ B :: L3)
    (r : Nat) (hB : book3.restingRemaining B.orderId = some r)
    (hlt : r < B.remainingQuantity) :
    book3.idResting A.orderId = false := by
  have ha2nd := (List.nodup_append.mp hnd2).2.1
  have horigne : getLevel asks2 p ≠ [] := by
    rw [horig]
    simp
  rcases getLevel_mem_of_ne_nil asks2 p horigne with ⟨q0, hq0mem, hq0⟩
  have hAq0 : A ∈ getLevel asks2 p := by
    rw [horig]
    exact List.mem_append_left _ (List.mem_append_right _ (List.mem_cons_self _ _))
  have hBq0 : B ∈ getLevel asks2 p := by
    rw [horig]
    exact List.mem_append_right _ (List.mem_cons_self _ _)
  have hArest : A ∈ ladderOrders asks2 :=
    (ladderOrders_mem _ A).mpr ⟨(p, q0), hq0mem, hq0 ▸ hAq0⟩
  have hBrest : B ∈ ladderOrders asks2 :=
    (ladderOrders_mem _ B).mpr ⟨(p, q0), hq0mem, hq0 ▸ hBq0⟩
  have hApr : A.price = p := (hPSa2 (p, q0) hq0mem A (hq0 ▸ hAq0)).1
  have hBpr : B.price = p := (hPSa2 (p, q0) hq0mem B (hq0 ▸ hBq0)).1
  have hqnd : (queueIds (getLevel asks2 p)).Nodup := by
    refine List.Nodup.sublist ?_ ha2nd
    rw [hq0]
    exact queueIds_sublist_ladderIds asks2 (p, q0) hq0mem
  have hqnd' : (queueIds L1 ++ A.orderId :: (queueIds L2 ++ B.orderId :: queueIds L3)).Nodup := by
    have h1 := hqnd
    rw [horig] at h1
    simpa [queueIds] using h1
  have hint := (List.nodup_append.mp hqnd').2.1
  have hAnot := (List.nodup_cons.mp hint).1
  have hAneB : A.orderId ≠ B.orderId := fun hx =>
    hAnot (by rw [hx]; exact List.mem_append_right _ (List.mem_cons_self _ _))
  have hAnotl3 : A.orderId ∉ queueIds L3 := fun hx =>
    hAnot (List.mem_append_right _ (List.mem_cons_of_mem _ hx))
  rcases (matchLoop_getLevel bids2 asks2 ords2 hsb2 hsa2 p).2 with ⟨k, q, hk⟩
  have hfills := (matchLoop_orders_fills bids2 asks2 ords2).2
  have hPS1 := (matchLoop_priceSide bids2 asks2 ords2 hPSb2 hPSa2).2
  have hsorted1 := matchLoop_sorted bids2 asks2 ords2 hsb2 hsa2
  have hand1 : ((matchLoop bids2 asks2 ords2).asks.map (fun e => e.1)).Nodup :=
    ladder_keys_nodup_asc _ hsorted1.2
  rcases restingRemaining_extract book3 B.orderId r hB with ⟨oB, hoBm, hoBid, hoBr⟩
  have hoBask : oB ∈ ladderOrders (matchLoop bids2 asks2 ords2).asks := by
    rcases List.mem_append.mp (hsub3 oB hoBm) with h1 | h1
    · exfalso
      have h2 : oB.orderId ∈ ladderIds (matchLoop bids2 asks2 ords2).bids :=
        List.mem_map.mpr ⟨oB, h1, rfl⟩
      have h3 : oB.orderId ∈ ladderIds bids2 :=
        (matchLoop_ladderIds bids2 asks2 ords2).1.subset h2
      rw [hoBid] at h3
      have h4 : B.orderId ∈ ladderIds asks2 := List.mem_map.mpr ⟨B, hBrest, rfl⟩
      exact (List.nodup_append.mp hnd2).2.2 h3 h4
    · exact h1
  rcases hfills oB hoBask with ⟨o0, ho0, k0, hk0⟩
  have ho0id : o0.orderId = B.orderId := by
    rw [← hoBid, hk0, Order.fillTotal]
  have ho0B : o0 = B := List.inj_on_of_nodup_map ha2nd ho0 hBrest ho0id
  have hoBpr : oB.price = p := by
    rw [hk0, ho0B]
    exact hBpr
  have hoBOUT : oB ∈ getLevel (matchLoop bids2 asks2 ords2).asks p := by
    rw [← hoBpr]
    exact order_in_getLevel _ hand1 (fun e he o1 ho1 => (hPS1 e he o1 ho1).1) oB hoBask
  rw [hk] at hoBOUT
  cases hdrop : (getLevel asks2 p).drop k with
  | nil =>
    rw [hdrop] at hoBOUT
    simp [headFilled] at hoBOUT
  | cons hd0 tail2 =>
    rw [hdrop] at hoBOUT
    simp only [headFilled] at hoBOUT
    rcases List.mem_cons.mp hoBOUT with hcase | hcase
    · have hd0mem : hd0 ∈ getLevel asks2 p := by
        have h1 : hd0 ∈ (getLevel asks2 p).drop k := by
          rw [hdrop]
          exact List.mem_cons_self _ _
        exact (List.drop_sublist _ _).subset h1
      have hd0id : hd0.orderId = B.orderId := by
        rw [← hoBid, hcase, Order.fillTotal]
      have hd0B : hd0 = B := List.inj_on_of_nodup_map hqnd hd0mem hBq0 hd0id
      have hdec2 : getLevel asks2 p = (getLevel asks2 p).take k ++ B :: tail2 := by
        conv_lhs => rw [← List.take_append_drop k (getLevel asks2 p)]
        rw [hdrop, hd0B]
      have hsplit := nodup_split_eq (L1 ++ A :: L2) (getLevel asks2 p)
        ((getLevel asks2 p).take k) L3 tail2 B B horig hdec2 rfl hqnd
      rw [Orderbook.idResting]
      by_contra hcontra
      simp only [Bool.not_eq_false] at hcontra
      have hmemA : A.orderId ∈ book3.restingIds := List.mem_of_elem_eq_true hcontra
      rw [Orderbook.restingIds] at hmemA
      rcases List.mem_map.mp hmemA with ⟨oA, hoAm, hoAid⟩
      have hoAask : oA ∈ ladderOrders (matchLoop bids2 asks2 ords2).asks := by
        rcases List.mem_append.mp (hsub3 oA hoAm) with h1 | h1
        · exfalso
          have h2 : oA.orderId ∈ ladderIds (matchLoop bids2 asks2 ords2).bids :=
            List.mem_map.mpr ⟨oA, h1, rfl⟩
          have h3 : oA.orderId ∈ ladderIds bids2 :=
            (matchLoop_ladderIds bids2 asks2 ords2).1.subset h2
          rw [hoAid] at h3
          have h4 : A.orderId ∈ ladderIds asks2 := List.mem_map.mpr ⟨A, hArest, rfl⟩
          exact (List.nodup_append.mp hnd2).2.2 h3 h4
        · exact h1
      rcases hfills oA hoAask with ⟨o0A, ho0A, kA, hkA⟩
      have ho0Aid : o0A.orderId = A.orderId := by
        rw [← hoAid, hkA, Order.fillTotal]
      have ho0AA : o0A = A := List.inj_on_of_nodup_map ha2nd ho0A hArest ho0Aid
      have hoApr : oA.price = p := by
        rw [hkA, ho0AA]
        exact hApr
      have hoAOUT : oA ∈ getLevel (matchLoop bids2 asks2 ords2).asks p := by
        rw [← hoApr]
        exact order_in_getLevel _ hand1 (fun e he o1 ho1 => (hPS1 e he o1 ho1).1) oA hoAask
      rw [hk, hdrop] at hoAOUT
      simp only [headFilled] at hoAOUT
      rcases List.mem_cons.mp hoAOUT with hc2 | hc2
      · have hoAB : oA.orderId = B.orderId := by
          rw [hc2]
          exact hd0id
        rw [hoAid] at hoAB
        exact hAneB hoAB
      · rw [← hsplit.2.2] at hc2
        apply hAnotl3
        rw [← hoAid]
        exact List.mem_map.mpr ⟨oA, hc2, rfl⟩
    · exfalso
      have hoBmem0 : oB ∈ getLevel asks2 p := by
        have h1 : oB ∈ (getLevel asks2 p).drop k := by
          rw [hdrop]
          exact List.mem_cons_of_mem _ hcase
        exact (List.drop_sublist _ _).subset h1
      have hoBB : oB = B := List.inj_on_of_nodup_map hqnd hoBmem0 hBq0 hoBid
      rw [hoBB] at hoBr
      omega

/-- Price-time priority across one AddOrder call on a reachable book: if B
rested behind A at the same price on the same side and after the call B is
still resting with a strictly smaller remaining quantity, then A's id no
longer rests (A was fully filled first). -/
theorem AddOrder_priority (book : Orderbook) (o : Order) (hwf : BookWF book)
    (side : Side) (p : Int) (A B : Order) (l1 l2 l3 : OrderQueue)
    (hlevel : getLevel (book.sideLadder side) p = l1 ++ A :: l2 ++ B :: l3)
    (r : Nat) (hB : (book.AddOrder o).1.restingRemaining B.orderId = some r)
    (hlt : r < B.remainingQuantity) :
    (book.AddOrder o).1.idResting A.orderId = false := by
  have hBrest0 : B ∈ book.restingOrders := by
    cases side with
    | Buy =>
      simp only [Orderbook.sideLadder] at hlevel
      have hne : getLevel book.bids p ≠ [] := by
        rw [hlevel]
        simp
      rcases getLevel_mem_of_ne_nil book.bids p hne with ⟨q0, hm, hq⟩
      rw [Orderbook.restingOrders]
      refine List.mem_append_left _ ((ladderOrders_mem _ B).mpr ⟨(p, q0), hm, ?_⟩)
      have : B ∈ getLevel book.bids p := by
        rw [hlevel]
        exact List.mem_append_right _ (List.mem_cons_self _ _)
      exact hq ▸ this
    | Sell =>
      simp only [Orderbook.sideLadder] at hlevel
      have hne : getLevel book.asks p ≠ [] := by
        rw [hlevel]
        simp
      rcases getLevel_mem_of_ne_nil book.asks p hne with ⟨q0, hm, hq⟩
      rw [Orderbook.restingOrders]
      refine List.mem_append_right _ ((ladderOrders_mem _ B).mpr ⟨(p, q0), hm, ?_⟩)
      have : B ∈ getLevel book.asks p := by
        rw [hlevel]
        exact List.mem_append_right _ (List.mem_cons_self _ _)
      exact hq ▸ this
  by_cases hdup : containsId book.orders o.orderId = true
  · exfalso
    have hb' : (book.AddOrder o).1 = book := by
      rw [Orderbook.AddOrder, if_pos hdup]
    rw [hb', restingRemaining_self book hwf.idsNodup B hBrest0] at hB
    have := Option.some.inj hB
    omega
  · by_cases hfk : (o.orderType == OrderType.FillAndKill
        && !(book.CanMatch o.side o.price)) = true
    · exfalso
      have hb' : (book.AddOrder o).1 = book := by
        rw [Orderbook.AddOrder, if_neg hdup, if_pos hfk]
      rw [hb', restingRemaining_self book hwf.idsNodup B hBrest0] at hB
      have := Option.some.inj hB
      omega
    · have hfree : o.orderId ∉ ladderIds book.bids ++ ladderIds book.asks := by
        intro hx
        apply hdup
        rw [hwf.sync, restingIds_eq]
        exact hx
      have hkfree : o.orderId ∉ book.orders.map (fun e => e.1) := by
        intro hx
        exact hdup ((containsId_iff_mem book.orders o.orderId).mpr hx)
      have hr : (ladderIds book.bids ++ ladderIds book.asks).Nodup := by
        have := hwf.idsNodup
        rwa [restingIds_eq] at this
      cases hs : o.side with
      | Buy =>
        have hpermIds : (ladderIds (insertBid o book.bids)).Perm
            (ladderIds book.bids ++ [o.orderId]) := by
          have h1 := (insertBid_orders_perm o book.bids).map (fun x => x.orderId)
          rw [List.map_append] at h1
          exact h1
        have hpermAll : (ladderIds (insertBid o book.bids) ++ ladderIds book.asks).Perm
            (o.orderId :: (ladderIds book.bids ++ ladderIds book.asks)) := by
          refine (hpermIds.append_right _).trans ?_
          have h2 : (ladderIds book.bids ++ [o.orderId]).Perm
              (o.orderId :: ladderIds book.bids) := List.perm_append_comm
          exact h2.append_right _
        have hnd2 : (ladderIds (insertBid o book.bids) ++ ladderIds book.asks).Nodup :=
          hpermAll.nodup_iff.mpr (List.nodup_cons.mpr ⟨hfree, hr⟩)
        have hknd2 : ((book.orders ++ [(o.orderId, o)]).map (fun e => e.1)).Nodup := by
          rw [List.map_append]
          refine List.nodup_append.mpr ⟨hwf.keysNodup, by simp, ?_⟩
          intro a ha hamem
          rcases List.mem_singleton.mp hamem with rfl
          exact hkfree ha
        have hsync2 : ∀ x, containsId (book.orders ++ [(o.orderId, o)]) x = true
            ↔ x ∈ ladderIds (insertBid o book.bids) ++ ladderIds book.asks := by
          intro x
          rw [containsId_append, Bool.or_eq_true, hpermAll.mem_iff, List.mem_cons]
          constructor
          · rintro (hc | hbe)
            · have := (hwf.sync x).mp hc
              rw [restingIds_eq] at this
              exact Or.inr this
            · exact Or.inl (beq_iff_eq.mp hbe).symm
          · rintro (hx | hmm)
            · exact Or.inr (by simp [hx])
            · refine Or.inl ((hwf.sync x).mpr ?_)
              rw [restingIds_eq]
              exact hmm
        have hbNE2 : ∀ e ∈ insertBid o book.bids, e.2 ≠ [] := by
          intro e he
          rcases insertBid_entry_mem o book.bids e he with h1 | h1 | ⟨q, _, h1⟩
          · exact hwf.bidsNE e h1
          · rw [h1]
            exact List.cons_ne_nil _ _
          · rw [h1]
            simp
        have hbPS2 : ∀ e ∈ insertBid o book.bids, ∀ o1 ∈ e.2,
            o1.price = e.1 ∧ o1.side = Side.Buy := by
          intro e he o1 ho1
          rcases insertBid_entry_mem o book.bids e he with h1 | h1 | ⟨q, hq, h1⟩
          · exact hwf.bidsPS e h1 o1 ho1
          · rw [h1] at ho1 ⊢
            rcases List.mem_singleton.mp ho1 with rfl
            exact ⟨rfl, hs⟩
          · rw [h1] at ho1 ⊢
            rcases List.mem_append.mp ho1 with h2 | h2
            · exact hwf.bidsPS (o.price, q) hq o1 h2
            · rcases List.mem_singleton.mp h2 with rfl
              exact ⟨rfl, hs⟩
        have hsnap2 : ∀ e ∈ book.orders ++ [(o.orderId, o)],
            ∃ o' ∈ ladderOrders ((Orderbook.mk (insertBid o book.bids) book.asks
                (book.orders ++ [(o.orderId, o)])).sideLadder e.2.side),
              o'.orderId = e.1 ∧ o'.price = e.2.price := by
          intro e he
          rcases List.mem_append.mp he with h1 | h1
          · rcases hwf.snapshots e h1 with ⟨o1, ho1, hid1, hp1⟩
            cases hside : e.2.side with
            | Buy =>
              rw [hside] at ho1
              simp only [Orderbook.sideLadder] at ho1 ⊢
              exact ⟨o1, (insertBid_orders_perm o book.bids).mem_iff.mpr
                (List.mem_append_left _ ho1), hid1, hp1⟩
            | Sell =>
              rw [hside] at ho1
              simp only [Orderbook.sideLadder] at ho1 ⊢
              exact ⟨o1, ho1, hid1, hp1⟩
          · rcases List.mem_singleton.mp h1 with rfl
            simp only [Orderbook.sideLadder, hs]
            exact ⟨o, (insertBid_orders_perm o book.bids).mem_iff.mpr
              (List.mem_append_right _ (List.mem_singleton.mpr rfl)), rfl, rfl⟩
        have hsb2 : (insertBid o book.bids).Pairwise (fun x y => y.1 < x.1) :=
          insertBid_sorted o book.bids hwf.bidsSorted
        have hfk' : ¬(o.orderType == OrderType.FillAndKill
            && !book.CanMatch Side.Buy o.price) = true := by
          rw [← hs]
          exact hfk
        have hbook3 : (book.AddOrder o).1 = fnkAskStep (fnkBidStep (Orderbook.mk
            (matchLoop (insertBid o book.bids) book.asks
              (book.orders ++ [(o.orderId, o)])).bids
            (matchLoop (insertBid o book.bids) book.asks
              (book.orders ++ [(o.orderId, o)])).asks
            (matchLoop (insertBid o book.bids) book.asks
              (book.orders ++ [(o.orderId, o)])).orders)) := by
          simp only [Orderbook.AddOrder, if_neg hdup, hs, if_neg hfk', Orderbook.MatchOrders]
        have h1 : BookWF0 (Orderbook.mk
            (matchLoop (insertBid o book.bids) book.asks
              (book.orders ++ [(o.orderId, o)])).bids
            (matchLoop (insertBid o book.bids) book.asks
              (book.orders ++ [(o.orderId, o)])).asks
            (matchLoop (insertBid o book.bids) book.asks
              (book.orders ++ [(o.orderId, o)])).orders) :=
          matchLoop_wf0 (Orderbook.mk (insertBid o book.bids) book.asks
              (book.orders ++ [(o.orderId, o)]))
            hsb2 hwf.asksSorted hbNE2 hwf.asksNE hbPS2 hwf.asksPS hnd2 hknd2 hsync2 hsnap2
        have h2 := fnkBidStep_wf0 _ h1
        have hsub3 : ∀ o1 ∈ (fnkAskStep (fnkBidStep (Orderbook.mk
            (matchLoop (insertBid o book.bids) book.asks
              (book.orders ++ [(o.orderId, o)])).bids
            (matchLoop (insertBid o book.bids) book.asks
              (book.orders ++ [(o.orderId, o)])).asks
            (matchLoop (insertBid o book.bids) book.asks
              (book.orders ++ [(o.orderId, o)])).orders))).restingOrders,
            o1 ∈ ladderOrders (matchLoop (insertBid o book.bids) book.asks
                (book.orders ++ [(o.orderId, o)])).bids
              ++ ladderOrders (matchLoop (insertBid o book.bids) book.asks
                (book.orders ++ [(o.orderId, o)])).asks := by
          intro o1 ho1
          have h3 := fnkBidStep_orders_subset _ h1 o1 (fnkAskStep_orders_subset _ h2 o1 ho1)
          rw [Orderbook.restingOrders] at h3
          exact h3
        rw [hbook3] at hB ⊢
        cases side with
        | Buy =>
          simp only [Orderbook.sideLadder] at hlevel
          have hg := insertBid_getLevel o book.bids hwf.bidsSorted p
          by_cases hpo : p = o.price
          · rw [if_pos hpo, hlevel] at hg
            have hg' : getLevel (insertBid o book.bids) p
                = l1 ++ A :: l2 ++ B :: (l3 ++ [o]) := by
              rw [hg, List.append_assoc, List.cons_append]
            exact priority_core_bid (insertBid o book.bids) book.asks
              (book.orders ++ [(o.orderId, o)]) hsb2 hwf.asksSorted hbPS2 hwf.asksPS hnd2
              _ hsub3 p A B l1 l2 (l3 ++ [o]) hg' r hB hlt
          · rw [if_neg hpo, hlevel] at hg
            exact priority_core_bid (insertBid o book.bids) book.asks
              (book.orders ++ [(o.orderId, o)]) hsb2 hwf.asksSorted hbPS2 hwf.asksPS hnd2
              _ hsub3 p A B l1 l2 l3 hg r hB hlt
        | Sell =>
          simp only [Orderbook.sideLadder] at hlevel
          exact priority_core_ask (insertBid o book.bids) book.asks
            (book.orders ++ [(o.orderId, o)]) hsb2 hwf.asksSorted hbPS2 hwf.asksPS hnd2
            _ hsub3 p A B l1 l2 l3 hlevel r hB hlt
      | Sell =>
        have hpermIds : (ladderIds (insertAsk o book.asks)).Perm
            (ladderIds book.asks ++ [o.orderId]) := by
          have h1 := (insertAsk_orders_perm o book.asks).map (fun x => x.orderId)
          rw [List.map_append] at h1
          exact h1
        have hpermAll : (ladderIds book.bids ++ ladderIds (insertAsk o book.asks)).Perm
            (o.orderId :: (ladderIds book.bids ++ ladderIds book.asks)) := by
          refine (List.Perm.append_left _ (hpermIds.trans List.perm_append_comm)).trans ?_
          exact List.perm_middle
        have hnd2 : (ladderIds book.bids ++ ladderIds (insertAsk o book.asks)).Nodup :=
          hpermAll.nodup_iff.mpr (List.nodup_cons.mpr ⟨hfree, hr⟩)
        have hknd2 : ((book.orders ++ [(o.orderId, o)]).map (fun e => e.1)).Nodup := by
          rw [List.map_append]
          refine List.nodup_append.mpr ⟨hwf.keysNodup, by simp, ?_⟩
          intro a ha hamem
          rcases List.mem_singleton.mp hamem with rfl
          exact hkfree ha
        have hsync2 : ∀ x, containsId (book.orders ++ [(o.orderId, o)]) x = true
            ↔ x ∈ ladderIds book.bids ++ ladderIds (insertAsk o book.asks) := by
          intro x
          rw [containsId_append, Bool.or_eq_true, hpermAll.mem_iff, List.mem_cons]
          constructor
          · rintro (hc | hbe)
            · have := (hwf.sync x).mp hc
              rw [restingIds_eq] at this
              exact Or.inr this
            · exact Or.inl (beq_iff_eq.mp hbe).symm
          · rintro (hx | hmm)
            · exact Or.inr (by simp [hx])
            · refine Or.inl ((hwf.sync x).mpr ?_)
              rw [restingIds_eq]
              exact hmm
        have haNE2 : ∀ e ∈ insertAsk o book.asks, e.2 ≠ [] := by
          intro e he
          rcases insertAsk_entry_mem o book.asks e he with h1 | h1 | ⟨q, _, h1⟩
          · exact hwf.asksNE e h1
          · rw [h1]
            exact List.cons_ne_nil _ _
          · rw [h1]
            simp
        have haPS2 : ∀ e ∈ insertAsk o book.asks, ∀ o1 ∈ e.2,
            o1.price = e.1 ∧ o1.side = Side.Sell := by
          intro e he o1 ho1
          rcases insertAsk_entry_mem o book.asks e he with h1 | h1 | ⟨q, hq, h1⟩
          · exact hwf.asksPS e h1 o1 ho1
          · rw [h1] at ho1 ⊢
            rcases List.mem_singleton.mp ho1 with rfl
            exact ⟨rfl, hs⟩
          · rw [h1] at ho1 ⊢
            rcases List.mem_append.mp ho1 with h2 | h2
            · exact hwf.asksPS (o.price, q) hq o1 h2
            · rcases List.mem_singleton.mp h2 with rfl
              exact ⟨rfl, hs⟩
        have hsnap2 : ∀ e ∈ book.orders ++ [(o.orderId, o)],
            ∃ o' ∈ ladderOrders ((Orderbook.mk book.bids (insertAsk o book.asks)
                (book.orders ++ [(o.orderId, o)])).sideLadder e.2.side),
              o'.orderId = e.1 ∧ o'.price = e.2.price := by
          intro e he
          rcases List.mem_append.mp he with h1 | h1
          · rcases hwf.snapshots e h1 with ⟨o1, ho1, hid1, hp1⟩
            cases hside : e.2.side with
            | Buy =>
              rw [hside] at ho1
              simp only [Orderbook.sideLadder] at ho1 ⊢
              exact ⟨o1, ho1, hid1, hp1⟩
            | Sell =>
              rw [hside] at ho1
              simp only [Orderbook.sideLadder] at ho1 ⊢
              exact ⟨o1, (insertAsk_orders_perm o book.asks).mem_iff.mpr
                (List.mem_append_left _ ho1), hid1, hp1⟩
          · rcases List.mem_singleton.mp h1 with rfl
            simp only [Orderbook.sideLadder, hs]
            exact ⟨o, (insertAsk_orders_perm o book.asks).mem_iff.mpr
              (List.mem_append_right _ (List.mem_singleton.mpr rfl)), rfl, rfl⟩
        have hsa2 : (insertAsk o book.asks).Pairwise (fun x y => x.1 < y.1) :=
          insertAsk_sorted o book.asks hwf.asksSorted
        have hfk' : ¬(o.orderType == OrderType.FillAndKill
            && !book.CanMatch Side.Sell o.price) = true := by
          rw [← hs]
          exact hfk
        have hbook3 : (book.AddOrder o).1 = fnkAskStep (fnkBidStep (Orderbook.mk
            (matchLoop book.bids (insertAsk o book.asks)
              (book.orders ++ [(o.orderId, o)])).bids
            (matchLoop book.bids (insertAsk o book.asks)
              (book.orders ++ [(o.orderId, o)])).asks
            (matchLoop book.bids (insertAsk o book.asks)
              (book.orders ++ [(o.orderId, o)])).orders)) := by
          simp only [Orderbook.AddOrder, if_neg hdup, hs, if_neg hfk', Orderbook.MatchOrders]
        have h1 : BookWF0 (Orderbook.mk
            (matchLoop book.bids (insertAsk o book.asks)
              (book.orders ++ [(o.orderId, o)])).bids
            (matchLoop book.bids (insertAsk o book.asks)
              (book.orders ++ [(o.orderId, o)])).asks
            (matchLoop book.bids (insertAsk o book.asks)
              (book.orders ++ [(o.orderId, o)])).orders) :=
          matchLoop_wf0 (Orderbook.mk book.bids (insertAsk o book.asks)
              (book.orders ++ [(o.orderId, o)]))
            hwf.bidsSorted hsa2 hwf.bidsNE haNE2 hwf.bidsPS haPS2 hnd2 hknd2 hsync2 hsnap2
        have h2 := fnkBidStep_wf0 _ h1
        have hsub3 : ∀ o1 ∈ (fnkAskStep (fnkBidStep (Orderbook.mk
            (matchLoop book.bids (insertAsk o book.asks)
              (book.orders ++ [(o.orderId, o)])).bids
            (matchLoop book.bids (insertAsk o book.asks)
              (book.orders ++ [(o.orderId, o)])).asks
            (matchLoop book.bids (insertAsk o book.asks)
              (book.orders ++ [(o.orderId, o)])).orders))).restingOrders,
            o1 ∈ ladderOrders (matchLoop book.bids (insertAsk o book.asks)
                (book.orders ++ [(o.orderId, o)])).bids
              ++ ladderOrders (matchLoop book.bids (insertAsk o book.asks)
                (book.orders ++ [(o.orderId, o)])).asks := by
          intro o1 ho1
          have h3 := fnkBidStep_orders_subset _ h1 o1 (fnkAskStep_orders_subset _ h2 o1 ho1)
          rw [Orderbook.restingOrders] at h3
          exact h3
        rw [hbook3] at hB ⊢
        cases side with
        | Buy =>
          simp only [Orderbook.sideLadder] at hlevel
          exact priority_core_bid book.bids (insertAsk o book.asks)
            (book.orders ++ [(o.orderId, o)]) hwf.bidsSorted hsa2 hwf.bidsPS haPS2 hnd2
            _ hsub3 p A B l1 l2 l3 hlevel r hB hlt
        | Sell =>
          simp only [Orderbook.sideLadder] at hlevel
          have hg := insertAsk_getLevel o book.asks hwf.asksSorted p
          by_cases hpo : p = o.price
          · rw [if_pos hpo, hlevel] at hg
            have hg' : getLevel (insertAsk o book.asks) p
                = l1 ++ A :: l2 ++ B :: (l3 ++ [o]) := by
              rw [hg, List.append_assoc, List.cons_append]
            exact priority_core_ask book.bids (insertAsk o book.asks)
              (book.orders ++ [(o.orderId, o)]) hwf.bidsSorted hsa2 hwf.bidsPS haPS2 hnd2
              _ hsub3 p A B l1 l2 (l3 ++ [o]) hg' r hB hlt
          · rw [if_neg hpo, hlevel] at hg
            exact priority_core_ask book.bids (insertAsk o book.asks)
              (book.orders ++ [(o.orderId, o)]) hwf.bidsSorted hsa2 hwf.bidsPS haPS2 hnd2
              _ hsub3 p A B l1 l2 l3 hg r hB hlt

/-- Claim C6: price-time priority.  If, on a reachable book, order B rests
behind order A at the same price level on the same side (the level queue
reads l1 ++ A :: l2 ++ B :: l3), then across any next public call after
which B is still resting partially filled (strictly smaller remaining
quantity), A's id no longer rests anywhere: new orders are appended at the
back of their level and matching consumes levels from the front, so the
earlier order A is filled no later than B. -/
theorem price_time_priority (ops : List Op) (op : Op) (side : Side) (p : Int)
    (A B : Order) (l1 l2 l3 : OrderQueue)
    (hlevel : getLevel ((runOps ops).sideLadder side) p = l1 ++ A :: l2 ++ B :: l3)
    (r : Nat)
    (hB : ((runOps ops).applyOp op).restingRemaining B.orderId = some r)
    (hlt : r < B.remainingQuantity) :
    ((runOps ops).applyOp op).idResting A.orderId = false := by
  have hwf := runOps_wf ops
  have hBrest0 : B ∈ (runOps ops).restingOrders := by
    cases side with
    | Buy =>
      simp only [Orderbook.sideLadder] at hlevel
      have hne : getLevel (runOps ops).bids p ≠ [] := by
        rw [hlevel]
        simp
      rcases getLevel_mem_of_ne_nil (runOps ops).bids p hne with ⟨q0, hm, hq⟩
      rw [Orderbook.restingOrders]
      refine List.mem_append_left _ ((ladderOrders_mem _ B).mpr ⟨(p, q0), hm, ?_⟩)
      have : B ∈ getLevel (runOps ops).bids p := by
        rw [hlevel]
        exact List.mem_append_right _ (List.mem_cons_self _ _)
      exact hq ▸ this
    | Sell =>
      simp only [Orderbook.sideLadder] at hlevel
      have hne : getLevel (runOps ops).asks p ≠ [] := by
        rw [hlevel]
        simp
      rcases getLevel_mem_of_ne_nil (runOps ops).asks p hne with ⟨q0, hm, hq⟩
      rw [Orderbook.restingOrders]
      refine List.mem_append_right _ ((ladderOrders_mem _ B).mpr ⟨(p, q0), hm, ?_⟩)
      have : B ∈ getLevel (runOps ops).asks p := by
        rw [hlevel]
        exact List.mem_append_right _ (List.mem_cons_self _ _)
      exact hq ▸ this
  cases op with
  | add o =>
    exact AddOrder_priority (runOps ops) o hwf side p A B l1 l2 l3 hlevel r hB hlt
  | cancel id =>
    exfalso
    rcases restingRemaining_extract ((runOps ops).CancelOrder id) B.orderId r hB with
      ⟨oB, hm, hid, hrem⟩
    have hm0 : oB ∈ (runOps ops).restingOrders :=
      CancelOrder_orders_subset (runOps ops) id hwf.toBookWF0 oB hm
    have hoB : oB = B := List.inj_on_of_nodup_map hwf.idsNodup hm0 hBrest0 hid
    rw [hoB] at hrem
    omega
  | modify request =>
    exfalso
    have hb' : (runOps ops).applyOp (Op.modify request) = runOps ops := by
      rw [Orderbook.applyOp]
      exact MatchOrder_state_id _ _
    rw [hb', restingRemaining_self _ hwf.idsNodup B hBrest0] at hB
    have := Option.some.inj hB
    omega

/-- Witness for price_time_priority: ids 1 and 2 both buy at 100 (id 1
first); a sell for 7 fills id 1 completely (5) and id 2 partially (2 of
5), after which id 2 rests with remaining 3 and id 1 is gone. -/
theorem price_time_priority_witness :
    ((runOps [Op.add (mkOrder .GoodTillCancel 1 .Buy 100 5),
        Op.add (mkOrder .GoodTillCancel 2 .Buy 100 5)]).applyOp
      (Op.add (mkOrder .GoodTillCancel 3 .Sell 100 7))).idResting
      (mkOrder .GoodTillCancel 1 .Buy 100 5).orderId = false :=
  price_time_priority
    [Op.add (mkOrder .GoodTillCancel 1 .Buy 100 5),
     Op.add (mkOrder .GoodTillCancel 2 .Buy 100 5)]
    (Op.add (mkOrder .GoodTillCancel 3 .Sell 100 7)) Side.Buy 100
    (mkOrder .GoodTillCancel 1 .Buy 100 5) (mkOrder .GoodTillCancel 2 .Buy 100 5)
    [] [] []
    (by simp [runOps, Orderbook.applyOp, Orderbook.AddOrder, Orderbook.MatchOrders,
      fnkBidStep, fnkAskStep, matchLoop, matchLevel, stepBids, stepAsks, stepOrds,
      fillQuantity, insertBid, insertAsk, containsId, lookupId, eraseId, getLevel,
      setLevel, eraseLevel, emptyBook, mkOrder, Order.fillTotal, Order.IsFilled,
      Orderbook.CanMatch, Orderbook.CancelOrder, cancelLadder, tradeOf,
      Orderbook.sideLadder, List.find?])
    3
    (by simp [runOps, Orderbook.applyOp, Orderbook.AddOrder, Orderbook.MatchOrders,
      fnkBidStep, fnkAskStep, matchLoop, matchLevel, stepBids, stepAsks, stepOrds,
      fillQuantity, insertBid, insertAsk, containsId, lookupId, eraseId, getLevel,
      setLevel, eraseLevel, emptyBook, mkOrder, Order.fillTotal, Order.IsFilled,
      Orderbook.CanMatch, Orderbook.CancelOrder, cancelLadder, tradeOf,
      Orderbook.restingRemaining, Orderbook.restingOrders, ladderOrders, List.find?])
    (by decide)
